import Mathlib

/-! WGraph: a weighted, undirected graph with adjacency lists and a weight matrix.

A shallow embedding of `WeightedGraph/WGraph.cpp`.

* `Edge *` (a pointer into a singly linked adjacency list) is a `List Edge`:
  `[]` is `nullptr`, and `e :: rest` is a record `e` whose `next` is `rest`.
* `Node *` values held in the traversal stack and queue are indices into
  `nodeList`.
* `nodeList` holds the `numNodes` non-null entries of the C++ array.
* `edgeMatrix` is a total map on indices; the code only touches entries whose
  indices are below `numNodes`, and `addNode` keeps `numNodes ≤ SIZE`.
* Unbounded `while` loops take a fuel argument that counts iterations.
-/

namespace WGraph

/-- One half of an undirected connection: the index of the far node and the weight. -/
structure Edge where
  endIndex : Nat
  weight : Int
  deriving DecidableEq, Repr

/-- A vertex: its label, its traversal flag and the head of its edge list. -/
structure Node where
  name : Char
  visited : Bool
  connects : List Edge
  deriving DecidableEq, Repr

end WGraph

/-- The graph object: the filled part of `nodeList` and the weight matrix. -/
structure WGraph where
  nodeList : List WGraph.Node
  edgeMatrix : Nat → Nat → Int

namespace WGraph

/-- Result of running code that may read outside `nodeList` or loop. -/
inductive Run (α : Type) where
  | ok : α → Run α
  | outOfRange : Run α
  | outOfFuel : Run α
  deriving DecidableEq, Repr

/-- The member `numNodes`. -/
def numNodes (g : WGraph) : Nat := g.nodeList.length

/-- The constructor `WGraph::WGraph()`: no nodes, matrix all zero. -/
def init : WGraph := ⟨[], fun _ _ => 0⟩

/-- The scan of `findNode` from position `i` on. -/
def findNodeFrom : List Node → Nat → Char → Int
  | [], _, _ => -1
  | n :: rest, i, name => if n.name = name then (i : Int) else findNodeFrom rest (i + 1) name

/-- `WGraph::findNode`: index of the first node with this name, `-1` if none. -/
def findNode (g : WGraph) (name : Char) : Int := findNodeFrom g.nodeList 0 name

/-- The read `nodeList[i]` for a C++ `int` index. -/
def nodeAt (g : WGraph) (i : Int) : Option Node :=
  if 0 ≤ i then g.nodeList[i.toNat]? else none

/-- Apply `f` to the node stored at position `i`. -/
def modifyNode (f : Node → Node) : List Node → Nat → List Node
  | [], _ => []
  | n :: ns, 0 => f n :: ns
  | n :: ns, i + 1 => n :: modifyNode f ns i

/-- The write `nodeList[i]->visited = true`. -/
def markVisited (g : WGraph) (i : Nat) : WGraph :=
  { g with nodeList := modifyNode (fun n => { n with visited := true }) g.nodeList i }

/-- The write `nodeList[i]->connects = e` with `e->next` the old head. -/
def pushEdge (g : WGraph) (i : Nat) (e : Edge) : WGraph :=
  { g with nodeList := modifyNode (fun n => { n with connects := e :: n.connects }) g.nodeList i }

/-- The write `edgeMatrix[i][j] = w`. -/
def setMatrix (g : WGraph) (i j : Nat) (w : Int) : WGraph :=
  { g with edgeMatrix := fun p q => if p = i ∧ q = j then w else g.edgeMatrix p q }

/-- `WGraph::addNode`, with the capacity `SIZE` of the header as a parameter. -/
def addNode (SIZE : Nat) (g : WGraph) (name : Char) : Except String WGraph :=
  if g.numNodes ≥ SIZE then
    .error "Graph size exceeded!!"
  else
    .ok { g with nodeList := g.nodeList ++ [{ name := name, visited := false, connects := [] }] }

/-- `WGraph::addWEdge`. -/
def addWEdge (g : WGraph) (startName endName : Char) (weight : Int) : Bool × WGraph :=
  if startName = endName then
    (false, g)
  else
    let startIndex := findNode g startName
    let endIndex := findNode g endName
    if startIndex = -1 ∨ endIndex = -1 then
      (false, g)
    else
      let g1 := setMatrix g startIndex.toNat endIndex.toNat weight
      let g2 := setMatrix g1 endIndex.toNat startIndex.toNat weight
      let g3 := pushEdge g2 startIndex.toNat ⟨endIndex.toNat, weight⟩
      let g4 := pushEdge g3 endIndex.toNat ⟨startIndex.toNat, weight⟩
      (true, g4)

/-- `WGraph::resetVisited`. -/
def resetVisited (g : WGraph) : WGraph :=
  { g with nodeList := g.nodeList.map (fun n => { n with visited := false }) }

/-- State of the `while` loop of `depthFirst`. `listed` records, next to
`buffer`, the indices of the nodes whose names the loop appended. -/
structure DfsState where
  graph : WGraph
  LIFO : List Nat
  buffer : String
  listed : List Nat

/-- The `for` loop of `depthFirst`: the first edge whose far node is unvisited. -/
def dfsScan (g : WGraph) : List Edge → Run (Option (Nat × Node))
  | [] => .ok none
  | e :: rest =>
    match g.nodeList[e.endIndex]? with
    | none => .outOfRange
    | some otherEnd =>
      if !otherEnd.visited then .ok (some (e.endIndex, otherEnd)) else dfsScan g rest

/-- The `while(!LIFO.empty())` loop of `depthFirst`; the head of `LIFO` is the top. -/
def dfsLoop : Nat → DfsState → Run DfsState
  | fuel, st =>
    match st.LIFO with
    | [] => .ok st
    | current :: rest =>
      match fuel with
      | 0 => .outOfFuel
      | fuel + 1 =>
        match st.graph.nodeList[current]? with
        | none => .outOfRange
        | some currentNode =>
          match dfsScan st.graph currentNode.connects with
          | .outOfRange => .outOfRange
          | .outOfFuel => .outOfFuel
          | .ok none => dfsLoop fuel { st with LIFO := rest }
          | .ok (some (j, otherEnd)) =>
            dfsLoop fuel
              { graph := markVisited st.graph j
                LIFO := j :: current :: rest
                buffer := (st.buffer.push otherEnd.name) ++ " "
                listed := st.listed ++ [j] }

/-- The run of `depthFirst` after the start node was found at index `index`. -/
def depthFirstFrom (fuel : Nat) (g : WGraph) (name : Char) (index : Nat) : Run DfsState :=
  match g.nodeList[index]? with
  | none => .outOfRange
  | some startingNode =>
    dfsLoop fuel
      { graph := markVisited g index
        LIFO := [index]
        buffer := ((("Depth first traversal starting at ".push name) ++ "\n").push
                    startingNode.name) ++ " : "
        listed := [] }

/-- `WGraph::depthFirst`: the returned string and the graph it leaves behind. -/
def depthFirst (fuel : Nat) (g : WGraph) (name : Char) : Run (String × WGraph) :=
  let index := findNode g name
  if index = -1 then
    .ok ("", g)
  else
    match depthFirstFrom fuel g name index.toNat with
    | .ok st => .ok (st.buffer, st.graph)
    | .outOfRange => .outOfRange
    | .outOfFuel => .outOfFuel

/-- State of the `while` loop of `breadthFirst`; the head of `FIFO` is the front. -/
structure BfsState where
  graph : WGraph
  FIFO : List Nat
  buffer : String
  listed : List Nat

/-- The `for` loop of `breadthFirst` over the edges of the current node. -/
def bfsScan (st : BfsState) : List Edge → Run BfsState
  | [] => .ok st
  | e :: rest =>
    match st.graph.nodeList[e.endIndex]? with
    | none => .outOfRange
    | some otherEnd =>
      if !otherEnd.visited then
        bfsScan
          { graph := markVisited st.graph e.endIndex
            FIFO := st.FIFO ++ [e.endIndex]
            buffer := (st.buffer.push otherEnd.name) ++ " "
            listed := st.listed ++ [e.endIndex] } rest
      else bfsScan st rest

/-- The `while(!FIFO.empty())` loop of `breadthFirst`. -/
def bfsLoop : Nat → BfsState → Run BfsState
  | fuel, st =>
    match st.FIFO with
    | [] => .ok st
    | current :: rest =>
      match fuel with
      | 0 => .outOfFuel
      | fuel + 1 =>
        match st.graph.nodeList[current]? with
        | none => .outOfRange
        | some currentNode =>
          match bfsScan { st with FIFO := rest } currentNode.connects with
          | .ok st1 => bfsLoop fuel st1
          | .outOfRange => .outOfRange
          | .outOfFuel => .outOfFuel

/-- The run of `breadthFirst` up to the end of its loop, start node at `index`. -/
def breadthFirstFrom (fuel : Nat) (g : WGraph) (name : Char) (index : Nat) : Run BfsState :=
  match g.nodeList[index]? with
  | none => .outOfRange
  | some startingNode =>
    bfsLoop fuel
      { graph := markVisited g index
        FIFO := [index]
        buffer := ((("Breadth first traversal starting at ".push name) ++ "\n").push
                    startingNode.name) ++ " : "
        listed := [] }

/-- `WGraph::breadthFirst`: the returned string and the graph it leaves behind. -/
def breadthFirst (fuel : Nat) (g : WGraph) (name : Char) : Run (String × WGraph) :=
  let index := findNode g name
  if index = -1 then
    .ok ("", g)
  else
    match breadthFirstFrom fuel g name index.toNat with
    | .ok st => .ok (st.buffer ++ "\n", resetVisited st.graph)
    | .outOfRange => .outOfRange
    | .outOfFuel => .outOfFuel

/-- Modelled from the spec: the class `PQueue` of `PQueue.h`, which is not part of
the sources at hand. It is "a transient min-ordered container of Edge references,
ordered by weight ascending", with insertion of one edge, bulk insertion of the
list that starts at a given head, removal of the minimum and an emptiness check.
An entry is a reference to a non-null `Edge`: the record and its `next` list.
Entries are kept in insertion order; among equal weights the entry inserted first
is removed first. -/
structure PQueue where
  items : List (Edge × List Edge)

namespace PQueue

/-- Modelled from the spec: a queue that holds nothing. -/
def empty : PQueue := ⟨[]⟩

/-- Modelled from the spec: `isEmpty` "reports whether any edges remain". -/
def isEmpty (pq : PQueue) : Bool := pq.items.isEmpty

/-- Modelled from the spec: `addEdge` "inserts one edge reference". -/
def addEdge (pq : PQueue) (e : Edge) (next : List Edge) : PQueue := ⟨pq.items ++ [(e, next)]⟩

/-- Modelled from the spec: `addQueue` "bulk-inserts every edge in a linked list
starting at the given head". -/
def addQueue (pq : PQueue) : List Edge → PQueue
  | [] => pq
  | e :: rest => addQueue (pq.addEdge e rest) rest

/-- Modelled from the spec: the entry of smallest weight and the other entries. -/
def removeMin : List (Edge × List Edge) → Option ((Edge × List Edge) × List (Edge × List Edge))
  | [] => none
  | x :: xs =>
    match removeMin xs with
    | none => some (x, [])
    | some (m, rest) => if x.1.weight ≤ m.1.weight then some (x, xs) else some (m, x :: rest)

/-- Modelled from the spec: `removeEdge` "removes and returns the edge reference
with smallest weight". -/
def removeEdge (pq : PQueue) : Option ((Edge × List Edge) × PQueue) :=
  match removeMin pq.items with
  | none => none
  | some (m, rest) => some (m, ⟨rest⟩)

end PQueue

/-- State of the `while` loop of `minCostTree`. `pairs` records, next to
`minCost`, the node indices of each pair the loop appended. -/
structure MstState where
  graph : WGraph
  pq : PQueue
  minCost : String
  current : Nat
  pairs : List (Nat × Nat)

/-- The first `for` loop of `minCostTree`: `pq.addEdge(temp)` for every edge of the list. -/
def mstSeed (pq : PQueue) : List Edge → PQueue
  | [] => pq
  | e :: rest => mstSeed (pq.addEdge e rest) rest

/-- The inner `for` loop of `minCostTree`, started at `shortest->next`. -/
def mstScan (g : WGraph) (pq : PQueue) : List Edge → Run PQueue
  | [] => .ok pq
  | e :: rest =>
    match g.nodeList[e.endIndex]? with
    | none => .outOfRange
    | some far => if !far.visited then mstScan g (pq.addQueue (e :: rest)) rest
                  else mstScan g pq rest

/-- The `while(!pq.isEmpty())` loop of `minCostTree`. -/
def mstLoop : Nat → MstState → Run MstState
  | fuel, st =>
    if st.pq.isEmpty then .ok st
    else
      match fuel with
      | 0 => .outOfFuel
      | fuel + 1 =>
        match st.pq.removeEdge with
        | none => .outOfRange
        | some (shortest, pq1) =>
          match st.graph.nodeList[st.current]?, st.graph.nodeList[shortest.1.endIndex]? with
          | some lastNode, some currentNode =>
            let g1 := markVisited st.graph shortest.1.endIndex
            match mstScan g1 pq1 shortest.2 with
            | .ok pq2 =>
              mstLoop fuel
                { graph := g1
                  pq := pq2
                  minCost := (((st.minCost.push lastNode.name) ++ "-").push currentNode.name) ++ " "
                  current := shortest.1.endIndex
                  pairs := st.pairs ++ [(st.current, shortest.1.endIndex)] }
            | .outOfRange => .outOfRange
            | .outOfFuel => .outOfFuel
          | _, _ => .outOfRange

/-- The run of `minCostTree` up to the end of its loop. The read
`nodeList[findNode(start)]` is not guarded in the source. -/
def minCostTreeFrom (fuel : Nat) (g : WGraph) (start : Char) : Run MstState :=
  match nodeAt g (findNode g start) with
  | none => .outOfRange
  | some startNode =>
    mstLoop fuel
      { graph := markVisited g (findNode g start).toNat
        pq := mstSeed PQueue.empty startNode.connects
        minCost := ("".push startNode.name) ++ " : "
        current := (findNode g start).toNat
        pairs := [] }

/-- `WGraph::minCostTree`: the returned string and the graph it leaves behind. -/
def minCostTree (fuel : Nat) (g : WGraph) (start : Char) : Run (String × WGraph) :=
  match minCostTreeFrom fuel g start with
  | .ok st => .ok (st.minCost, resetVisited st.graph)
  | .outOfRange => .outOfRange
  | .outOfFuel => .outOfFuel

/-- Graph left by an `addNode` call, whether it returned or threw. -/
def afterAddNode (SIZE : Nat) (g : WGraph) (name : Char) : WGraph :=
  match addNode SIZE g name with
  | .ok g1 => g1
  | .error _ => g

/-- The graph of the scenario: nodes A, B, C, D; edges A-B 1, B-C 2, A-C 4, C-D 1. -/
def scenario : WGraph :=
  let g := afterAddNode 20 (afterAddNode 20 (afterAddNode 20 (afterAddNode 20 init 'A') 'B') 'C') 'D'
  (addWEdge (addWEdge (addWEdge (addWEdge g 'A' 'B' 1).2 'B' 'C' 2).2 'A' 'C' 4).2 'C' 'D' 1).2

end WGraph

namespace WGraph

/-! ## Vocabulary of the properties -/

/-- A call of one of the two operations that build a graph. -/
inductive Op where
  | addNode (name : Char)
  | addWEdge (startName endName : Char) (weight : Int)
  deriving DecidableEq, Repr

/-- The graph after one call. -/
def applyOp (SIZE : Nat) (g : WGraph) : Op → WGraph
  | .addNode name => afterAddNode SIZE g name
  | .addWEdge a b w => (addWEdge g a b w).2

/-- The graph after a sequence of calls, made in order. -/
def runOps (SIZE : Nat) (g : WGraph) (ops : List Op) : WGraph :=
  ops.foldl (applyOp SIZE) g

/-- The adjacency list of node `i` (empty when there is no node `i`). -/
def edgesOf (g : WGraph) (i : Nat) : List Edge :=
  match g.nodeList[i]? with
  | some n => n.connects
  | none => []

/-- The visited flag of node `i` (false when there is no node `i`). -/
def isVisited (g : WGraph) (i : Nat) : Bool :=
  match g.nodeList[i]? with
  | some n => n.visited
  | none => false

/-- The label of node `i`. -/
def nameOf (g : WGraph) (i : Nat) : Char :=
  match g.nodeList[i]? with
  | some n => n.name
  | none => ' '

/-- The weight of the first edge of the list that leads to `j`, zero if there is none. -/
def firstWeightTo (l : List Edge) (j : Nat) : Int :=
  match l.find? (fun e => e.endIndex == j) with
  | some e => e.weight
  | none => 0

/-- The agreement of matrix and lists in the form of the specification: an entry
is nonzero exactly when the list holds an edge to that node, and every such edge
carries the entry as its weight. -/
def MatrixMirrorsLists (g : WGraph) : Prop :=
  ∀ i j, (g.edgeMatrix i j ≠ 0 ↔ ∃ e ∈ edgesOf g i, e.endIndex = j) ∧
    ∀ e ∈ edgesOf g i, e.endIndex = j → e.weight = g.edgeMatrix i j

/-- Every edge leads to an existing node. -/
def EdgesInRange (g : WGraph) : Prop :=
  ∀ i, ∀ e ∈ edgesOf g i, e.endIndex < g.numNodes

/-- No node is marked visited. -/
def AllUnvisited (g : WGraph) : Prop :=
  ∀ n ∈ g.nodeList, n.visited = false

/-- Node `j` can be reached from node `i` along edges of the adjacency lists. -/
def Reach (g : WGraph) (i j : Nat) : Prop :=
  Relation.ReflTransGen (fun a b => ∃ e ∈ edgesOf g a, e.endIndex = b) i j

/-- The buffer after a traversal appended, for each node of `l` in turn, its name
and a blank. -/
def appendNames (g : WGraph) (buffer : String) (l : List Nat) : String :=
  l.foldl (fun s i => (s.push (nameOf g i)) ++ " ") buffer

/-- The buffer after `minCostTree` appended one pair for each entry of `l`. -/
def appendPairs (g : WGraph) (buffer : String) (l : List (Nat × Nat)) : String :=
  l.foldl (fun s p => (((s.push (nameOf g p.1)) ++ "-").push (nameOf g p.2)) ++ " ") buffer

/-- The number of nodes not marked visited. -/
def unvisitedCount (g : WGraph) : Nat :=
  g.nodeList.countP (fun n => !n.visited)

/-- What the traversals never change: the names and the adjacency lists, in order. -/
def skeleton (g : WGraph) : List (Char × List Edge) :=
  g.nodeList.map (fun n => (n.name, n.connects))

/-- The header a traversal writes before its loop: the title line, the name of the
start node and a colon. -/
def traversalHeader (title : String) (name startName : Char) : String :=
  ((((title.push name) ++ "\n").push startName) ++ " : ")

/-- Invariant of the loops of `breadthFirst`, for a run on `g0` from node `s` with
initial buffer `b0`. While the inner loop scans node `c`, `l` is the part of its
list not yet looked at; between scans `l` is empty. -/
structure BfsInv (g0 : WGraph) (s : Nat) (b0 : String) (c : Nat) (l : List Edge)
    (st : BfsState) : Prop where
  shape : skeleton st.graph = skeleton g0
  matrix : st.graph.edgeMatrix = g0.edgeMatrix
  visited : ∀ k, isVisited st.graph k = true ↔ (k = s ∨ k ∈ st.listed)
  nodup : (s :: st.listed).Nodup
  reach : ∀ k ∈ st.listed, Reach g0 s k
  queued : ∀ k ∈ st.FIFO, k = s ∨ k ∈ st.listed
  closed : ∀ k, (k = s ∨ k ∈ st.listed) → ∀ e ∈ edgesOf g0 k,
    k ∈ st.FIFO ∨ (e.endIndex = s ∨ e.endIndex ∈ st.listed) ∨ (k = c ∧ e ∈ l)
  buffer : st.buffer = appendNames g0 b0 st.listed

/-- Invariant of the loop of `depthFirst`, for a run on `g0` from node `s` with
initial buffer `b0`. -/
structure DfsInv (g0 : WGraph) (s : Nat) (b0 : String) (st : DfsState) : Prop where
  shape : skeleton st.graph = skeleton g0
  matrix : st.graph.edgeMatrix = g0.edgeMatrix
  visited : ∀ k, isVisited st.graph k = true ↔ (k = s ∨ k ∈ st.listed)
  nodup : (s :: st.listed).Nodup
  reach : ∀ k ∈ st.listed, Reach g0 s k
  stacked : ∀ k ∈ st.LIFO, k = s ∨ k ∈ st.listed
  closed : ∀ k, (k = s ∨ k ∈ st.listed) → ∀ e ∈ edgesOf g0 k,
    k ∈ st.LIFO ∨ (e.endIndex = s ∨ e.endIndex ∈ st.listed)
  buffer : st.buffer = appendNames g0 b0 st.listed

/-- A bound on the number of iterations that the entries of a queue can still cause
in `minCostTree`: an entry whose `next` list has `n` edges counts `4 ^ (n + 1)`. -/
def pqWeight (items : List (Edge × List Edge)) : Nat :=
  (items.map (fun it => 4 ^ (it.2.length + 1))).sum

/-- Invariant of the loop of `minCostTree`, for a run on `g0` from node `s` with
initial text `b0`: every queue entry is an edge of the list of `s`, together with
the rest of that list. -/
structure MstInv (g0 : WGraph) (s : Nat) (b0 : String) (st : MstState) : Prop where
  shape : skeleton st.graph = skeleton g0
  matrix : st.graph.edgeMatrix = g0.edgeMatrix
  current : st.current < g0.numNodes
  entries : ∀ it ∈ st.pq.items, (it.1 :: it.2) <:+ edgesOf g0 s
  text : st.minCost = appendPairs g0 b0 st.pairs

/-- A number of iterations that suffices for the loop of `minCostTree(name)`. -/
def mstFuel (g : WGraph) (name : Char) : Nat :=
  2 * 4 ^ (edgesOf g (findNode g name).toNat).length

/-- The inner `while` loop of `displayWEdges`: the names of the far nodes of a list. -/
def displayEdgeNames (g : WGraph) (ss : String) : List Edge → Run String
  | [] => .ok ss
  | e :: rest =>
    match g.nodeList[e.endIndex]? with
    | none => .outOfRange
    | some far => displayEdgeNames g ((ss.push far.name) ++ " ") rest

/-- The outer `for` loop of `displayWEdges` over the nodes still to print. -/
def displayRows (g : WGraph) (ss : String) : List Node → Run String
  | [] => .ok ss
  | n :: rest =>
    match displayEdgeNames g ((ss.push n.name) ++ "-") n.connects with
    | .ok s1 => displayRows g (s1 ++ "\n") rest
    | .outOfRange => .outOfRange
    | .outOfFuel => .outOfFuel

/-- `WGraph::displayWEdges`. -/
def displayWEdges (g : WGraph) : Run String :=
  displayRows g "" g.nodeList

/-- Node `k` carries a label that a node at a smaller index carries too. -/
def Shadowed (g : WGraph) (k : Nat) : Prop :=
  ∃ k1 n n1, k1 < k ∧ g.nodeList[k]? = some n ∧ g.nodeList[k1]? = some n1 ∧ n1.name = n.name

/-- Node `k` has no edge, no edge leads to it, and its matrix row and column are zero. -/
def Isolated (g : WGraph) (k : Nat) : Prop :=
  edgesOf g k = [] ∧ (∀ i, ∀ e ∈ edgesOf g i, e.endIndex ≠ k) ∧
    ∀ q, g.edgeMatrix k q = 0 ∧ g.edgeMatrix q k = 0

/-- Nodes A, B, C with the edges A-B of weight 1 and A-C of weight 2. -/
def fork : WGraph :=
  runOps 20 init [.addNode 'A', .addNode 'B', .addNode 'C', .addWEdge 'A' 'B' 1,
    .addWEdge 'A' 'C' 2]

/-- Nodes A, B, C with the edges A-B of weight 2 and A-C of weight 1. -/
def forkHeavy : WGraph :=
  runOps 20 init [.addNode 'A', .addNode 'B', .addNode 'C', .addWEdge 'A' 'B' 2,
    .addWEdge 'A' 'C' 1]

/-- There is a walk of `n` edges from node `i` to node `j`. -/
inductive Walk (g : WGraph) (i : Nat) : Nat → Nat → Prop where
  | zero : Walk g i 0 i
  | step {n k j : Nat} : Walk g i n k → (∃ e ∈ edgesOf g k, e.endIndex = j) → Walk g i (n + 1) j

/-- The hop distance of node `j` from node `s` is `d`. -/
def HopDist (g : WGraph) (s j d : Nat) : Prop :=
  Walk g s d j ∧ ∀ m, Walk g s m j → d ≤ m

/-- The far nodes of the edges of `l`, in list order, leaving out the nodes of
`seen` and every repetition. -/
def freshNeighbours : List Nat → List Edge → List Nat
  | _, [] => []
  | seen, e :: rest =>
    if e.endIndex ∈ seen then freshNeighbours seen rest
    else e.endIndex :: freshNeighbours (seen ++ [e.endIndex]) rest

/-- Node `k` is the start node `s` or the far node of an edge of the list of `s`. -/
def NearStart (g : WGraph) (s k : Nat) : Prop :=
  k = s ∨ ∃ e ∈ edgesOf g s, e.endIndex = k

/-- Invariant of the loop of `minCostTree` on `g0` from node `s`: only the start node
and far nodes of its own edges are marked or written as second element of a pair. -/
structure MstNear (g0 : WGraph) (s : Nat) (st : MstState) : Prop where
  marked : ∀ k, isVisited st.graph k = true → NearStart g0 s k
  second : ∀ p ∈ st.pairs, ∃ e ∈ edgesOf g0 s, e.endIndex = p.2

/-- Order invariant of the loops of `breadthFirst` on `g` from node `s`, for a level
map `lev`, while node `u` (already taken from the queue) is being scanned: the visit
order and the queue are sorted by level, the queue lies at most one level above `u`,
and every node below the level of `u` is visited with all its neighbours. -/
structure BfsOrd (g : WGraph) (s : Nat) (lev : Nat → Nat) (u : Nat) (st : BfsState) : Prop where
  sorted : (s :: st.listed).Pairwise (fun a b => lev a ≤ lev b)
  qsorted : st.FIFO.Pairwise (fun a b => lev a ≤ lev b)
  cur_le : ∀ q ∈ st.FIFO, lev u ≤ lev q
  span : ∀ v, (v = s ∨ v ∈ st.listed) → lev v ≤ lev u + 1
  below : ∀ x, Reach g s x → lev x < lev u →
    (x = s ∨ x ∈ st.listed) ∧ ∀ e ∈ edgesOf g x, (e.endIndex = s ∨ e.endIndex ∈ st.listed)

/-- The graph states reachable through the public operations: the constructor,
`addNode`, `addWEdge`, and every returned call of `depthFirst`, `breadthFirst` and
`minCostTree`. -/
inductive Public (SIZE : Nat) : WGraph → Prop where
  | init : Public SIZE init
  | build (g : WGraph) (op : Op) : Public SIZE g → Public SIZE (applyOp SIZE g op)
  | depthFirst (g g1 : WGraph) (fuel : Nat) (name : Char) (str : String) :
      Public SIZE g → WGraph.depthFirst fuel g name = .ok (str, g1) → Public SIZE g1
  | breadthFirst (g g1 : WGraph) (fuel : Nat) (name : Char) (str : String) :
      Public SIZE g → WGraph.breadthFirst fuel g name = .ok (str, g1) → Public SIZE g1
  | minCostTree (g g1 : WGraph) (fuel : Nat) (name : Char) (str : String) :
      Public SIZE g → WGraph.minCostTree fuel g name = .ok (str, g1) → Public SIZE g1

/-- The graph with nodes A, B and the edge A-B as `depthFirst('A')` leaves it: both
flags set. -/
def staleAB : WGraph :=
  markVisited (markVisited
    (runOps 20 init [.addNode 'A', .addNode 'B', .addWEdge 'A' 'B' 1]) 0) 1

/-- The effect of `std::setw(n)` on the next output `s`: blanks on the left up to
width `n`, nothing cut off. -/
def setw (n : Nat) (s : String) : String :=
  String.mk (List.replicate (n - s.length) ' ') ++ s

/-- The fields that `displayMatrix` writes on its header line: a blank of width 2
and the name of every node in width 4. -/
def displayMatrixHeader (g : WGraph) : List String :=
  setw 2 " " :: (List.range g.numNodes).map (fun i => setw 4 (String.singleton (nameOf g i)))

/-- The fields that `displayMatrix` writes on the line of node `i`: its name in
width 2 and `edgeMatrix[i][j]` in width 4 for every `j < numNodes`. -/
def displayMatrixLine (g : WGraph) (i : Nat) : List String :=
  setw 2 (String.singleton (nameOf g i)) ::
    (List.range g.numNodes).map (fun j => setw 4 (toString (g.edgeMatrix i j)))

/-- The lines of `displayMatrix`, each as its list of fields. -/
def displayMatrixLines (g : WGraph) : List (List String) :=
  displayMatrixHeader g :: (List.range g.numNodes).map (displayMatrixLine g)

/-- `WGraph::displayMatrix`: every field in turn, `std::endl` after each line. -/
def displayMatrix (g : WGraph) : String :=
  String.join ((displayMatrixLines g).map (fun fields => String.join fields ++ "\n"))

/-- The field of `displayMatrix` in the row of node `i` and the column of node `j`. -/
def displayMatrixField (g : WGraph) (i j : Nat) : Option String :=
  match (displayMatrixLines g)[i + 1]? with
  | some fields => fields[j + 1]?
  | none => none

/-- The field of the header line of `displayMatrix` above the column of node `j`. -/
def displayMatrixColumn (g : WGraph) (j : Nat) : Option String :=
  (displayMatrixHeader g)[j + 1]?

/-- The first field of the line that `displayMatrix` writes for node `i`. -/
def displayMatrixRowLabel (g : WGraph) (i : Nat) : Option String :=
  match (displayMatrixLines g)[i + 1]? with
  | some fields => fields[0]?
  | none => none

end WGraph

namespace WGraph

/-! ## Basic facts about the node list -/

theorem length_modifyNode (f : Node → Node) (l : List Node) (i : Nat) :
    (modifyNode f l i).length = l.length := by
  induction l generalizing i with
  | nil => rfl
  | cons n ns ih => cases i <;> simp [modifyNode, ih]

theorem getElem?_modifyNode (f : Node → Node) (l : List Node) (i j : Nat) :
    (modifyNode f l i)[j]? = if j = i then (l[j]?).map f else l[j]? := by
  induction l generalizing i j with
  | nil => simp [modifyNode]
  | cons n ns ih =>
    cases i with
    | zero => cases j <;> simp [modifyNode]
    | succ i => cases j <;> simp [modifyNode, ih]

theorem findNodeFrom_eq_neg_one (l : List Node) (i : Nat) (name : Char) :
    findNodeFrom l i name = -1 ↔ ∀ n ∈ l, n.name ≠ name := by
  induction l generalizing i with
  | nil => simp [findNodeFrom]
  | cons n ns ih =>
    by_cases h : n.name = name
    · simp only [findNodeFrom, h, if_true]
      constructor
      · intro h1; omega
      · intro h1; exact absurd h (h1 n (List.mem_cons_self _ _))
    · simp [findNodeFrom, h, ih]

theorem findNodeFrom_found (l : List Node) (i : Nat) (name : Char) (r : Nat)
    (h : findNodeFrom l i name = (r : Int)) :
    ∃ k n, r = i + k ∧ l[k]? = some n ∧ n.name = name ∧
      ∀ k' n', k' < k → l[k']? = some n' → n'.name ≠ name := by
  induction l generalizing i with
  | nil => simp only [findNodeFrom] at h; omega
  | cons n ns ih =>
    by_cases hn : n.name = name
    · simp only [findNodeFrom, hn, if_true] at h
      exact ⟨0, n, by omega, by simp, hn, fun k' n' hk => absurd hk (Nat.not_lt_zero _)⟩
    · simp only [findNodeFrom, hn, if_false] at h
      obtain ⟨k, m, hr, hk, hm, hmin⟩ := ih (i + 1) h
      refine ⟨k + 1, m, by omega, by simpa using hk, hm, ?_⟩
      intro k' n' hk' hget
      cases k' with
      | zero => simp at hget; subst hget; exact hn
      | succ k' => exact hmin k' n' (by omega) (by simpa using hget)

theorem findNodeFrom_ge (l : List Node) (i : Nat) (name : Char) :
    findNodeFrom l i name = -1 ∨ ∃ r : Nat, findNodeFrom l i name = (r : Int) := by
  induction l generalizing i with
  | nil => left; rfl
  | cons n ns ih =>
    by_cases hn : n.name = name
    · right; exact ⟨i, by simp [findNodeFrom, hn]⟩
    · simp only [findNodeFrom, hn, if_false]; exact ih (i + 1)

theorem findNode_eq_neg_one (g : WGraph) (name : Char) :
    findNode g name = -1 ↔ ∀ n ∈ g.nodeList, n.name ≠ name :=
  findNodeFrom_eq_neg_one g.nodeList 0 name

theorem findNode_found (g : WGraph) (name : Char) (r : Nat) (h : findNode g name = (r : Int)) :
    ∃ n, g.nodeList[r]? = some n ∧ n.name = name ∧
      ∀ k' n', k' < r → g.nodeList[k']? = some n' → n'.name ≠ name := by
  obtain ⟨k, n, hr, hk, hn, hmin⟩ := findNodeFrom_found g.nodeList 0 name r h
  have : r = k := by omega
  subst this
  exact ⟨n, hk, hn, hmin⟩

theorem findNode_cases (g : WGraph) (name : Char) :
    findNode g name = -1 ∨ ∃ r : Nat, findNode g name = (r : Int) :=
  findNodeFrom_ge g.nodeList 0 name

end WGraph

namespace WGraph

/-! ## The effect of `addWEdge` -/

theorem addWEdge_fail (g : WGraph) (a b : Char) (w : Int)
    (h : a = b ∨ (∀ n ∈ g.nodeList, n.name ≠ a) ∨ (∀ n ∈ g.nodeList, n.name ≠ b)) :
    addWEdge g a b w = (false, g) := by
  unfold addWEdge
  by_cases hab : a = b
  · simp [hab]
  · rcases h with h | h | h
    · exact absurd h hab
    · simp [hab, (findNode_eq_neg_one g a).2 h]
    · simp [hab, (findNode_eq_neg_one g b).2 h]

theorem addWEdge_success (g : WGraph) (a b : Char) (w : Int) (i j : Nat)
    (hab : a ≠ b) (hi : findNode g a = (i : Int)) (hj : findNode g b = (j : Int)) :
    ∃ g1, addWEdge g a b w = (true, g1) ∧ i ≠ j ∧
      g1.nodeList.length = g.nodeList.length ∧
      (∀ k n, g.nodeList[k]? = some n →
        g1.nodeList[k]? = some
          ({ name := n.name
             visited := n.visited
             connects := if k = i then ⟨j, w⟩ :: n.connects
                         else if k = j then ⟨i, w⟩ :: n.connects else n.connects } : Node)) ∧
      (∀ p q, g1.edgeMatrix p q =
        if (p = i ∧ q = j) ∨ (p = j ∧ q = i) then w else g.edgeMatrix p q) := by
  obtain ⟨ni, hni, hnia, -⟩ := findNode_found g a i hi
  obtain ⟨nj, hnj, hnjb, -⟩ := findNode_found g b j hj
  have hij : i ≠ j := by
    intro h; subst h
    rw [hni] at hnj
    cases hnj
    exact hab (hnia.symm.trans hnjb)
  have h1 : ¬ ((i : Int) = -1) := by omega
  have h2 : ¬ ((j : Int) = -1) := by omega
  refine ⟨_, by simp only [addWEdge, hab, hi, hj, h1, h2, if_false, or_self]; rfl, hij, ?_, ?_, ?_⟩
  · simp [pushEdge, setMatrix, length_modifyNode]
  · intro k n hk
    simp only [pushEdge, setMatrix, getElem?_modifyNode, Int.toNat_ofNat, hk]
    by_cases hki : k = i
    · have hkj : k ≠ j := fun h => hij (hki.symm.trans h)
      simp [hki, hij]
    · by_cases hkj : k = j
      · simp [hkj, hki, Ne.symm hij]
      · simp [hki, hkj]
  · intro p q
    simp only [pushEdge, setMatrix, Int.toNat_ofNat]
    by_cases h3 : p = j ∧ q = i
    · simp [h3]
    · by_cases h4 : p = i ∧ q = j
      · simp [h4]
      · simp [h3, h4]

/-! ## Unknown start labels and rejected edges -/

/-- C2: when `findNode` does not find the label, `minCostTree` reads `nodeList[-1]`:
the run ends in an out-of-range access instead of returning the empty string. -/
theorem minCostTree_absent_label (fuel : Nat) (g : WGraph) (start : Char)
    (h : findNode g start = -1) : minCostTree fuel g start = .outOfRange := by
  simp [minCostTree, minCostTreeFrom, nodeAt, h]

theorem minCostTree_absent_label_witness :
    findNode scenario 'Z' = -1 ∧ minCostTree 10 scenario 'Z' = .outOfRange :=
  ⟨by decide, minCostTree_absent_label 10 scenario 'Z' (by decide)⟩

/-- C3: when `findNode` does not find the label, `depthFirst` and `breadthFirst`
return the empty string and leave the whole graph (flags, lists, matrix) as it was. -/
theorem traversal_absent_label (fuel : Nat) (g : WGraph) (name : Char)
    (h : findNode g name = -1) :
    depthFirst fuel g name = .ok ("", g) ∧ breadthFirst fuel g name = .ok ("", g) := by
  simp [depthFirst, breadthFirst, h]

theorem traversal_absent_label_witness :
    findNode scenario 'Z' = -1 ∧
      depthFirst 10 scenario 'Z' = .ok ("", scenario) ∧
      breadthFirst 10 scenario 'Z' = .ok ("", scenario) :=
  ⟨by decide, traversal_absent_label 10 scenario 'Z' (by decide)⟩

/-- C6: `addWEdge a b w` returns false and leaves the graph as it was when `a = b`
or when `a` or `b` is not the label of any node. -/
theorem addWEdge_rejected (g : WGraph) (a b : Char) (w : Int)
    (h : a = b ∨ (∀ n ∈ g.nodeList, n.name ≠ a) ∨ (∀ n ∈ g.nodeList, n.name ≠ b)) :
    addWEdge g a b w = (false, g) :=
  addWEdge_fail g a b w h

theorem addWEdge_rejected_witness :
    ('A' = 'A' ∨ (∀ n ∈ scenario.nodeList, n.name ≠ 'A') ∨
        (∀ n ∈ scenario.nodeList, n.name ≠ 'A')) ∧
      addWEdge scenario 'A' 'A' 7 = (false, scenario) :=
  ⟨Or.inl rfl, addWEdge_rejected scenario 'A' 'A' 7 (Or.inl rfl)⟩

/-- C7: for distinct labels that `findNode` resolves to `i` and `j`, `addWEdge`
returns true; `i ≠ j`; the node count, every name and every visited flag are kept;
node `i` gets the edge `(j, w)` at the head of its list, node `j` the edge `(i, w)`,
all other lists are kept; matrix entries `[i][j]` and `[j][i]` become `w` and all
other entries are kept. -/
theorem addWEdge_accepted (g : WGraph) (a b : Char) (w : Int) (i j : Nat)
    (hab : a ≠ b) (hi : findNode g a = (i : Int)) (hj : findNode g b = (j : Int)) :
    ∃ g1, addWEdge g a b w = (true, g1) ∧ i ≠ j ∧
      g1.nodeList.length = g.nodeList.length ∧
      (∀ k n, g.nodeList[k]? = some n →
        g1.nodeList[k]? = some
          ({ name := n.name
             visited := n.visited
             connects := if k = i then ⟨j, w⟩ :: n.connects
                         else if k = j then ⟨i, w⟩ :: n.connects else n.connects } : Node)) ∧
      (∀ p q, g1.edgeMatrix p q =
        if (p = i ∧ q = j) ∨ (p = j ∧ q = i) then w else g.edgeMatrix p q) :=
  addWEdge_success g a b w i j hab hi hj

theorem addWEdge_accepted_witness :
    ∃ g1, addWEdge scenario 'A' 'D' 9 = (true, g1) ∧ 0 ≠ 3 ∧
      g1.nodeList.length = scenario.nodeList.length ∧
      (∀ k n, scenario.nodeList[k]? = some n →
        g1.nodeList[k]? = some
          ({ name := n.name
             visited := n.visited
             connects := if k = 0 then ⟨3, 9⟩ :: n.connects
                         else if k = 3 then ⟨0, 9⟩ :: n.connects else n.connects } : Node)) ∧
      (∀ p q, g1.edgeMatrix p q =
        if (p = 0 ∧ q = 3) ∨ (p = 3 ∧ q = 0) then 9 else scenario.edgeMatrix p q) :=
  addWEdge_accepted scenario 'A' 'D' 9 0 3 (by decide) (by decide) (by decide)

end WGraph

namespace WGraph

/-! ## Graphs built by `addNode` and `addWEdge` -/

theorem edgesOf_addWEdge (g g1 : WGraph) (i j : Nat) (w : Int)
    (hi : i < g.nodeList.length) (hj : j < g.nodeList.length)
    (hlen : g1.nodeList.length = g.nodeList.length)
    (h : ∀ k n, g.nodeList[k]? = some n →
        g1.nodeList[k]? = some
          ({ name := n.name
             visited := n.visited
             connects := if k = i then ⟨j, w⟩ :: n.connects
                         else if k = j then ⟨i, w⟩ :: n.connects else n.connects } : Node))
    (k : Nat) :
    edgesOf g1 k = if k = i then ⟨j, w⟩ :: edgesOf g k
                   else if k = j then ⟨i, w⟩ :: edgesOf g k else edgesOf g k := by
  by_cases hk : k < g.nodeList.length
  · obtain ⟨n, hn⟩ : ∃ n, g.nodeList[k]? = some n := ⟨g.nodeList[k], List.getElem?_eq_getElem hk⟩
    simp only [edgesOf, h k n hn, hn]
  · have h1 : g.nodeList[k]? = none := List.getElem?_eq_none (by omega)
    have h2 : g1.nodeList[k]? = none := List.getElem?_eq_none (by omega)
    have h3 : k ≠ i := by omega
    have h4 : k ≠ j := by omega
    simp [edgesOf, h1, h2, h3, h4]

theorem edgesOf_append_fresh (g : WGraph) (name : Char) (k : Nat) :
    edgesOf { g with nodeList := g.nodeList ++ [{ name := name, visited := false, connects := [] }] } k
      = edgesOf g k := by
  simp only [edgesOf]
  rcases Nat.lt_trichotomy k g.nodeList.length with hk | hk | hk
  · rw [List.getElem?_append_left hk]
  · subst hk
    simp
  · rw [List.getElem?_eq_none (by simp; omega), List.getElem?_eq_none (by omega)]

/-- What one call can do to a graph: nothing, append a fresh node, or insert an edge. -/
theorem applyOp_cases (SIZE : Nat) (g : WGraph) (op : Op) :
    applyOp SIZE g op = g ∨
    (∃ name, op = .addNode name ∧ applyOp SIZE g op =
      { g with nodeList := g.nodeList ++ [{ name := name, visited := false, connects := [] }] }) ∨
    (∃ a b w, ∃ i j : Nat, op = .addWEdge a b w ∧ a ≠ b ∧
      findNode g a = (i : Int) ∧ findNode g b = (j : Int) ∧
      addWEdge g a b w = (true, applyOp SIZE g op)) := by
  cases op with
  | addNode name =>
    by_cases h : g.numNodes ≥ SIZE
    · left; simp [applyOp, afterAddNode, addNode, h]
    · right; left; exact ⟨name, rfl, by simp [applyOp, afterAddNode, addNode, h]⟩
  | addWEdge a b w =>
    by_cases hab : a = b
    · left; simp [applyOp, addWEdge, hab]
    · rcases findNode_cases g a with ha | ⟨i, ha⟩
      · left; simp [applyOp, addWEdge, hab, ha]
      · rcases findNode_cases g b with hb | ⟨j, hb⟩
        · left; simp [applyOp, addWEdge, hab, hb]
        · right; right
          obtain ⟨g1, hg1, -⟩ := addWEdge_success g a b w i j hab ha hb
          exact ⟨a, b, w, i, j, rfl, hab, ha, hb, by simp [applyOp, hg1]⟩

theorem runOps_append (SIZE : Nat) (g : WGraph) (ops1 ops2 : List Op) :
    runOps SIZE g (ops1 ++ ops2) = runOps SIZE (runOps SIZE g ops1) ops2 := by
  simp [runOps, List.foldl_append]

theorem runOps_cons (SIZE : Nat) (g : WGraph) (op : Op) (ops : List Op) :
    runOps SIZE g (op :: ops) = runOps SIZE (applyOp SIZE g op) ops := rfl

/-- A property kept by every call holds after every sequence of calls. -/
theorem runOps_invariant (SIZE : Nat) (P : WGraph → Prop)
    (hstep : ∀ g op, P g → P (applyOp SIZE g op)) (g : WGraph) (h0 : P g) (ops : List Op) :
    P (runOps SIZE g ops) := by
  induction ops generalizing g with
  | nil => exact h0
  | cons op ops ih => exact ih _ (hstep g op h0)

theorem firstWeightTo_cons (e : Edge) (l : List Edge) (j : Nat) :
    firstWeightTo (e :: l) j = if e.endIndex = j then e.weight else firstWeightTo l j := by
  by_cases h : e.endIndex = j
  · simp [firstWeightTo, List.find?, h]
  · have hb : (e.endIndex == j) = false := by simpa using h
    simp only [firstWeightTo, List.find?, hb, h, if_false]

theorem firstWeightTo_mem (l : List Edge) (j : Nat) (h : firstWeightTo l j ≠ 0) :
    ∃ e ∈ l, e.endIndex = j ∧ e.weight = firstWeightTo l j := by
  induction l with
  | nil => simp [firstWeightTo] at h
  | cons e l ih =>
    rw [firstWeightTo_cons] at h ⊢
    by_cases he : e.endIndex = j
    · exact ⟨e, List.mem_cons_self _ _, he, by simp [he]⟩
    · simp only [he, if_false] at h ⊢
      obtain ⟨e1, h1, h2, h3⟩ := ih h
      exact ⟨e1, List.mem_cons_of_mem _ h1, h2, h3⟩

theorem matrix_firstWeight_step (SIZE : Nat) (g : WGraph) (op : Op)
    (h : ∀ i j, g.edgeMatrix i j = firstWeightTo (edgesOf g i) j) :
    ∀ i j, (applyOp SIZE g op).edgeMatrix i j
      = firstWeightTo (edgesOf (applyOp SIZE g op) i) j := by
  rcases applyOp_cases SIZE g op with h1 | ⟨name, -, h1⟩ | ⟨a, b, w, i, j, -, hab, ha, hb, h1⟩
  · rw [h1]; exact h
  · rw [h1]
    intro p q
    rw [edgesOf_append_fresh]
    exact h p q
  · obtain ⟨g1, hg1, hij, hlen, hnodes, hmat⟩ := addWEdge_success g a b w i j hab ha hb
    have hg : applyOp SIZE g op = g1 := by
      rw [hg1] at h1; exact (Prod.mk.inj h1).2.symm
    rw [hg]
    obtain ⟨ni, hni, -⟩ := findNode_found g a i ha
    obtain ⟨nj, hnj, -⟩ := findNode_found g b j hb
    have hi : i < g.nodeList.length := (List.getElem?_eq_some.1 hni).1
    have hj : j < g.nodeList.length := (List.getElem?_eq_some.1 hnj).1
    intro p q
    rw [hmat, edgesOf_addWEdge g g1 i j w hi hj hlen hnodes p]
    by_cases hp : p = i
    · subst hp
      by_cases hq : q = j
      · subst hq; simp [firstWeightTo_cons]
      · have : ¬ (j = q) := fun h => hq h.symm
        simp [firstWeightTo_cons, hq, this, hij, h]
    · by_cases hp2 : p = j
      · subst hp2
        by_cases hq : q = i
        · subst hq; simp [firstWeightTo_cons, hp]
        · have : ¬ (i = q) := fun h => hq h.symm
          simp [firstWeightTo_cons, hq, this, hp, h]
      · simp [hp, hp2, h]

end WGraph

namespace WGraph

theorem findNodeFrom_names (l1 l2 : List Node) (i : Nat) (name : Char)
    (h : l1.map (fun n => n.name) = l2.map (fun n => n.name)) :
    findNodeFrom l1 i name = findNodeFrom l2 i name := by
  induction l1 generalizing l2 i with
  | nil =>
    cases l2 with
    | nil => rfl
    | cons n ns => simp at h
  | cons m ms ih =>
    cases l2 with
    | nil => simp at h
    | cons n ns =>
      simp only [List.map_cons, List.cons.injEq] at h
      simp only [findNodeFrom, h.1, ih ns (i + 1) h.2]

theorem findNodeFrom_append (l l2 : List Node) (i : Nat) (name : Char) (r : Nat)
    (h : findNodeFrom l i name = (r : Int)) : findNodeFrom (l ++ l2) i name = (r : Int) := by
  induction l generalizing i with
  | nil => simp only [findNodeFrom] at h; omega
  | cons n ns ih =>
    by_cases hn : n.name = name
    · simpa [findNodeFrom, hn] using h
    · simp only [findNodeFrom, hn, if_false, List.cons_append] at h ⊢
      exact ih (i + 1) h

theorem names_addWEdge (g g1 : WGraph) (i j : Nat) (w : Int)
    (hlen : g1.nodeList.length = g.nodeList.length)
    (h : ∀ k n, g.nodeList[k]? = some n →
        g1.nodeList[k]? = some
          ({ name := n.name
             visited := n.visited
             connects := if k = i then ⟨j, w⟩ :: n.connects
                         else if k = j then ⟨i, w⟩ :: n.connects else n.connects } : Node)) :
    g1.nodeList.map (fun n => n.name) = g.nodeList.map (fun n => n.name) := by
  apply List.ext_getElem?
  intro k
  rw [List.getElem?_map, List.getElem?_map]
  by_cases hk : k < g.nodeList.length
  · obtain ⟨n, hn⟩ : ∃ n, g.nodeList[k]? = some n := ⟨g.nodeList[k], List.getElem?_eq_getElem hk⟩
    rw [h k n hn, hn]; rfl
  · rw [List.getElem?_eq_none (by omega), List.getElem?_eq_none (by omega)]

theorem lastEdge_step (SIZE : Nat) (g : WGraph) (op : Op) (a b : Char) (w : Int) (i j : Nat)
    (hop : ∀ a1 b1 w1, op = .addWEdge a1 b1 w1 → ¬ ((a1 = a ∧ b1 = b) ∨ (a1 = b ∧ b1 = a)))
    (h : findNode g a = (i : Int) ∧ findNode g b = (j : Int) ∧
      g.edgeMatrix i j = w ∧ g.edgeMatrix j i = w) :
    findNode (applyOp SIZE g op) a = (i : Int) ∧ findNode (applyOp SIZE g op) b = (j : Int) ∧
      (applyOp SIZE g op).edgeMatrix i j = w ∧ (applyOp SIZE g op).edgeMatrix j i = w := by
  obtain ⟨ha, hb, hm1, hm2⟩ := h
  rcases applyOp_cases SIZE g op with h1 | ⟨name, -, h1⟩ |
    ⟨a1, b1, w1, i1, j1, hopeq, hab1, ha1, hb1, h1⟩
  · rw [h1]; exact ⟨ha, hb, hm1, hm2⟩
  · rw [h1]
    exact ⟨findNodeFrom_append _ _ 0 a i ha, findNodeFrom_append _ _ 0 b j hb, hm1, hm2⟩
  · obtain ⟨g1, hg1, hij, hlen, hnodes, hmat⟩ := addWEdge_success g a1 b1 w1 i1 j1 hab1 ha1 hb1
    have hg : applyOp SIZE g op = g1 := by
      rw [hg1] at h1; exact (Prod.mk.inj h1).2.symm
    rw [hg]
    have hnames := names_addWEdge g g1 i1 j1 w1 hlen hnodes
    obtain ⟨na, hna, hnaa, -⟩ := findNode_found g a i ha
    obtain ⟨nb, hnb, hnbb, -⟩ := findNode_found g b j hb
    obtain ⟨na1, hna1, hnaa1, -⟩ := findNode_found g a1 i1 ha1
    obtain ⟨nb1, hnb1, hnbb1, -⟩ := findNode_found g b1 j1 hb1
    have hno := hop a1 b1 w1 hopeq
    have key : ∀ (x y : Nat) (nx ny : Node) (cx cy : Char),
        g.nodeList[x]? = some nx → nx.name = cx → g.nodeList[y]? = some ny → ny.name = cy →
        x = y → cx = cy := by
      intro x y nx ny cx cy h1 h2 h3 h4 hxy
      subst hxy
      rw [h1] at h3
      cases h3
      exact h2.symm.trans h4
    refine ⟨?_, ?_, ?_, ?_⟩
    · exact (findNodeFrom_names _ _ 0 a hnames).trans ha
    · exact (findNodeFrom_names _ _ 0 b hnames).trans hb
    · rw [hmat, if_neg, hm1]
      rintro (⟨h3, h4⟩ | ⟨h3, h4⟩)
      · exact hno (Or.inl ⟨key _ _ _ _ _ _ hna1 hnaa1 hna hnaa h3.symm,
          key _ _ _ _ _ _ hnb1 hnbb1 hnb hnbb h4.symm⟩)
      · exact hno (Or.inr ⟨key _ _ _ _ _ _ hna1 hnaa1 hnb hnbb h4.symm,
          key _ _ _ _ _ _ hnb1 hnbb1 hna hnaa h3.symm⟩)
    · rw [hmat, if_neg, hm2]
      rintro (⟨h3, h4⟩ | ⟨h3, h4⟩)
      · exact hno (Or.inr ⟨key _ _ _ _ _ _ hna1 hnaa1 hnb hnbb h3.symm,
          key _ _ _ _ _ _ hnb1 hnbb1 hna hnaa h4.symm⟩)
      · exact hno (Or.inl ⟨key _ _ _ _ _ _ hna1 hnaa1 hna hnaa h4.symm,
          key _ _ _ _ _ _ hnb1 hnbb1 hnb hnbb h3.symm⟩)

theorem lastEdge_run (SIZE : Nat) (post : List Op) (a b : Char) (w : Int) (i j : Nat)
    (hpost : ∀ a1 b1 w1, Op.addWEdge a1 b1 w1 ∈ post →
      ¬ ((a1 = a ∧ b1 = b) ∨ (a1 = b ∧ b1 = a)))
    (g : WGraph)
    (h : findNode g a = (i : Int) ∧ findNode g b = (j : Int) ∧
      g.edgeMatrix i j = w ∧ g.edgeMatrix j i = w) :
    findNode (runOps SIZE g post) a = (i : Int) ∧ findNode (runOps SIZE g post) b = (j : Int) ∧
      (runOps SIZE g post).edgeMatrix i j = w ∧ (runOps SIZE g post).edgeMatrix j i = w := by
  induction post generalizing g with
  | nil => exact h
  | cons op ops ih =>
    rw [runOps_cons]
    apply ih (fun a1 b1 w1 hmem => hpost a1 b1 w1 (List.mem_cons_of_mem _ hmem))
    apply lastEdge_step SIZE g op a b w i j _ h
    intro a1 b1 w1 hop
    exact hpost a1 b1 w1 (by rw [hop]; exact List.mem_cons_self _ _)

/-! ## What `displayMatrix` prints -/

theorem displayMatrixField_eq (g : WGraph) (i j : Nat) (hi : i < g.numNodes)
    (hj : j < g.numNodes) :
    displayMatrixField g i j = some (setw 4 (toString (g.edgeMatrix i j))) := by
  simp [displayMatrixField, displayMatrixLines, displayMatrixLine, List.getElem?_map,
    List.getElem?_range hi, List.getElem?_range hj]

theorem displayMatrixRowLabel_eq (g : WGraph) (i : Nat) (hi : i < g.numNodes) :
    displayMatrixRowLabel g i = some (setw 2 (String.singleton (nameOf g i))) := by
  simp [displayMatrixRowLabel, displayMatrixLines, displayMatrixLine, List.getElem?_map,
    List.getElem?_range hi]

theorem displayMatrixColumn_eq (g : WGraph) (j : Nat) (hj : j < g.numNodes) :
    displayMatrixColumn g j = some (setw 4 (String.singleton (nameOf g j))) := by
  simp [displayMatrixColumn, displayMatrixHeader, List.getElem?_map, List.getElem?_range hj]

theorem displayMatrix_scenario :
    displayMatrix scenario =
      "     A   B   C   D\n A   0   1   4   0\n B   1   0   2   0\n C   4   2   0   1\n D   0   0   1   0\n" := by
  decide

/-! ## Matrix and adjacency lists -/

/-- C8 (as stated) fails: after `addWEdge('A','B',1)` and `addWEdge('A','B',2)` the
entry `[0][1]` is 2 while the list of node 0 still holds an edge to node 1 of weight 1. -/
theorem matrixMirrorsLists_fails :
    ¬ MatrixMirrorsLists (runOps 20 init
        [.addNode 'A', .addNode 'B', .addWEdge 'A' 'B' 1, .addWEdge 'A' 'B' 2]) := by
  intro h
  have h1 := (h 0 1).2 ⟨1, 1⟩ (by decide) rfl
  revert h1
  decide

/-- C8 (amended): in every graph built from the empty graph by `addNode` and
`addWEdge` calls, matrix entry `[i][j]` is the weight of the first edge to `j` in the
list of node `i` (the one inserted last), and zero when that list holds no edge to `j`;
so a nonzero entry is the weight of an edge to `j` held in the list of `i`. -/
theorem matrix_is_first_edge_weight (SIZE : Nat) (ops : List Op) (i j : Nat) :
    (runOps SIZE init ops).edgeMatrix i j
        = firstWeightTo (edgesOf (runOps SIZE init ops) i) j ∧
      ((runOps SIZE init ops).edgeMatrix i j ≠ 0 →
        ∃ e ∈ edgesOf (runOps SIZE init ops) i,
          e.endIndex = j ∧ e.weight = (runOps SIZE init ops).edgeMatrix i j) := by
  have h := runOps_invariant SIZE
    (fun g => ∀ i j, g.edgeMatrix i j = firstWeightTo (edgesOf g i) j)
    (fun g op hg => matrix_firstWeight_step SIZE g op hg) init
    (by intro i j; simp [init, edgesOf, firstWeightTo]) ops
  refine ⟨h i j, fun hne => ?_⟩
  rw [h i j] at hne ⊢
  exact firstWeightTo_mem _ _ hne

/-- C9 (as stated) fails: `addWEdge('A','B',1)` returns true, and after a later
`addWEdge('A','B',2)` the entries `[A][B]` and `[B][A]` are 2, not 1, in the matrix
and in what `displayMatrix` prints. -/
theorem matrix_entry_overwritten :
    (addWEdge (runOps 20 init [.addNode 'A', .addNode 'B']) 'A' 'B' 1).1 = true ∧
      (runOps 20 init [.addNode 'A', .addNode 'B', .addWEdge 'A' 'B' 1,
        .addWEdge 'A' 'B' 2]).edgeMatrix 0 1 ≠ 1 ∧
      displayMatrix (runOps 20 init [.addNode 'A', .addNode 'B', .addWEdge 'A' 'B' 1,
        .addWEdge 'A' 'B' 2]) = "     A   B\n A   0   2\n B   2   0\n" ∧
      displayMatrixField (runOps 20 init [.addNode 'A', .addNode 'B', .addWEdge 'A' 'B' 1,
        .addWEdge 'A' 'B' 2]) 0 1 = some "   2" ∧
      displayMatrixField (runOps 20 init [.addNode 'A', .addNode 'B', .addWEdge 'A' 'B' 1,
        .addWEdge 'A' 'B' 2]) 0 1 ≠ some (setw 4 (toString (1 : Int))) := by
  decide

/-- C9 (amended): for every sequence of `addNode` and `addWEdge` calls from the empty
graph and every call `addWEdge(a, b, w)` in it that returned true and is followed by
no call `addWEdge` on the same two labels (in either order), the matrix of the final
graph as printed by `displayMatrix` has `w` at `[a][b]` and at `[b][a]`: `findNode`
resolves `a` and `b` to indices below `numNodes`, the printed rows and columns at these
indices are labelled `a` and `b`, and the two printed fields, like the two matrix
entries, are `w`. -/
theorem matrix_entry_of_last_edge (SIZE : Nat) (pre post : List Op) (a b : Char) (w : Int)
    (hok : (addWEdge (runOps SIZE init pre) a b w).1 = true)
    (hpost : ∀ a1 b1 w1, Op.addWEdge a1 b1 w1 ∈ post →
      ¬ ((a1 = a ∧ b1 = b) ∨ (a1 = b ∧ b1 = a))) :
    ∃ i j : Nat,
      findNode (runOps SIZE init (pre ++ Op.addWEdge a b w :: post)) a = (i : Int) ∧
      findNode (runOps SIZE init (pre ++ Op.addWEdge a b w :: post)) b = (j : Int) ∧
      i < (runOps SIZE init (pre ++ Op.addWEdge a b w :: post)).numNodes ∧
      j < (runOps SIZE init (pre ++ Op.addWEdge a b w :: post)).numNodes ∧
      (runOps SIZE init (pre ++ Op.addWEdge a b w :: post)).edgeMatrix i j = w ∧
      (runOps SIZE init (pre ++ Op.addWEdge a b w :: post)).edgeMatrix j i = w ∧
      displayMatrixRowLabel (runOps SIZE init (pre ++ Op.addWEdge a b w :: post)) i = some (setw 2 (String.singleton a)) ∧
      displayMatrixColumn (runOps SIZE init (pre ++ Op.addWEdge a b w :: post)) j = some (setw 4 (String.singleton b)) ∧
      displayMatrixField (runOps SIZE init (pre ++ Op.addWEdge a b w :: post)) i j = some (setw 4 (toString (w : Int))) ∧
      displayMatrixRowLabel (runOps SIZE init (pre ++ Op.addWEdge a b w :: post)) j = some (setw 2 (String.singleton b)) ∧
      displayMatrixColumn (runOps SIZE init (pre ++ Op.addWEdge a b w :: post)) i = some (setw 4 (String.singleton a)) ∧
      displayMatrixField (runOps SIZE init (pre ++ Op.addWEdge a b w :: post)) j i = some (setw 4 (toString (w : Int))) := by
  rw [runOps_append, runOps_cons]
  generalize runOps SIZE init pre = g at hok
  have hab : a ≠ b := by
    intro h; rw [addWEdge_fail g a b w (Or.inl h)] at hok; cases hok
  rcases findNode_cases g a with ha | ⟨i, ha⟩
  · rw [addWEdge_fail g a b w (Or.inr (Or.inl ((findNode_eq_neg_one g a).1 ha)))] at hok
    cases hok
  rcases findNode_cases g b with hb | ⟨j, hb⟩
  · rw [addWEdge_fail g a b w (Or.inr (Or.inr ((findNode_eq_neg_one g b).1 hb)))] at hok
    cases hok
  obtain ⟨g1, hg1, hij, hlen, hnodes, hmat⟩ := addWEdge_success g a b w i j hab ha hb
  have hg : applyOp SIZE g (.addWEdge a b w) = g1 := by simp [applyOp, hg1]
  rw [hg]
  have hnames := names_addWEdge g g1 i j w hlen hnodes
  obtain ⟨h1, h2, h3, h4⟩ := lastEdge_run SIZE post a b w i j hpost g1
    ⟨(findNodeFrom_names _ _ 0 a hnames).trans ha, (findNodeFrom_names _ _ 0 b hnames).trans hb,
      by rw [hmat]; simp, by rw [hmat]; simp⟩
  obtain ⟨ni, hni, hnia, -⟩ := findNode_found _ a i h1
  obtain ⟨nj, hnj, hnjb, -⟩ := findNode_found _ b j h2
  have hi : i < (runOps SIZE g1 post).numNodes := (List.getElem?_eq_some.1 hni).1
  have hj : j < (runOps SIZE g1 post).numNodes := (List.getElem?_eq_some.1 hnj).1
  have hna : nameOf (runOps SIZE g1 post) i = a := by
    simp only [nameOf, hni]; exact hnia
  have hnb : nameOf (runOps SIZE g1 post) j = b := by
    simp only [nameOf, hnj]; exact hnjb
  refine ⟨i, j, h1, h2, hi, hj, h3, h4, ?_, ?_, ?_, ?_, ?_, ?_⟩
  · rw [displayMatrixRowLabel_eq _ _ hi, hna]
  · rw [displayMatrixColumn_eq _ _ hj, hnb]
  · rw [displayMatrixField_eq _ _ _ hi hj, h3]
  · rw [displayMatrixRowLabel_eq _ _ hj, hnb]
  · rw [displayMatrixColumn_eq _ _ hi, hna]
  · rw [displayMatrixField_eq _ _ _ hj hi, h4]

theorem matrix_entry_of_last_edge_witness :
    ∃ i j : Nat,
      findNode (runOps 20 init ([.addNode 'A', .addNode 'B', .addNode 'C', .addWEdge 'A' 'B' 1]
        ++ Op.addWEdge 'A' 'B' 2 :: [.addWEdge 'B' 'C' 5])) 'A' = (i : Int) ∧
      findNode (runOps 20 init ([.addNode 'A', .addNode 'B', .addNode 'C', .addWEdge 'A' 'B' 1]
        ++ Op.addWEdge 'A' 'B' 2 :: [.addWEdge 'B' 'C' 5])) 'B' = (j : Int) ∧
      i < (runOps 20 init ([.addNode 'A', .addNode 'B', .addNode 'C', .addWEdge 'A' 'B' 1]
        ++ Op.addWEdge 'A' 'B' 2 :: [.addWEdge 'B' 'C' 5])).numNodes ∧
      j < (runOps 20 init ([.addNode 'A', .addNode 'B', .addNode 'C', .addWEdge 'A' 'B' 1]
        ++ Op.addWEdge 'A' 'B' 2 :: [.addWEdge 'B' 'C' 5])).numNodes ∧
      (runOps 20 init ([.addNode 'A', .addNode 'B', .addNode 'C', .addWEdge 'A' 'B' 1]
        ++ Op.addWEdge 'A' 'B' 2 :: [.addWEdge 'B' 'C' 5])).edgeMatrix i j = 2 ∧
      (runOps 20 init ([.addNode 'A', .addNode 'B', .addNode 'C', .addWEdge 'A' 'B' 1]
        ++ Op.addWEdge 'A' 'B' 2 :: [.addWEdge 'B' 'C' 5])).edgeMatrix j i = 2 ∧
      displayMatrixRowLabel (runOps 20 init ([.addNode 'A', .addNode 'B', .addNode 'C', .addWEdge 'A' 'B' 1]
        ++ Op.addWEdge 'A' 'B' 2 :: [.addWEdge 'B' 'C' 5])) i = some (setw 2 (String.singleton 'A')) ∧
      displayMatrixColumn (runOps 20 init ([.addNode 'A', .addNode 'B', .addNode 'C', .addWEdge 'A' 'B' 1]
        ++ Op.addWEdge 'A' 'B' 2 :: [.addWEdge 'B' 'C' 5])) j = some (setw 4 (String.singleton 'B')) ∧
      displayMatrixField (runOps 20 init ([.addNode 'A', .addNode 'B', .addNode 'C', .addWEdge 'A' 'B' 1]
        ++ Op.addWEdge 'A' 'B' 2 :: [.addWEdge 'B' 'C' 5])) i j = some (setw 4 (toString (2 : Int))) ∧
      displayMatrixRowLabel (runOps 20 init ([.addNode 'A', .addNode 'B', .addNode 'C', .addWEdge 'A' 'B' 1]
        ++ Op.addWEdge 'A' 'B' 2 :: [.addWEdge 'B' 'C' 5])) j = some (setw 2 (String.singleton 'B')) ∧
      displayMatrixColumn (runOps 20 init ([.addNode 'A', .addNode 'B', .addNode 'C', .addWEdge 'A' 'B' 1]
        ++ Op.addWEdge 'A' 'B' 2 :: [.addWEdge 'B' 'C' 5])) i = some (setw 4 (String.singleton 'A')) ∧
      displayMatrixField (runOps 20 init ([.addNode 'A', .addNode 'B', .addNode 'C', .addWEdge 'A' 'B' 1]
        ++ Op.addWEdge 'A' 'B' 2 :: [.addWEdge 'B' 'C' 5])) j i = some (setw 4 (toString (2 : Int))) :=
  matrix_entry_of_last_edge 20 [.addNode 'A', .addNode 'B', .addNode 'C', .addWEdge 'A' 'B' 1]
    [.addWEdge 'B' 'C' 5] 'A' 'B' 2 (by decide)
    (by
      intro a1 b1 w1 h
      simp only [List.mem_singleton, Op.addWEdge.injEq] at h
      obtain ⟨rfl, rfl, -⟩ := h
      decide)

end WGraph

namespace WGraph

/-! ## Visited flags -/

theorem getElem?_markVisited (g : WGraph) (i k : Nat) :
    (markVisited g i).nodeList[k]? =
      if k = i then (g.nodeList[k]?).map (fun n => { n with visited := true })
      else g.nodeList[k]? := by
  simp only [markVisited, getElem?_modifyNode]

theorem numNodes_markVisited (g : WGraph) (i : Nat) :
    (markVisited g i).numNodes = g.numNodes := by
  simp [markVisited, numNodes, length_modifyNode]

theorem map_modifyNode {β : Type} (h : Node → β) (f : Node → Node) (hf : ∀ n, h (f n) = h n)
    (l : List Node) (i : Nat) : (modifyNode f l i).map h = l.map h := by
  induction l generalizing i with
  | nil => rfl
  | cons n ns ih => cases i <;> simp [modifyNode, hf, ih]

theorem skeleton_markVisited (g : WGraph) (i : Nat) :
    skeleton (markVisited g i) = skeleton g := by
  simp only [skeleton, markVisited]
  exact map_modifyNode (fun n => (n.name, n.connects)) (fun n => { n with visited := true })
    (fun _ => rfl) _ _

theorem skeleton_getElem? (g : WGraph) (k : Nat) :
    (skeleton g)[k]? = (g.nodeList[k]?).map (fun n => (n.name, n.connects)) := by
  simp [skeleton, List.getElem?_map]

theorem numNodes_of_skeleton (g1 g2 : WGraph) (h : skeleton g1 = skeleton g2) :
    g1.numNodes = g2.numNodes := by
  have := congrArg List.length h
  simpa [skeleton, numNodes] using this

theorem edgesOf_of_skeleton (g1 g2 : WGraph) (h : skeleton g1 = skeleton g2) (k : Nat) :
    edgesOf g1 k = edgesOf g2 k := by
  have h1 := skeleton_getElem? g1 k
  rw [h, skeleton_getElem? g2 k] at h1
  unfold edgesOf
  cases h2 : g1.nodeList[k]? <;> cases h3 : g2.nodeList[k]? <;> simp_all

theorem nameOf_of_skeleton (g1 g2 : WGraph) (h : skeleton g1 = skeleton g2) (k : Nat) :
    nameOf g1 k = nameOf g2 k := by
  have h1 := skeleton_getElem? g1 k
  rw [h, skeleton_getElem? g2 k] at h1
  unfold nameOf
  cases h2 : g1.nodeList[k]? <;> cases h3 : g2.nodeList[k]? <;> simp_all

theorem findNode_of_skeleton (g1 g2 : WGraph) (h : skeleton g1 = skeleton g2) (name : Char) :
    findNode g1 name = findNode g2 name := by
  apply findNodeFrom_names
  have := congrArg (List.map Prod.fst) h
  simpa [skeleton, List.map_map, Function.comp_def] using this

theorem isVisited_markVisited (g : WGraph) (i k : Nat) (hi : i < g.numNodes) :
    isVisited (markVisited g i) k = true ↔ (k = i ∨ isVisited g k = true) := by
  unfold isVisited
  rw [getElem?_markVisited]
  by_cases hk : k = i
  · subst hk
    have : g.nodeList[k]? = some g.nodeList[k] := List.getElem?_eq_getElem hi
    simp [this]
  · simp [hk]

theorem isVisited_of_getElem? (g : WGraph) (k : Nat) (n : Node) (h : g.nodeList[k]? = some n) :
    isVisited g k = n.visited := by
  simp [isVisited, h]

theorem nameOf_of_getElem? (g : WGraph) (k : Nat) (n : Node) (h : g.nodeList[k]? = some n) :
    nameOf g k = n.name := by
  simp [nameOf, h]

theorem edgesOf_of_getElem? (g : WGraph) (k : Nat) (n : Node) (h : g.nodeList[k]? = some n) :
    edgesOf g k = n.connects := by
  simp [edgesOf, h]

theorem countP_modifyNode_visited (l : List Node) (i : Nat) (n : Node)
    (h : l[i]? = some n) (hn : n.visited = false) :
    (modifyNode (fun n => { n with visited := true }) l i).countP (fun n => !n.visited) + 1
      = l.countP (fun n => !n.visited) := by
  induction l generalizing i with
  | nil => simp at h
  | cons m ms ih =>
    cases i with
    | zero =>
      simp only [List.getElem?_cons_zero, Option.some.injEq] at h
      subst h
      simp [modifyNode, List.countP_cons, hn]
    | succ i =>
      simp only [List.getElem?_cons_succ] at h
      simp only [modifyNode, List.countP_cons]
      have := ih i h
      omega

theorem unvisitedCount_markVisited (g : WGraph) (i : Nat) (n : Node)
    (h : g.nodeList[i]? = some n) (hn : n.visited = false) :
    unvisitedCount (markVisited g i) + 1 = unvisitedCount g :=
  countP_modifyNode_visited g.nodeList i n h hn

theorem countP_modifyNode_le (l : List Node) (i : Nat) :
    (modifyNode (fun n => { n with visited := true }) l i).countP (fun n => !n.visited)
      ≤ l.countP (fun n => !n.visited) := by
  induction l generalizing i with
  | nil => simp [modifyNode]
  | cons m ms ih =>
    cases i with
    | zero => simp [modifyNode, List.countP_cons]
    | succ i => simp only [modifyNode, List.countP_cons]; have := ih i; omega

theorem unvisitedCount_markVisited_le (g : WGraph) (i : Nat) :
    unvisitedCount (markVisited g i) ≤ unvisitedCount g :=
  countP_modifyNode_le g.nodeList i

theorem unvisitedCount_le (g : WGraph) : unvisitedCount g ≤ g.numNodes :=
  List.countP_le_length _

theorem modifyNode_id (f : Node → Node) (l : List Node) (i : Nat)
    (h : ∀ n, l[i]? = some n → f n = n) : modifyNode f l i = l := by
  induction l generalizing i with
  | nil => rfl
  | cons m ms ih =>
    cases i with
    | zero => simp [modifyNode, h m (by simp)]
    | succ i => simp [modifyNode, ih i (fun n hn => h n (by simpa using hn))]

theorem markVisited_of_visited (g : WGraph) (i : Nat) (h : isVisited g i = true) :
    markVisited g i = g := by
  unfold markVisited
  rw [modifyNode_id]
  intro n hn
  have : n.visited = true := by rw [← isVisited_of_getElem? g i n hn]; exact h
  cases n
  simp_all

theorem resetVisited_of_skeleton (g1 g2 : WGraph) (h : skeleton g1 = skeleton g2)
    (hm : g1.edgeMatrix = g2.edgeMatrix) : resetVisited g1 = resetVisited g2 := by
  unfold resetVisited
  have : g1.nodeList.map (fun n => ({ n with visited := false } : Node))
      = g2.nodeList.map (fun n => ({ n with visited := false } : Node)) := by
    have h1 := congrArg (List.map (fun p : Char × List Edge => (⟨p.1, false, p.2⟩ : Node))) h
    simpa [skeleton, List.map_map, Function.comp_def] using h1
  rw [this, hm]

theorem resetVisited_of_allUnvisited (g : WGraph) (h : AllUnvisited g) : resetVisited g = g := by
  unfold resetVisited
  have : g.nodeList.map (fun n => ({ n with visited := false } : Node)) = g.nodeList := by
    conv_rhs => rw [← List.map_id g.nodeList]
    apply List.map_congr_left
    intro n hn
    have := h n hn
    cases n
    simp_all
  rw [this]

theorem allUnvisited_resetVisited (g : WGraph) : AllUnvisited (resetVisited g) := by
  intro n hn
  simp only [resetVisited, List.mem_map] at hn
  obtain ⟨m, -, rfl⟩ := hn
  rfl

theorem isVisited_of_allUnvisited (g : WGraph) (h : AllUnvisited g) (k : Nat) :
    isVisited g k = false := by
  unfold isVisited
  cases hk : g.nodeList[k]? with
  | none => rfl
  | some n => exact h n (List.getElem?_mem hk)

end WGraph

namespace WGraph

/-! ## Breadth-first traversal -/

theorem appendNames_snoc (g : WGraph) (b : String) (l : List Nat) (j : Nat) :
    appendNames g b (l ++ [j]) = ((appendNames g b l).push (nameOf g j)) ++ " " := by
  simp [appendNames, List.foldl_append]

theorem lookup_of_lt (g : WGraph) (k : Nat) (h : k < g.numNodes) :
    ∃ n, g.nodeList[k]? = some n :=
  ⟨g.nodeList[k], List.getElem?_eq_getElem h⟩

theorem lt_of_isVisited (g : WGraph) (k : Nat) (h : isVisited g k = true) : k < g.numNodes := by
  unfold isVisited at h
  cases hk : g.nodeList[k]? with
  | none => rw [hk] at h; cases h
  | some n => exact (List.getElem?_eq_some.1 hk).1

theorem BfsInv.change_current {g0 : WGraph} {s : Nat} {b0 : String} {c : Nat} {st : BfsState}
    (h : BfsInv g0 s b0 c [] st) (c1 : Nat) : BfsInv g0 s b0 c1 [] st :=
  { h with
    closed := fun k hk e he => by
      rcases h.closed k hk e he with h1 | h1 | ⟨-, h1⟩
      · exact Or.inl h1
      · exact Or.inr (Or.inl h1)
      · cases h1 }

theorem BfsInv.bfs_reach_of_listed {g0 : WGraph} {s : Nat} {b0 : String} {c : Nat} {l : List Edge}
    {st : BfsState} (h : BfsInv g0 s b0 c l st) (k : Nat) (hk : k = s ∨ k ∈ st.listed) :
    Reach g0 s k := by
  rcases hk with hk | hk
  · subst hk; exact Relation.ReflTransGen.refl
  · exact h.reach k hk

theorem bfsScan_inv (g0 : WGraph) (hwf : EdgesInRange g0) (s : Nat) (b0 : String) (c : Nat)
    (l : List Edge) (st : BfsState) (hl : ∀ e ∈ l, e ∈ edgesOf g0 c)
    (hc : c = s ∨ c ∈ st.listed) (hinv : BfsInv g0 s b0 c l st) :
    ∃ st1, bfsScan st l = .ok st1 ∧ BfsInv g0 s b0 c [] st1 ∧
      (c = s ∨ c ∈ st1.listed) ∧
      st1.FIFO.length + unvisitedCount st1.graph = st.FIFO.length + unvisitedCount st.graph := by
  induction l generalizing st with
  | nil => exact ⟨st, rfl, hinv, hc, rfl⟩
  | cons e rest ih =>
    have hnum : st.graph.numNodes = g0.numNodes := numNodes_of_skeleton _ _ hinv.shape
    have hlt : e.endIndex < st.graph.numNodes := by
      rw [hnum]; exact hwf c e (hl e (List.mem_cons_self _ _))
    obtain ⟨n, hn⟩ := lookup_of_lt st.graph e.endIndex hlt
    have hvis := isVisited_of_getElem? st.graph e.endIndex n hn
    have hrest : ∀ e1 ∈ rest, e1 ∈ edgesOf g0 c := fun e1 h1 => hl e1 (List.mem_cons_of_mem _ h1)
    by_cases hv : n.visited = true
    · -- the far node is already visited: nothing changes
      have hin : e.endIndex = s ∨ e.endIndex ∈ st.listed := by
        rw [← hinv.visited, hvis]; exact hv
      have hinv1 : BfsInv g0 s b0 c rest st :=
        { hinv with
          closed := fun k hk e1 he1 => by
            rcases hinv.closed k hk e1 he1 with h1 | h1 | ⟨h1, h2⟩
            · exact Or.inl h1
            · exact Or.inr (Or.inl h1)
            · rcases List.mem_cons.1 h2 with h3 | h3
              · subst h3; exact Or.inr (Or.inl hin)
              · exact Or.inr (Or.inr ⟨h1, h3⟩) }
      obtain ⟨st1, h1, h2, h3, h4⟩ := ih st hrest hc hinv1
      refine ⟨st1, ?_, h2, h3, h4⟩
      simp only [bfsScan, hn, hv]
      simpa using h1
    · -- the far node is new: it is queued, listed and marked
      have hv1 : n.visited = false := by simpa using hv
      have hnotin : ¬ (e.endIndex = s ∨ e.endIndex ∈ st.listed) := by
        rw [← hinv.visited, hvis, hv1]; simp
      have hinv1 : BfsInv g0 s b0 c rest
          { graph := markVisited st.graph e.endIndex
            FIFO := st.FIFO ++ [e.endIndex]
            buffer := (st.buffer.push n.name) ++ " "
            listed := st.listed ++ [e.endIndex] } :=
        { shape := by rw [skeleton_markVisited]; exact hinv.shape
          matrix := hinv.matrix
          visited := fun k => by
            rw [isVisited_markVisited _ _ _ hlt, hinv.visited, List.mem_append,
              List.mem_singleton]
            tauto
          nodup := by
            have h1 := hinv.nodup
            rw [List.nodup_cons] at h1 ⊢
            refine ⟨?_, ?_⟩
            · rw [List.mem_append, List.mem_singleton]
              rintro (h2 | h2)
              · exact h1.1 h2
              · exact hnotin (Or.inl h2.symm)
            · rw [List.nodup_append]
              refine ⟨h1.2, List.nodup_singleton _, ?_⟩
              intro x hx hx1
              rw [List.mem_singleton] at hx1
              subst hx1
              exact hnotin (Or.inr hx)
          reach := fun k hk => by
            rcases List.mem_append.1 hk with h1 | h1
            · exact hinv.reach k h1
            · rw [List.mem_singleton] at h1
              subst h1
              exact Relation.ReflTransGen.tail (hinv.bfs_reach_of_listed c hc)
                ⟨e, hl e (List.mem_cons_self _ _), rfl⟩
          queued := fun k hk => by
            rcases List.mem_append.1 hk with h1 | h1
            · rcases hinv.queued k h1 with h2 | h2
              · exact Or.inl h2
              · exact Or.inr (List.mem_append_left _ h2)
            · exact Or.inr (List.mem_append_right _ h1)
          closed := fun k hk e1 he1 => by
            have hk1 : (k = s ∨ k ∈ st.listed) ∨ k = e.endIndex := by
              rcases hk with h1 | h1
              · exact Or.inl (Or.inl h1)
              · rcases List.mem_append.1 h1 with h2 | h2
                · exact Or.inl (Or.inr h2)
                · exact Or.inr (List.mem_singleton.1 h2)
            rcases hk1 with hk1 | hk1
            · rcases hinv.closed k hk1 e1 he1 with h1 | h1 | ⟨h1, h2⟩
              · exact Or.inl (List.mem_append_left _ h1)
              · rcases h1 with h1 | h1
                · exact Or.inr (Or.inl (Or.inl h1))
                · exact Or.inr (Or.inl (Or.inr (List.mem_append_left _ h1)))
              · rcases List.mem_cons.1 h2 with h3 | h3
                · subst h3
                  exact Or.inr (Or.inl (Or.inr (List.mem_append_right _
                    (List.mem_singleton_self _))))
                · exact Or.inr (Or.inr ⟨h1, h3⟩)
            · subst hk1
              exact Or.inl (List.mem_append_right _ (List.mem_singleton_self _))
          buffer := by
            rw [appendNames_snoc, ← hinv.buffer, ← nameOf_of_skeleton _ _ hinv.shape,
              nameOf_of_getElem? _ _ _ hn] }
      obtain ⟨st1, h1, h2, h3, h4⟩ := ih _ hrest
        (by rcases hc with h | h
            · exact Or.inl h
            · exact Or.inr (List.mem_append_left _ h)) hinv1
      refine ⟨st1, ?_, h2, h3, ?_⟩
      · simp only [bfsScan, hn, hv1]
        simpa using h1
      · rw [h4]
        have := unvisitedCount_markVisited st.graph e.endIndex n hn hv1
        simp only [List.length_append, List.length_singleton]
        omega

end WGraph

namespace WGraph

theorem bfsLoop_inv (g0 : WGraph) (hwf : EdgesInRange g0) (s : Nat) (b0 : String)
    (fuel : Nat) (st : BfsState) (hinv : BfsInv g0 s b0 s [] st)
    (hfuel : st.FIFO.length + unvisitedCount st.graph ≤ fuel) :
    ∃ st1, bfsLoop fuel st = .ok st1 ∧ BfsInv g0 s b0 s [] st1 ∧ st1.FIFO = [] := by
  induction fuel generalizing st with
  | zero =>
    obtain ⟨g, fifo, buf, listed⟩ := st
    cases fifo with
    | nil => exact ⟨_, by simp [bfsLoop], hinv, rfl⟩
    | cons c rest => simp at hfuel
  | succ fuel ih =>
    obtain ⟨g, fifo, buf, listed⟩ := st
    cases fifo with
    | nil => exact ⟨_, by simp [bfsLoop], hinv, rfl⟩
    | cons c rest =>
      have hc : c = s ∨ c ∈ listed := hinv.queued c (List.mem_cons_self _ _)
      have hcv : isVisited g c = true := (hinv.visited c).2 hc
      obtain ⟨n, hn⟩ := lookup_of_lt g c (lt_of_isVisited g c hcv)
      have hedges : n.connects = edgesOf g0 c := by
        rw [← edgesOf_of_skeleton _ _ hinv.shape, edgesOf_of_getElem? _ _ _ hn]
      have hinv1 : BfsInv g0 s b0 c (edgesOf g0 c)
          { graph := g, FIFO := rest, buffer := buf, listed := listed } :=
        { shape := hinv.shape
          matrix := hinv.matrix
          visited := hinv.visited
          nodup := hinv.nodup
          reach := hinv.reach
          queued := fun k hk => hinv.queued k (List.mem_cons_of_mem _ hk)
          closed := fun k hk e he => by
            rcases hinv.closed k hk e he with h1 | h1 | ⟨-, h1⟩
            · rcases List.mem_cons.1 h1 with h2 | h2
              · subst h2; exact Or.inr (Or.inr ⟨rfl, he⟩)
              · exact Or.inl h2
            · exact Or.inr (Or.inl h1)
            · cases h1
          buffer := hinv.buffer }
      obtain ⟨st1, h1, h2, h3, h4⟩ := bfsScan_inv g0 hwf s b0 c (edgesOf g0 c) _
        (fun e he => he) hc hinv1
      obtain ⟨st2, h5, h6, h7⟩ := ih st1 (h2.change_current s) (by
        simp only [List.length_cons] at hfuel h4
        omega)
      refine ⟨st2, ?_, h6, h7⟩
      rw [bfsLoop]
      simp only [hn, hedges, h1]
      exact h5

/-- The state in which `breadthFirst` enters its loop satisfies the invariant. -/
theorem bfs_start_inv (g : WGraph) (hun : AllUnvisited g) (s : Nat) (b0 : String)
    (hs : s < g.numNodes) :
    BfsInv g s b0 s []
      { graph := markVisited g s, FIFO := [s], buffer := b0, listed := [] } :=
  { shape := skeleton_markVisited g s
    matrix := rfl
    visited := fun k => by
      rw [isVisited_markVisited _ _ _ hs, isVisited_of_allUnvisited g hun]
      simp
    nodup := by simp
    reach := fun k hk => by cases hk
    queued := fun k hk => Or.inl (List.mem_singleton.1 hk)
    closed := fun k hk e _ => by
      rcases hk with hk | hk
      · exact Or.inl (List.mem_singleton.2 hk)
      · cases hk
    buffer := rfl }

/-- Everything reachable from the start lies in a set that holds the start and is
closed under following edges. -/
theorem reach_subset_closed (g : WGraph) (s : Nat) (P : Nat → Prop) (hs : P s)
    (hclosed : ∀ k, P k → ∀ e ∈ edgesOf g k, P e.endIndex) (j : Nat) (h : Reach g s j) : P j := by
  induction h with
  | refl => exact hs
  | tail _ hbc ih =>
    obtain ⟨e, he, rfl⟩ := hbc
    exact hclosed _ ih e he

/-- The run of `breadthFirst` from a graph with no stale flags: it ends, keeps names,
lists and matrix, and lists exactly the nodes reachable from the start, once each. -/
theorem breadthFirstFrom_spec (g : WGraph) (hwf : EdgesInRange g) (hun : AllUnvisited g)
    (name : Char) (s : Nat) (hs : findNode g name = (s : Int)) (fuel : Nat)
    (hfuel : g.numNodes ≤ fuel) :
    ∃ st, breadthFirstFrom fuel g name s = .ok st ∧
      skeleton st.graph = skeleton g ∧ st.graph.edgeMatrix = g.edgeMatrix ∧
      st.buffer = appendNames g
        (traversalHeader "Breadth first traversal starting at " name name) st.listed ∧
      (s :: st.listed).Nodup ∧
      (∀ j, (j = s ∨ j ∈ st.listed) ↔ Reach g s j) := by
  obtain ⟨n, hn, hname, -⟩ := findNode_found g name s hs
  have hlt : s < g.numNodes := (List.getElem?_eq_some.1 hn).1
  have hinv0 := bfs_start_inv g hun s
    (traversalHeader "Breadth first traversal starting at " name n.name) hlt
  have hcount := unvisitedCount_markVisited g s n hn (hun n (List.getElem?_mem hn))
  have hle := unvisitedCount_le g
  obtain ⟨st, h1, h2, h3⟩ := bfsLoop_inv g hwf s _ fuel _ hinv0 (by
    simp only [List.length_singleton]; omega)
  refine ⟨st, ?_, h2.shape, h2.matrix, ?_, h2.nodup, ?_⟩
  · unfold breadthFirstFrom
    rw [hn]
    exact h1
  · rw [h2.buffer, hname]
  · intro j
    constructor
    · exact h2.bfs_reach_of_listed j
    · intro hj
      apply reach_subset_closed g s (fun k => k = s ∨ k ∈ st.listed) (Or.inl rfl) _ j hj
      intro k hk e he
      rcases h2.closed k hk e he with h4 | h4 | ⟨-, h4⟩
      · rw [h3] at h4; cases h4
      · exact h4
      · cases h4

end WGraph

namespace WGraph

/-! ## Depth-first traversal -/

theorem dfsScan_none (g : WGraph) (l : List Edge)
    (h : ∀ e ∈ l, isVisited g e.endIndex = true) : dfsScan g l = .ok none := by
  induction l with
  | nil => rfl
  | cons e rest ih =>
    have hv := h e (List.mem_cons_self _ _)
    obtain ⟨n, hn⟩ := lookup_of_lt g e.endIndex (lt_of_isVisited g _ hv)
    rw [isVisited_of_getElem? g _ n hn] at hv
    simp only [dfsScan, hn, hv]
    simpa using ih (fun e1 h1 => h e1 (List.mem_cons_of_mem _ h1))

theorem dfsScan_spec (g : WGraph) (l : List Edge) (h : ∀ e ∈ l, e.endIndex < g.numNodes) :
    (dfsScan g l = .ok none ∧ ∀ e ∈ l, isVisited g e.endIndex = true) ∨
    (∃ j n, dfsScan g l = .ok (some (j, n)) ∧ g.nodeList[j]? = some n ∧ n.visited = false ∧
      ∃ e ∈ l, e.endIndex = j) := by
  induction l with
  | nil => left; exact ⟨rfl, fun e he => by cases he⟩
  | cons e rest ih =>
    obtain ⟨n, hn⟩ := lookup_of_lt g e.endIndex (h e (List.mem_cons_self _ _))
    by_cases hv : n.visited = true
    · rcases ih (fun e1 h1 => h e1 (List.mem_cons_of_mem _ h1)) with ⟨h1, h2⟩ | ⟨j, m, h1, h2, h3, e1, h4, h5⟩
      · left
        refine ⟨by simp only [dfsScan, hn, hv]; simpa using h1, ?_⟩
        intro e1 he1
        rcases List.mem_cons.1 he1 with h3 | h3
        · subst h3; rw [isVisited_of_getElem? g _ n hn]; exact hv
        · exact h2 e1 h3
      · right
        exact ⟨j, m, by simp only [dfsScan, hn, hv]; simpa using h1, h2, h3, e1,
          List.mem_cons_of_mem _ h4, h5⟩
    · right
      have hv1 : n.visited = false := by simpa using hv
      exact ⟨e.endIndex, n, by simp [dfsScan, hn, hv1], hn, hv1, e, List.mem_cons_self _ _, rfl⟩

theorem DfsInv.dfs_reach_of_listed {g0 : WGraph} {s : Nat} {b0 : String} {st : DfsState}
    (h : DfsInv g0 s b0 st) (k : Nat) (hk : k = s ∨ k ∈ st.listed) : Reach g0 s k := by
  rcases hk with hk | hk
  · subst hk; exact Relation.ReflTransGen.refl
  · exact h.reach k hk

theorem dfsLoop_inv (g0 : WGraph) (hwf : EdgesInRange g0) (s : Nat) (b0 : String)
    (fuel : Nat) (st : DfsState) (hinv : DfsInv g0 s b0 st)
    (hfuel : st.LIFO.length + 2 * unvisitedCount st.graph ≤ fuel) :
    ∃ st1, dfsLoop fuel st = .ok st1 ∧ DfsInv g0 s b0 st1 ∧ st1.LIFO = [] := by
  induction fuel generalizing st with
  | zero =>
    obtain ⟨g, lifo, buf, listed⟩ := st
    cases lifo with
    | nil => exact ⟨_, by simp [dfsLoop], hinv, rfl⟩
    | cons c rest => simp at hfuel
  | succ fuel ih =>
    obtain ⟨g, lifo, buf, listed⟩ := st
    cases lifo with
    | nil => exact ⟨_, by simp [dfsLoop], hinv, rfl⟩
    | cons c rest =>
      have hc : c = s ∨ c ∈ listed := hinv.stacked c (List.mem_cons_self _ _)
      have hcv : isVisited g c = true := (hinv.visited c).2 hc
      obtain ⟨n, hn⟩ := lookup_of_lt g c (lt_of_isVisited g c hcv)
      have hedges : n.connects = edgesOf g0 c := by
        rw [← edgesOf_of_skeleton _ _ hinv.shape, edgesOf_of_getElem? _ _ _ hn]
      have hnum : g.numNodes = g0.numNodes := numNodes_of_skeleton _ _ hinv.shape
      rcases dfsScan_spec g (edgesOf g0 c) (fun e he => by rw [hnum]; exact hwf c e he) with
        ⟨h1, h2⟩ | ⟨j, m, h1, h2, h3, e, h4, h5⟩
      · -- no unvisited neighbour: the node leaves the stack
        have hinv1 : DfsInv g0 s b0 { graph := g, LIFO := rest, buffer := buf, listed := listed } :=
          { shape := hinv.shape
            matrix := hinv.matrix
            visited := hinv.visited
            nodup := hinv.nodup
            reach := hinv.reach
            stacked := fun k hk => hinv.stacked k (List.mem_cons_of_mem _ hk)
            closed := fun k hk e he => by
              rcases hinv.closed k hk e he with h3 | h3
              · rcases List.mem_cons.1 h3 with h4 | h4
                · subst h4
                  exact Or.inr ((hinv.visited _).1 (h2 e he))
                · exact Or.inl h4
              · exact Or.inr h3
            buffer := hinv.buffer }
        obtain ⟨st2, h5, h6, h7⟩ := ih _ hinv1 (by
          simp only [List.length_cons] at hfuel ⊢
          omega)
        refine ⟨st2, ?_, h6, h7⟩
        rw [dfsLoop]
        simp only [hn, hedges, h1]
        exact h5
      · -- an unvisited neighbour: both nodes go on the stack
        have hjlt : j < g.numNodes := (List.getElem?_eq_some.1 h2).1
        have hnotin : ¬ (j = s ∨ j ∈ listed) := by
          rw [← hinv.visited, isVisited_of_getElem? g j m h2, h3]; simp
        have hinv1 : DfsInv g0 s b0
            { graph := markVisited g j
              LIFO := j :: c :: rest
              buffer := (buf.push m.name) ++ " "
              listed := listed ++ [j] } :=
          { shape := by rw [skeleton_markVisited]; exact hinv.shape
            matrix := hinv.matrix
            visited := fun k => by
              rw [isVisited_markVisited _ _ _ hjlt, hinv.visited, List.mem_append,
                List.mem_singleton]
              tauto
            nodup := by
              have h6 := hinv.nodup
              rw [List.nodup_cons] at h6 ⊢
              refine ⟨?_, ?_⟩
              · rw [List.mem_append, List.mem_singleton]
                rintro (h7 | h7)
                · exact h6.1 h7
                · exact hnotin (Or.inl h7.symm)
              · rw [List.nodup_append]
                refine ⟨h6.2, List.nodup_singleton _, ?_⟩
                intro x hx hx1
                rw [List.mem_singleton] at hx1
                subst hx1
                exact hnotin (Or.inr hx)
            reach := fun k hk => by
              rcases List.mem_append.1 hk with h6 | h6
              · exact hinv.reach k h6
              · rw [List.mem_singleton] at h6
                subst h6
                exact Relation.ReflTransGen.tail (hinv.dfs_reach_of_listed c hc) ⟨e, h4, h5⟩
            stacked := fun k hk => by
              rcases List.mem_cons.1 hk with h6 | h6
              · exact Or.inr (List.mem_append_right _ (List.mem_singleton.2 h6))
              · rcases hinv.stacked k h6 with h7 | h7
                · exact Or.inl h7
                · exact Or.inr (List.mem_append_left _ h7)
            closed := fun k hk e1 he1 => by
              have hk1 : (k = s ∨ k ∈ listed) ∨ k = j := by
                rcases hk with h6 | h6
                · exact Or.inl (Or.inl h6)
                · rcases List.mem_append.1 h6 with h7 | h7
                  · exact Or.inl (Or.inr h7)
                  · exact Or.inr (List.mem_singleton.1 h7)
              rcases hk1 with hk1 | hk1
              · rcases hinv.closed k hk1 e1 he1 with h6 | h6 | h6
                · exact Or.inl (List.mem_cons_of_mem _ h6)
                · exact Or.inr (Or.inl h6)
                · exact Or.inr (Or.inr (List.mem_append_left _ h6))
              · exact Or.inl (by rw [hk1]; exact List.mem_cons_self _ _)
            buffer := by
              rw [appendNames_snoc, ← hinv.buffer, ← nameOf_of_skeleton _ _ hinv.shape,
                nameOf_of_getElem? _ _ _ h2] }
        have hcount := unvisitedCount_markVisited g j m h2 h3
        obtain ⟨st2, h6, h7, h8⟩ := ih _ hinv1 (by
          simp only [List.length_cons] at hfuel ⊢
          omega)
        refine ⟨st2, ?_, h7, h8⟩
        rw [dfsLoop]
        simp only [hn, hedges, h1]
        exact h6

/-- The run of `depthFirst` from a graph with no stale flags: it ends, keeps names,
lists and matrix, marks exactly the start and the listed nodes, and these are the
nodes reachable from the start, once each. -/
theorem depthFirstFrom_spec (g : WGraph) (hwf : EdgesInRange g) (hun : AllUnvisited g)
    (name : Char) (s : Nat) (hs : findNode g name = (s : Int)) (fuel : Nat)
    (hfuel : 2 * g.numNodes ≤ fuel) :
    ∃ st, depthFirstFrom fuel g name s = .ok st ∧
      skeleton st.graph = skeleton g ∧ st.graph.edgeMatrix = g.edgeMatrix ∧
      st.buffer = appendNames g
        (traversalHeader "Depth first traversal starting at " name name) st.listed ∧
      (s :: st.listed).Nodup ∧
      (∀ k, isVisited st.graph k = true ↔ (k = s ∨ k ∈ st.listed)) ∧
      (∀ j, (j = s ∨ j ∈ st.listed) ↔ Reach g s j) := by
  obtain ⟨n, hn, hname, -⟩ := findNode_found g name s hs
  have hlt : s < g.numNodes := (List.getElem?_eq_some.1 hn).1
  have hinv0 : DfsInv g s (traversalHeader "Depth first traversal starting at " name n.name)
      { graph := markVisited g s, LIFO := [s]
        buffer := traversalHeader "Depth first traversal starting at " name n.name
        listed := [] } :=
    { shape := skeleton_markVisited g s
      matrix := rfl
      visited := fun k => by
        rw [isVisited_markVisited _ _ _ hlt, isVisited_of_allUnvisited g hun]
        simp
      nodup := by simp
      reach := fun k hk => by cases hk
      stacked := fun k hk => Or.inl (List.mem_singleton.1 hk)
      closed := fun k hk e _ => by
        rcases hk with hk | hk
        · exact Or.inl (List.mem_singleton.2 hk)
        · cases hk
      buffer := rfl }
  have hcount := unvisitedCount_markVisited g s n hn (hun n (List.getElem?_mem hn))
  have hle := unvisitedCount_le g
  obtain ⟨st, h1, h2, h3⟩ := dfsLoop_inv g hwf s _ fuel _ hinv0 (by
    simp only [List.length_singleton]; omega)
  refine ⟨st, ?_, h2.shape, h2.matrix, ?_, h2.nodup, h2.visited, ?_⟩
  · unfold depthFirstFrom
    rw [hn]
    exact h1
  · rw [h2.buffer, hname]
  · intro j
    constructor
    · exact h2.dfs_reach_of_listed j
    · intro hj
      apply reach_subset_closed g s (fun k => k = s ∨ k ∈ st.listed) (Or.inl rfl) _ j hj
      intro k hk e he
      rcases h2.closed k hk e he with h4 | h4
      · rw [h3] at h4; cases h4
      · exact h4

/-- A run of `depthFirst` from a visited node whose neighbours are all visited lists
nothing and changes nothing. -/
theorem depthFirst_stale (g : WGraph) (name : Char) (s : Nat) (hs : findNode g name = (s : Int))
    (hv : isVisited g s = true) (hall : ∀ e ∈ edgesOf g s, isVisited g e.endIndex = true)
    (fuel : Nat) (hfuel : 1 ≤ fuel) :
    depthFirst fuel g name =
      .ok (traversalHeader "Depth first traversal starting at " name name, g) := by
  obtain ⟨n, hn, hname, -⟩ := findNode_found g name s hs
  obtain ⟨f, rfl⟩ : ∃ f, fuel = f + 1 := ⟨fuel - 1, by omega⟩
  have hne : ¬ ((s : Int) = -1) := by omega
  have hscan : dfsScan g n.connects = .ok none := by
    apply dfsScan_none
    rw [← edgesOf_of_getElem? g s n hn]
    exact hall
  have hloop : depthFirstFrom (f + 1) g name s =
      .ok { graph := g, LIFO := []
            buffer := traversalHeader "Depth first traversal starting at " name name
            listed := [] } := by
    unfold depthFirstFrom
    simp only [hn, markVisited_of_visited g s hv]
    rw [dfsLoop]
    simp only [hn, hscan]
    rw [dfsLoop, hname]
    rfl
  unfold depthFirst
  simp only [hs, hne, if_false, Int.toNat_ofNat, hloop]

end WGraph

namespace WGraph

/-! ## The loop of `minCostTree` -/

theorem removeMin_none (items : List (Edge × List Edge)) :
    PQueue.removeMin items = none ↔ items = [] := by
  cases items with
  | nil => simp [PQueue.removeMin]
  | cons x xs =>
    simp only [PQueue.removeMin]
    cases PQueue.removeMin xs with
    | none => simp
    | some p => by_cases h : x.1.weight ≤ p.1.1.weight <;> simp [h]

theorem removeMin_perm (items : List (Edge × List Edge)) (m : Edge × List Edge)
    (rest : List (Edge × List Edge)) (h : PQueue.removeMin items = some (m, rest)) :
    items.Perm (m :: rest) := by
  induction items generalizing m rest with
  | nil => simp [PQueue.removeMin] at h
  | cons x xs ih =>
    simp only [PQueue.removeMin] at h
    cases hxs : PQueue.removeMin xs with
    | none =>
      rw [hxs] at h
      have hnil := (removeMin_none xs).1 hxs
      simp only [Option.some.injEq, Prod.mk.injEq] at h
      obtain ⟨rfl, rfl⟩ := h
      rw [hnil]
    | some p =>
      obtain ⟨m1, rest1⟩ := p
      rw [hxs] at h
      have hp := ih m1 rest1 hxs
      by_cases hle : x.1.weight ≤ m1.1.weight
      · simp only [hle, if_true, Option.some.injEq, Prod.mk.injEq] at h
        obtain ⟨rfl, rfl⟩ := h
        exact List.Perm.refl _
      · simp only [hle, if_false, Option.some.injEq, Prod.mk.injEq] at h
        obtain ⟨rfl, rfl⟩ := h
        exact (List.Perm.cons x hp).trans (List.Perm.swap _ _ _)

theorem pqWeight_perm (l1 l2 : List (Edge × List Edge)) (h : l1.Perm l2) :
    pqWeight l1 = pqWeight l2 :=
  (h.map _).sum_eq

theorem pqWeight_cons (it : Edge × List Edge) (l : List (Edge × List Edge)) :
    pqWeight (it :: l) = 4 ^ (it.2.length + 1) + pqWeight l := by
  simp [pqWeight]

theorem pqWeight_addEdge (pq : PQueue) (e : Edge) (next : List Edge) :
    pqWeight (pq.addEdge e next).items = pqWeight pq.items + 4 ^ (next.length + 1) := by
  simp [pqWeight, PQueue.addEdge]

theorem pqWeight_addQueue (pq : PQueue) (l : List Edge) :
    pqWeight (pq.addQueue l).items + 2 ≤ pqWeight pq.items + 2 * 4 ^ l.length := by
  induction l generalizing pq with
  | nil => simp [PQueue.addQueue]
  | cons e rest ih =>
    have h1 := ih (pq.addEdge e rest)
    rw [pqWeight_addEdge] at h1
    simp only [PQueue.addQueue, List.length_cons, pow_succ] at h1 ⊢
    omega

theorem mstSeed_eq_addQueue (pq : PQueue) (l : List Edge) : mstSeed pq l = pq.addQueue l := by
  induction l generalizing pq with
  | nil => rfl
  | cons e rest ih => simp only [mstSeed, PQueue.addQueue, ih]

theorem entries_addQueue (pq : PQueue) (l L : List Edge) (hl : l <:+ L)
    (h : ∀ it ∈ pq.items, (it.1 :: it.2) <:+ L) :
    ∀ it ∈ (pq.addQueue l).items, (it.1 :: it.2) <:+ L := by
  induction l generalizing pq with
  | nil => exact h
  | cons e rest ih =>
    simp only [PQueue.addQueue]
    apply ih _ ((List.suffix_cons e rest).trans hl)
    intro it hit
    simp only [PQueue.addEdge, List.mem_append, List.mem_singleton] at hit
    rcases hit with hit | hit
    · exact h it hit
    · subst hit; exact hl

theorem mstScan_spec (g : WGraph) (L : List Edge) (hL : ∀ e ∈ L, e.endIndex < g.numNodes)
    (l : List Edge) (hl : l <:+ L) (pq : PQueue)
    (h : ∀ it ∈ pq.items, (it.1 :: it.2) <:+ L) :
    ∃ pq2, mstScan g pq l = .ok pq2 ∧
      pqWeight pq2.items ≤ pqWeight pq.items + 3 * 4 ^ l.length ∧
      ∀ it ∈ pq2.items, (it.1 :: it.2) <:+ L := by
  induction l generalizing pq with
  | nil => exact ⟨pq, rfl, by omega, h⟩
  | cons e rest ih =>
    have hrest : rest <:+ L := (List.suffix_cons e rest).trans hl
    obtain ⟨n, hn⟩ := lookup_of_lt g e.endIndex
      (hL e (hl.subset (List.mem_cons_self _ _)))
    by_cases hv : n.visited = true
    · obtain ⟨pq2, h1, h2, h3⟩ := ih hrest pq h
      refine ⟨pq2, by simp only [mstScan, hn, hv]; simpa using h1, ?_, h3⟩
      simp only [List.length_cons, pow_succ]
      omega
    · have hv1 : n.visited = false := by simpa using hv
      obtain ⟨pq2, h1, h2, h3⟩ := ih hrest (pq.addQueue (e :: rest))
        (entries_addQueue pq (e :: rest) L hl h)
      refine ⟨pq2, by simp only [mstScan, hn, hv1]; simpa using h1, ?_, h3⟩
      have h4 := pqWeight_addQueue pq (e :: rest)
      simp only [List.length_cons, pow_succ] at h4 ⊢
      omega

theorem appendPairs_snoc (g : WGraph) (b : String) (l : List (Nat × Nat)) (p : Nat × Nat) :
    appendPairs g b (l ++ [p]) =
      ((((appendPairs g b l).push (nameOf g p.1)) ++ "-").push (nameOf g p.2)) ++ " " := by
  simp [appendPairs, List.foldl_append]

theorem mstLoop_inv (g0 : WGraph) (hwf : EdgesInRange g0) (s : Nat) (b0 : String)
    (fuel : Nat) (st : MstState) (hinv : MstInv g0 s b0 st)
    (hfuel : pqWeight st.pq.items ≤ fuel) :
    ∃ st1, mstLoop fuel st = .ok st1 ∧ MstInv g0 s b0 st1 ∧ st1.pq.items = [] := by
  induction fuel generalizing st with
  | zero =>
    obtain ⟨g, ⟨items⟩, buf, cur, pairs⟩ := st
    cases items with
    | nil => exact ⟨_, by simp [mstLoop, PQueue.isEmpty], hinv, rfl⟩
    | cons x xs =>
      rw [pqWeight_cons] at hfuel
      have : 0 < 4 ^ (x.2.length + 1) := by positivity
      omega
  | succ fuel ih =>
    obtain ⟨g, ⟨items⟩, buf, cur, pairs⟩ := st
    cases items with
    | nil => exact ⟨_, by simp [mstLoop, PQueue.isEmpty], hinv, rfl⟩
    | cons x xs =>
      have hne : PQueue.removeMin (x :: xs) ≠ none := by
        rw [Ne, removeMin_none]; simp
      obtain ⟨⟨m, rest⟩, hrm⟩ := Option.ne_none_iff_exists'.1 hne
      have hperm := removeMin_perm _ _ _ hrm
      have hm : (m.1 :: m.2) <:+ edgesOf g0 s :=
        hinv.entries m (hperm.mem_iff.2 (List.mem_cons_self _ _))
      have hnum : g.numNodes = g0.numNodes := numNodes_of_skeleton _ _ hinv.shape
      have hmlt : m.1.endIndex < g.numNodes := by
        rw [hnum]; exact hwf s m.1 (hm.subset (List.mem_cons_self _ _))
      obtain ⟨nl, hnl⟩ := lookup_of_lt g cur (by rw [hnum]; exact hinv.current)
      obtain ⟨nc, hnc⟩ := lookup_of_lt g m.1.endIndex hmlt
      obtain ⟨pq2, h1, h2, h3⟩ := mstScan_spec (markVisited g m.1.endIndex) (edgesOf g0 s)
        (fun e he => by rw [numNodes_markVisited, hnum]; exact hwf s e he)
        m.2 ((List.suffix_cons m.1 m.2).trans hm) ⟨rest⟩
        (fun it hit => hinv.entries it (hperm.mem_iff.2 (List.mem_cons_of_mem _ hit)))
      have hinv1 : MstInv g0 s b0
          { graph := markVisited g m.1.endIndex
            pq := pq2
            minCost := (((buf.push nl.name) ++ "-").push nc.name) ++ " "
            current := m.1.endIndex
            pairs := pairs ++ [(cur, m.1.endIndex)] } :=
        { shape := by rw [skeleton_markVisited]; exact hinv.shape
          matrix := hinv.matrix
          current := by rw [← hnum]; exact hmlt
          entries := h3
          text := by
            rw [appendPairs_snoc, ← hinv.text, ← nameOf_of_skeleton _ _ hinv.shape,
              ← nameOf_of_skeleton _ _ hinv.shape, nameOf_of_getElem? _ _ _ hnl,
              nameOf_of_getElem? _ _ _ hnc] }
      have hw : pqWeight (x :: xs) = 4 ^ (m.2.length + 1) + pqWeight rest := by
        rw [pqWeight_perm _ _ hperm, pqWeight_cons]
      have hpos : 0 < 4 ^ m.2.length := by positivity
      obtain ⟨st2, h5, h6, h7⟩ := ih _ hinv1 (by
        simp only [pow_succ] at hw
        simp only at hfuel h2 ⊢
        omega)
      refine ⟨st2, ?_, h6, h7⟩
      rw [mstLoop]
      simp only [PQueue.isEmpty, List.isEmpty_cons, PQueue.removeEdge, hrm, hnl, hnc, h1]
      exact h5

end WGraph

namespace WGraph

/-! ## More fuel does not change a result -/

theorem bfsLoop_mono (f1 f2 : Nat) (h : f1 ≤ f2) (st r : BfsState)
    (hr : bfsLoop f1 st = .ok r) : bfsLoop f2 st = .ok r := by
  induction f1 generalizing f2 st with
  | zero =>
    obtain ⟨g, fifo, buf, listed⟩ := st
    cases fifo with
    | nil =>
      rw [bfsLoop] at hr
      rw [bfsLoop]
      exact hr
    | cons c rest => simp [bfsLoop] at hr
  | succ f1 ih =>
    obtain ⟨f, rfl⟩ : ∃ f, f2 = f + 1 := ⟨f2 - 1, by omega⟩
    obtain ⟨g, fifo, buf, listed⟩ := st
    cases fifo with
    | nil =>
      rw [bfsLoop] at hr
      rw [bfsLoop]
      exact hr
    | cons c rest =>
      rw [bfsLoop] at hr ⊢
      simp only at hr ⊢
      cases hn : g.nodeList[c]? with
      | none => rw [hn] at hr; cases hr
      | some n =>
        rw [hn] at hr
        simp only at hr ⊢
        cases hs : bfsScan { graph := g, FIFO := rest, buffer := buf, listed := listed }
            n.connects with
        | ok st1 =>
          rw [hs] at hr
          exact ih f (by omega) st1 hr
        | outOfRange => rw [hs] at hr; cases hr
        | outOfFuel => rw [hs] at hr; cases hr

theorem mstLoop_mono (f1 f2 : Nat) (h : f1 ≤ f2) (st r : MstState)
    (hr : mstLoop f1 st = .ok r) : mstLoop f2 st = .ok r := by
  induction f1 generalizing f2 st with
  | zero =>
    rw [mstLoop.eq_def] at hr ⊢
    by_cases he : st.pq.isEmpty = true
    · simpa [he] using hr
    · simp [he] at hr
  | succ f1 ih =>
    obtain ⟨f, rfl⟩ : ∃ f, f2 = f + 1 := ⟨f2 - 1, by omega⟩
    rw [mstLoop] at hr ⊢
    by_cases he : st.pq.isEmpty = true
    · simpa [he] using hr
    · simp only [he] at hr ⊢
      cases hrm : st.pq.removeEdge with
      | none => rw [hrm] at hr; simp at hr
      | some p =>
        obtain ⟨shortest, pq1⟩ := p
        rw [hrm] at hr
        simp only at hr ⊢
        cases hl : st.graph.nodeList[st.current]? with
        | none => rw [hl] at hr; simp at hr
        | some lastNode =>
          cases hc : st.graph.nodeList[shortest.1.endIndex]? with
          | none => rw [hl, hc] at hr; simp at hr
          | some currentNode =>
            rw [hl, hc] at hr
            simp only at hr ⊢
            cases hs : mstScan (markVisited st.graph shortest.1.endIndex) pq1 shortest.2 with
            | ok pq2 =>
              rw [hs] at hr
              exact ih f (by omega) _ hr
            | outOfRange => rw [hs] at hr; cases hr
            | outOfFuel => rw [hs] at hr; cases hr

end WGraph

namespace WGraph

/-! ## Built graphs are well formed -/

theorem edgesInRange_step (SIZE : Nat) (g : WGraph) (op : Op) (h : EdgesInRange g) :
    EdgesInRange (applyOp SIZE g op) := by
  rcases applyOp_cases SIZE g op with h1 | ⟨name, -, h1⟩ | ⟨a, b, w, i, j, -, hab, ha, hb, h1⟩
  · rw [h1]; exact h
  · rw [h1]
    intro k e he
    rw [edgesOf_append_fresh] at he
    have := h k e he
    simp only [numNodes, List.length_append, List.length_singleton] at this ⊢
    omega
  · obtain ⟨g1, hg1, hij, hlen, hnodes, hmat⟩ := addWEdge_success g a b w i j hab ha hb
    have hg : applyOp SIZE g op = g1 := by
      rw [hg1] at h1; exact (Prod.mk.inj h1).2.symm
    rw [hg]
    obtain ⟨ni, hni, -⟩ := findNode_found g a i ha
    obtain ⟨nj, hnj, -⟩ := findNode_found g b j hb
    have hi : i < g.nodeList.length := (List.getElem?_eq_some.1 hni).1
    have hj : j < g.nodeList.length := (List.getElem?_eq_some.1 hnj).1
    intro k e he
    rw [edgesOf_addWEdge g g1 i j w hi hj hlen hnodes k] at he
    have hnum : g1.numNodes = g.numNodes := hlen
    rw [hnum]
    by_cases hki : k = i
    · simp only [hki, if_true, List.mem_cons] at he
      rcases he with he | he
      · subst he; exact hj
      · exact h i e he
    · by_cases hkj : k = j
      · simp only [hkj, hij.symm, if_true, if_false, List.mem_cons] at he
        rcases he with he | he
        · subst he; exact hi
        · exact h j e he
      · simp only [hki, hkj, if_false] at he
        exact h k e he

theorem allUnvisited_step (SIZE : Nat) (g : WGraph) (op : Op) (h : AllUnvisited g) :
    AllUnvisited (applyOp SIZE g op) := by
  rcases applyOp_cases SIZE g op with h1 | ⟨name, -, h1⟩ | ⟨a, b, w, i, j, -, hab, ha, hb, h1⟩
  · rw [h1]; exact h
  · rw [h1]
    intro n hn
    simp only [List.mem_append, List.mem_singleton] at hn
    rcases hn with hn | hn
    · exact h n hn
    · subst hn; rfl
  · obtain ⟨g1, hg1, hij, hlen, hnodes, hmat⟩ := addWEdge_success g a b w i j hab ha hb
    have hg : applyOp SIZE g op = g1 := by
      rw [hg1] at h1; exact (Prod.mk.inj h1).2.symm
    rw [hg]
    intro n hn
    obtain ⟨k, hk⟩ := List.mem_iff_getElem?.1 hn
    have hklt : k < g.nodeList.length := by
      rw [← hlen]; exact (List.getElem?_eq_some.1 hk).1
    obtain ⟨m, hm⟩ : ∃ m, g.nodeList[k]? = some m := ⟨g.nodeList[k], List.getElem?_eq_getElem hklt⟩
    rw [hnodes k m hm] at hk
    cases hk
    exact h m (List.getElem?_mem hm)

theorem built_edgesInRange (SIZE : Nat) (ops : List Op) : EdgesInRange (runOps SIZE init ops) :=
  runOps_invariant SIZE EdgesInRange (edgesInRange_step SIZE) init
    (by intro i e he; simp [init, edgesOf] at he) ops

theorem built_allUnvisited (SIZE : Nat) (ops : List Op) : AllUnvisited (runOps SIZE init ops) :=
  runOps_invariant SIZE AllUnvisited (allUnvisited_step SIZE) init
    (by intro n hn; simp [init] at hn) ops

theorem scenario_eq_runOps :
    scenario = runOps 20 init
      [.addNode 'A', .addNode 'B', .addNode 'C', .addNode 'D', .addWEdge 'A' 'B' 1,
        .addWEdge 'B' 'C' 2, .addWEdge 'A' 'C' 4, .addWEdge 'C' 'D' 1] := rfl

theorem scenario_edgesInRange : EdgesInRange scenario := by
  rw [scenario_eq_runOps]; exact built_edgesInRange 20 _

theorem scenario_allUnvisited : AllUnvisited scenario := by
  rw [scenario_eq_runOps]; exact built_allUnvisited 20 _

/-! ## The run of `minCostTree` -/

theorem minCostTreeFrom_spec (g : WGraph) (hwf : EdgesInRange g) (name : Char) (s : Nat)
    (hs : findNode g name = (s : Int)) (fuel : Nat)
    (hfuel : 2 * 4 ^ (edgesOf g s).length ≤ fuel) :
    ∃ st, minCostTreeFrom fuel g name = .ok st ∧
      skeleton st.graph = skeleton g ∧ st.graph.edgeMatrix = g.edgeMatrix ∧
      st.minCost = appendPairs g (("".push name) ++ " : ") st.pairs ∧
      ∀ f2, fuel ≤ f2 → minCostTreeFrom f2 g name = .ok st := by
  obtain ⟨n, hn, hname, -⟩ := findNode_found g name s hs
  have hlt : s < g.numNodes := (List.getElem?_eq_some.1 hn).1
  have hnode : nodeAt g (findNode g name) = some n := by
    simp [nodeAt, hs, hn]
  have hedges : n.connects = edgesOf g s := (edgesOf_of_getElem? g s n hn).symm
  have hinv0 : MstInv g s (("".push n.name) ++ " : ")
      { graph := markVisited g s
        pq := mstSeed PQueue.empty n.connects
        minCost := ("".push n.name) ++ " : "
        current := s
        pairs := [] } :=
    { shape := skeleton_markVisited g s
      matrix := rfl
      current := hlt
      entries := by
        rw [mstSeed_eq_addQueue, hedges]
        exact entries_addQueue _ _ _ (List.suffix_refl _)
          (fun it hit => by simp [PQueue.empty] at hit)
      text := rfl }
  have hw := pqWeight_addQueue PQueue.empty (edgesOf g s)
  have hw0 : pqWeight PQueue.empty.items = 0 := rfl
  obtain ⟨st, h1, h2, h3⟩ := mstLoop_inv g hwf s _ fuel _ hinv0 (by
    simp only [mstSeed_eq_addQueue, hedges]
    omega)
  have hunfold : ∀ f, minCostTreeFrom f g name = mstLoop f
      { graph := markVisited g s
        pq := mstSeed PQueue.empty n.connects
        minCost := ("".push n.name) ++ " : "
        current := s
        pairs := [] } := by
    intro f
    have hnode1 : nodeAt g (s : Int) = some n := by rw [← hs]; exact hnode
    unfold minCostTreeFrom
    simp only [hs, hnode1, Int.toNat_ofNat]
  refine ⟨st, by rw [hunfold]; exact h1, h2.shape, h2.matrix, ?_, ?_⟩
  · rw [h2.text, hname]
  · intro f2 hf2
    rw [hunfold]
    exact mstLoop_mono fuel f2 hf2 _ _ h1

theorem breadthFirstFrom_mono (g : WGraph) (name : Char) (s : Nat) (f1 f2 : Nat) (h : f1 ≤ f2)
    (st : BfsState) (hr : breadthFirstFrom f1 g name s = .ok st) :
    breadthFirstFrom f2 g name s = .ok st := by
  unfold breadthFirstFrom at hr ⊢
  cases hn : g.nodeList[s]? with
  | none => rw [hn] at hr; cases hr
  | some n =>
    rw [hn] at hr
    exact bfsLoop_mono f1 f2 h _ _ hr

end WGraph

namespace WGraph

/-! ## Traversals that reset the flags -/

theorem breadthFirst_stable (g : WGraph) (hwf : EdgesInRange g) (hun : AllUnvisited g)
    (name : Char) :
    ∃ str, ∀ f, g.numNodes ≤ f → breadthFirst f g name = .ok (str, g) := by
  rcases findNode_cases g name with hs | ⟨s, hs⟩
  · exact ⟨"", fun f _ => by simp [breadthFirst, hs]⟩
  · obtain ⟨st, h1, h2, h3, -⟩ := breadthFirstFrom_spec g hwf hun name s hs g.numNodes
      (Nat.le_refl _)
    refine ⟨st.buffer ++ "\n", fun f hf => ?_⟩
    have h4 := breadthFirstFrom_mono g name s _ f hf st h1
    have hne : ¬ ((s : Int) = -1) := by omega
    have hreset : resetVisited st.graph = g := by
      rw [resetVisited_of_skeleton _ _ h2 h3, resetVisited_of_allUnvisited g hun]
    unfold breadthFirst
    simp only [hs, hne, if_false, Int.toNat_ofNat, h4, hreset]

theorem minCostTree_stable (g : WGraph) (hwf : EdgesInRange g) (hun : AllUnvisited g)
    (name : Char) (hfound : findNode g name ≠ -1) :
    ∃ str, ∀ f, mstFuel g name ≤ f → minCostTree f g name = .ok (str, g) := by
  rcases findNode_cases g name with hs | ⟨s, hs⟩
  · exact absurd hs hfound
  · obtain ⟨st, h1, h2, h3, -, h5⟩ := minCostTreeFrom_spec g hwf name s hs (mstFuel g name)
      (by simp [mstFuel, hs])
    refine ⟨st.minCost, fun f hf => ?_⟩
    have hreset : resetVisited st.graph = g := by
      rw [resetVisited_of_skeleton _ _ h2 h3, resetVisited_of_allUnvisited g hun]
    unfold minCostTree
    simp only [h5 f hf, hreset]

/-! ## What the traversals list -/

/-- C10: on a graph whose edges lead to existing nodes and whose visited flags are
all false, `breadthFirst(start)` for a present label returns the header followed by
the names of a list of nodes; the start node and these nodes are pairwise distinct,
and they are exactly the nodes reachable from the start node along edges. -/
theorem breadthFirst_lists_reachable (g : WGraph) (hwf : EdgesInRange g)
    (hun : AllUnvisited g) (name : Char) (s : Nat) (hs : findNode g name = (s : Int))
    (fuel : Nat) (hfuel : g.numNodes ≤ fuel) :
    ∃ listed,
      breadthFirst fuel g name = .ok
        (appendNames g (traversalHeader "Breadth first traversal starting at " name name)
          listed ++ "\n", g) ∧
      (s :: listed).Nodup ∧ ∀ j, j ∈ s :: listed ↔ Reach g s j := by
  obtain ⟨st, h1, h2, h3, h4, h5, h6⟩ := breadthFirstFrom_spec g hwf hun name s hs fuel hfuel
  have hne : ¬ ((s : Int) = -1) := by omega
  have hreset : resetVisited st.graph = g := by
    rw [resetVisited_of_skeleton _ _ h2 h3, resetVisited_of_allUnvisited g hun]
  refine ⟨st.listed, ?_, h5, fun j => ?_⟩
  · unfold breadthFirst
    simp only [hs, hne, if_false, Int.toNat_ofNat, h1, hreset, h4]
  · rw [List.mem_cons]; exact h6 j

theorem breadthFirst_lists_reachable_witness :
    ∃ listed,
      breadthFirst 10 scenario 'A' = .ok
        (appendNames scenario (traversalHeader "Breadth first traversal starting at " 'A' 'A')
          listed ++ "\n", scenario) ∧
      (0 :: listed).Nodup ∧ ∀ j, j ∈ 0 :: listed ↔ Reach scenario 0 j :=
  breadthFirst_lists_reachable scenario scenario_edgesInRange scenario_allUnvisited 'A' 0
    (by decide) 10 (by decide)

/-- C5: on a graph whose edges lead to existing nodes and whose visited flags are
all false, `depthFirst(start)` for a present label returns the header followed by the
names of a list of nodes and leaves names and lists as they were; afterwards the
visited flag is true exactly for the start node and the listed nodes; and a second
`depthFirst(start)` right after returns the header line and "start : " only, and
changes nothing. -/
theorem depthFirst_leaves_flags (g : WGraph) (hwf : EdgesInRange g) (hun : AllUnvisited g)
    (name : Char) (s : Nat) (hs : findNode g name = (s : Int))
    (fuel : Nat) (hfuel : 2 * g.numNodes ≤ fuel) :
    ∃ listed g1,
      depthFirst fuel g name = .ok
        (appendNames g (traversalHeader "Depth first traversal starting at " name name)
          listed, g1) ∧
      skeleton g1 = skeleton g ∧
      (∀ k, isVisited g1 k = true ↔ k ∈ s :: listed) ∧
      ∀ fuel2, 1 ≤ fuel2 →
        depthFirst fuel2 g1 name =
          .ok (traversalHeader "Depth first traversal starting at " name name, g1) := by
  obtain ⟨st, h1, h2, h3, h4, h5, h6, h7⟩ := depthFirstFrom_spec g hwf hun name s hs fuel hfuel
  have hne : ¬ ((s : Int) = -1) := by omega
  refine ⟨st.listed, st.graph, ?_, h2, fun k => ?_, fun fuel2 hfuel2 => ?_⟩
  · unfold depthFirst
    simp only [hs, hne, if_false, Int.toNat_ofNat, h1, h4]
  · rw [List.mem_cons]; exact h6 k
  · apply depthFirst_stale st.graph name s _ ((h6 s).2 (Or.inl rfl)) _ fuel2 hfuel2
    · rw [findNode_of_skeleton _ _ h2]; exact hs
    · intro e he
      rw [edgesOf_of_skeleton _ _ h2] at he
      rw [h6]
      exact (h7 e.endIndex).2
        (Relation.ReflTransGen.tail Relation.ReflTransGen.refl ⟨e, he, rfl⟩)

theorem depthFirst_leaves_flags_witness :
    ∃ listed g1,
      depthFirst 10 scenario 'A' = .ok
        (appendNames scenario (traversalHeader "Depth first traversal starting at " 'A' 'A')
          listed, g1) ∧
      skeleton g1 = skeleton scenario ∧
      (∀ k, isVisited g1 k = true ↔ k ∈ 0 :: listed) ∧
      ∀ fuel2, 1 ≤ fuel2 →
        depthFirst fuel2 g1 'A' =
          .ok (traversalHeader "Depth first traversal starting at " 'A' 'A', g1) :=
  depthFirst_leaves_flags scenario scenario_edgesInRange scenario_allUnvisited 'A' 0
    (by decide) 10 (by decide)

/-! ## The scenario of the minimum-cost tree -/

/-- C1: on the scenario graph `minCostTree('A')` returns "A : A-B B-C " whatever the
fuel from 2 on: it writes the pairs (A,B) and (B,C) and no pair C-D; the two edges it
removed from the queue are A-B of weight 1 and A-C of weight 4, node D is never
marked, so the output is not a spanning tree of total weight 4. -/
theorem minCostTree_scenario (k : Nat) :
    ∃ st, minCostTreeFrom (k + 2) scenario 'A' = .ok st ∧
      st.pairs = [(0, 1), (1, 2)] ∧
      isVisited st.graph 3 = false ∧
      minCostTree (k + 2) scenario 'A' = .ok ("A : A-B B-C ", scenario) := by
  have h2 : minCostTreeFrom 2 scenario 'A' = .ok
      { graph := markVisited (markVisited (markVisited scenario 0) 1) 2
        pq := ⟨[]⟩
        minCost := "A : A-B B-C "
        current := 2
        pairs := [(0, 1), (1, 2)] } := rfl
  have hk : minCostTreeFrom (k + 2) scenario 'A' = .ok
      { graph := markVisited (markVisited (markVisited scenario 0) 1) 2
        pq := ⟨[]⟩
        minCost := "A : A-B B-C "
        current := 2
        pairs := [(0, 1), (1, 2)] } :=
    mstLoop_mono 2 (k + 2) (by omega) _ _ h2
  refine ⟨_, hk, rfl, by decide, ?_⟩
  unfold minCostTree
  rw [hk]
  rfl

end WGraph


namespace WGraph

/-! ## Node insertion and lookup -/

/-- C13: `addNode` at capacity fails with the overflow error and leaves the graph as
it was; below capacity it appends one node with the given label, visited false and
no edges at index `numNodes`, raises the node count by one and keeps every existing
node and the matrix. -/
theorem addNode_capacity (SIZE : Nat) (g : WGraph) (name : Char) :
    (SIZE ≤ g.numNodes ∧ addNode SIZE g name = .error "Graph size exceeded!!" ∧
      afterAddNode SIZE g name = g) ∨
    (g.numNodes < SIZE ∧ ∃ g1, addNode SIZE g name = .ok g1 ∧
      afterAddNode SIZE g name = g1 ∧
      g1.numNodes = g.numNodes + 1 ∧
      g1.nodeList[g.numNodes]? = some ({ name := name, visited := false, connects := [] } : Node) ∧
      (∀ k, k < g.numNodes → g1.nodeList[k]? = g.nodeList[k]?) ∧
      g1.edgeMatrix = g.edgeMatrix) := by
  by_cases h : SIZE ≤ g.numNodes
  · left
    exact ⟨h, by simp [addNode, h], by simp [afterAddNode, addNode, h]⟩
  · right
    have h1 : ¬ (g.numNodes ≥ SIZE) := h
    refine ⟨by omega,
      { g with nodeList := g.nodeList ++ [{ name := name, visited := false, connects := [] }] },
      by simp only [addNode, h1, if_false], ?_, ?_, ?_, ?_, rfl⟩
    · simp only [afterAddNode, addNode, h1, if_false]
    · simp [numNodes]
    · simp [numNodes]
    · intro k hk
      exact List.getElem?_append_left hk

/-- C14: `findNode(label)` returns `-1` exactly when no node carries the label;
otherwise it returns an index below `numNodes` whose node carries the label, and no
node at a smaller index does. -/
theorem findNode_first (g : WGraph) (name : Char) :
    (findNode g name = -1 ↔ ∀ n ∈ g.nodeList, n.name ≠ name) ∧
    ((findNode g name = -1 ∧ ∀ n ∈ g.nodeList, n.name ≠ name) ∨
      ∃ i : Nat, findNode g name = (i : Int) ∧ i < g.numNodes ∧ nameOf g i = name ∧
        ∀ k, k < i → nameOf g k ≠ name) := by
  refine ⟨findNode_eq_neg_one g name, ?_⟩
  rcases findNode_cases g name with h | ⟨i, h⟩
  · exact Or.inl ⟨h, (findNode_eq_neg_one g name).1 h⟩
  · right
    obtain ⟨n, hn, hname, hmin⟩ := findNode_found g name i h
    have hlt : i < g.numNodes := (List.getElem?_eq_some.1 hn).1
    refine ⟨i, h, hlt, by rw [nameOf_of_getElem? g i n hn]; exact hname, ?_⟩
    intro k hk
    obtain ⟨m, hm⟩ := lookup_of_lt g k (by omega)
    rw [nameOf_of_getElem? g k m hm]
    exact hmin k m hk hm

/-! ## Depth-first traversal lists the reachable nodes -/

/-- C12: on a graph whose edges lead to existing nodes and whose visited flags are
all false, `depthFirst(start)` for a present label returns (with `2 * numNodes`
iterations at most) the header followed by the names of a list of nodes; the start
node and these nodes are pairwise distinct, and they are exactly the nodes reachable
from the start node along edges. -/
theorem depthFirst_lists_reachable (g : WGraph) (hwf : EdgesInRange g)
    (hun : AllUnvisited g) (name : Char) (s : Nat) (hs : findNode g name = (s : Int))
    (fuel : Nat) (hfuel : 2 * g.numNodes ≤ fuel) :
    ∃ listed g1,
      depthFirst fuel g name = .ok
        (appendNames g (traversalHeader "Depth first traversal starting at " name name)
          listed, g1) ∧
      (s :: listed).Nodup ∧ ∀ j, j ∈ s :: listed ↔ Reach g s j := by
  obtain ⟨st, h1, -, -, h4, h5, -, h7⟩ := depthFirstFrom_spec g hwf hun name s hs fuel hfuel
  have hne : ¬ ((s : Int) = -1) := by omega
  refine ⟨st.listed, st.graph, ?_, h5, fun j => ?_⟩
  · unfold depthFirst
    simp only [hs, hne, if_false, Int.toNat_ofNat, h1, h4]
  · rw [List.mem_cons]; exact h7 j

theorem depthFirst_lists_reachable_witness :
    ∃ listed g1,
      depthFirst 8 scenario 'A' = .ok
        (appendNames scenario (traversalHeader "Depth first traversal starting at " 'A' 'A')
          listed, g1) ∧
      (0 :: listed).Nodup ∧ ∀ j, j ∈ 0 :: listed ↔ Reach scenario 0 j :=
  depthFirst_lists_reachable scenario scenario_edgesInRange scenario_allUnvisited 'A' 0
    (by decide) 8 (by decide)

/-! ## Termination of `minCostTree` -/

theorem mstLoop_ok_empty (fuel : Nat) (st st1 : MstState) (h : mstLoop fuel st = .ok st1) :
    st1.pq.isEmpty = true := by
  induction fuel generalizing st with
  | zero =>
    rw [mstLoop.eq_def] at h
    by_cases he : st.pq.isEmpty = true
    · simp only [he, if_true, Run.ok.injEq] at h
      rw [← h]; exact he
    · simp [he] at h
  | succ fuel ih =>
    rw [mstLoop] at h
    by_cases he : st.pq.isEmpty = true
    · simp only [he, if_true, Run.ok.injEq] at h
      rw [← h]; exact he
    · simp only [he] at h
      cases hrm : st.pq.removeEdge with
      | none => rw [hrm] at h; simp at h
      | some p =>
        obtain ⟨shortest, pq1⟩ := p
        rw [hrm] at h
        simp only at h
        cases hl : st.graph.nodeList[st.current]? with
        | none => rw [hl] at h; simp at h
        | some lastNode =>
          cases hc : st.graph.nodeList[shortest.1.endIndex]? with
          | none => rw [hl, hc] at h; simp at h
          | some currentNode =>
            rw [hl, hc] at h
            simp only at h
            cases hs : mstScan (markVisited st.graph shortest.1.endIndex) pq1 shortest.2 with
            | ok pq2 =>
              rw [hs] at h
              exact ih _ h
            | outOfRange => rw [hs] at h; cases h
            | outOfFuel => rw [hs] at h; cases h

theorem minCostTreeFrom_ok_empty (fuel : Nat) (g : WGraph) (name : Char) (st : MstState)
    (h : minCostTreeFrom fuel g name = .ok st) : st.pq.isEmpty = true := by
  unfold minCostTreeFrom at h
  cases hn : nodeAt g (findNode g name) with
  | none => rw [hn] at h; cases h
  | some n =>
    rw [hn] at h
    exact mstLoop_ok_empty fuel _ st h

/-- C17: for every graph built by `addNode` and `addWEdge` calls and every label that
`findNode` finds, `minCostTree(start)` terminates: with `mstFuel` iterations or more
the loop ends with an empty queue and the function returns a string, leaving the
graph as it was. -/
theorem minCostTree_terminates (SIZE : Nat) (ops : List Op) (name : Char) (s : Nat)
    (hs : findNode (runOps SIZE init ops) name = (s : Int)) (fuel : Nat)
    (hfuel : mstFuel (runOps SIZE init ops) name ≤ fuel) :
    ∃ st, minCostTreeFrom fuel (runOps SIZE init ops) name = .ok st ∧
      st.pq.isEmpty = true ∧
      minCostTree fuel (runOps SIZE init ops) name = .ok (st.minCost, runOps SIZE init ops) := by
  have hwf := built_edgesInRange SIZE ops
  have hun := built_allUnvisited SIZE ops
  obtain ⟨st, h1, h2, h3, -, -⟩ := minCostTreeFrom_spec _ hwf name s hs fuel
    (by simpa [mstFuel, hs] using hfuel)
  have hreset : resetVisited st.graph = runOps SIZE init ops := by
    rw [resetVisited_of_skeleton _ _ h2 h3, resetVisited_of_allUnvisited _ hun]
  refine ⟨st, h1, minCostTreeFrom_ok_empty _ _ _ _ h1, ?_⟩
  unfold minCostTree
  simp only [h1, hreset]

theorem minCostTree_terminates_witness :
    ∃ st, minCostTreeFrom 32 (runOps 20 init
        [.addNode 'A', .addNode 'B', .addNode 'C', .addNode 'D', .addWEdge 'A' 'B' 1,
          .addWEdge 'B' 'C' 2, .addWEdge 'A' 'C' 4, .addWEdge 'C' 'D' 1]) 'A' = .ok st ∧
      st.pq.isEmpty = true ∧
      minCostTree 32 (runOps 20 init
        [.addNode 'A', .addNode 'B', .addNode 'C', .addNode 'D', .addWEdge 'A' 'B' 1,
          .addWEdge 'B' 'C' 2, .addWEdge 'A' 'C' 4, .addWEdge 'C' 'D' 1]) 'A'
        = .ok (st.minCost, runOps 20 init
        [.addNode 'A', .addNode 'B', .addNode 'C', .addNode 'D', .addWEdge 'A' 'B' 1,
          .addWEdge 'B' 'C' 2, .addWEdge 'A' 'C' 4, .addWEdge 'C' 'D' 1]) :=
  minCostTree_terminates 20 _ 'A' 0 (by decide) 32 (by decide)

end WGraph

namespace WGraph

/-! ## Shape of the adjacency lists of built graphs -/

theorem mirror_step (SIZE : Nat) (g : WGraph) (op : Op)
    (h : (∀ i, ∀ e ∈ edgesOf g i, e.endIndex ≠ i) ∧
      ∀ i j w, (edgesOf g i).count ⟨j, w⟩ = (edgesOf g j).count ⟨i, w⟩) :
    (∀ i, ∀ e ∈ edgesOf (applyOp SIZE g op) i, e.endIndex ≠ i) ∧
      ∀ i j w, (edgesOf (applyOp SIZE g op) i).count ⟨j, w⟩
        = (edgesOf (applyOp SIZE g op) j).count ⟨i, w⟩ := by
  rcases applyOp_cases SIZE g op with h1 | ⟨name, -, h1⟩ | ⟨a, b, w0, i0, j0, -, hab, ha, hb, h1⟩
  · rw [h1]; exact h
  · rw [h1]
    simp only [edgesOf_append_fresh]
    exact h
  · obtain ⟨g1, hg1, hij, hlen, hnodes, hmat⟩ := addWEdge_success g a b w0 i0 j0 hab ha hb
    have hg : applyOp SIZE g op = g1 := by
      rw [hg1] at h1; exact (Prod.mk.inj h1).2.symm
    rw [hg]
    obtain ⟨ni, hni, -⟩ := findNode_found g a i0 ha
    obtain ⟨nj, hnj, -⟩ := findNode_found g b j0 hb
    have hi : i0 < g.nodeList.length := (List.getElem?_eq_some.1 hni).1
    have hj : j0 < g.nodeList.length := (List.getElem?_eq_some.1 hnj).1
    have hedges := edgesOf_addWEdge g g1 i0 j0 w0 hi hj hlen hnodes
    constructor
    · intro i e he
      rw [hedges i] at he
      by_cases hii : i = i0
      · simp only [hii, if_true, List.mem_cons] at he
        rcases he with he | he
        · subst he; rw [hii]; exact fun h2 => hij h2.symm
        · rw [hii]; exact h.1 i0 e he
      · by_cases hij2 : i = j0
        · simp only [hij2, hij.symm, if_true, if_false, List.mem_cons] at he
          rcases he with he | he
          · subst he; rw [hij2]; exact hij
          · rw [hij2]; exact h.1 j0 e he
        · simp only [hii, hij2, if_false] at he
          exact h.1 i e he
    · intro i j w
      rw [hedges i, hedges j]
      have hsym := h.2 i j w
      by_cases hii : i = i0
      · by_cases hjj : j = j0
        · subst hii; subst hjj
          simp only [if_true, hij.symm, if_false, List.count_cons, hsym, beq_iff_eq, Edge.mk.injEq,
            true_and]
        · by_cases hji : j = i0
          · subst hii
            subst hji
            simp only [if_true, List.count_cons, hsym, beq_iff_eq, Edge.mk.injEq]
          · subst hii
            simp only [if_true, hjj, hji, if_false, List.count_cons, hsym, beq_iff_eq,
              Edge.mk.injEq]
            have : ¬ (j0 = j ∧ w0 = w) := fun h2 => hjj h2.1.symm
            simp [this]
      · by_cases hij2 : i = j0
        · by_cases hji : j = i0
          · subst hij2; subst hji
            simp only [if_true, hij, hij.symm, if_false, List.count_cons, hsym, beq_iff_eq,
              Edge.mk.injEq, true_and]
          · by_cases hjj : j = j0
            · subst hij2
              subst hjj
              simp only [if_true, hii, if_false, List.count_cons, hsym, beq_iff_eq,
                Edge.mk.injEq]
            · subst hij2
              simp only [if_true, hii, hjj, hji, if_false, List.count_cons, hsym, beq_iff_eq,
                Edge.mk.injEq]
              have : ¬ (i0 = j ∧ w0 = w) := fun h2 => hji h2.1.symm
              simp [this]
        · by_cases hji : j = i0
          · subst hji
            simp only [if_true, hii, hij2, if_false, List.count_cons, hsym, beq_iff_eq,
              Edge.mk.injEq]
            have : ¬ (j0 = i ∧ w0 = w) := fun h2 => hij2 h2.1.symm
            simp [this]
          · by_cases hjj : j = j0
            · subst hjj
              simp only [if_true, hii, hij2, hji, if_false, List.count_cons, hsym, beq_iff_eq,
                Edge.mk.injEq]
              have : ¬ (i0 = i ∧ w0 = w) := fun h2 => hii h2.1.symm
              simp [this]
            · simp only [hii, hij2, hji, hjj, if_false, hsym]

theorem displayEdgeNames_ok (g : WGraph) (l : List Edge) (ss : String)
    (h : ∀ e ∈ l, e.endIndex < g.numNodes) : ∃ s1, displayEdgeNames g ss l = .ok s1 := by
  induction l generalizing ss with
  | nil => exact ⟨ss, rfl⟩
  | cons e rest ih =>
    obtain ⟨n, hn⟩ := lookup_of_lt g e.endIndex (h e (List.mem_cons_self _ _))
    obtain ⟨s1, h1⟩ := ih ((ss.push n.name) ++ " ") (fun e1 h1 => h e1 (List.mem_cons_of_mem _ h1))
    exact ⟨s1, by simp only [displayEdgeNames, hn]; exact h1⟩

theorem displayRows_ok (g : WGraph) (rows : List Node) (ss : String)
    (h : ∀ n ∈ rows, ∀ e ∈ n.connects, e.endIndex < g.numNodes) :
    ∃ s1, displayRows g ss rows = .ok s1 := by
  induction rows generalizing ss with
  | nil => exact ⟨ss, rfl⟩
  | cons n rest ih =>
    obtain ⟨s1, h1⟩ := displayEdgeNames_ok g n.connects ((ss.push n.name) ++ "-")
      (h n (List.mem_cons_self _ _))
    obtain ⟨s2, h2⟩ := ih (s1 ++ "\n") (fun m hm => h m (List.mem_cons_of_mem _ hm))
    exact ⟨s2, by simp only [displayRows, h1]; exact h2⟩

theorem displayWEdges_ok (g : WGraph) (hwf : EdgesInRange g) :
    ∃ s1, displayWEdges g = .ok s1 := by
  apply displayRows_ok
  intro n hn e he
  obtain ⟨k, hk⟩ := List.mem_iff_getElem?.1 hn
  apply hwf k e
  rw [edgesOf_of_getElem? g k n hk]
  exact he

theorem depthFirst_returns (g : WGraph) (hwf : EdgesInRange g) (hun : AllUnvisited g)
    (name : Char) (fuel : Nat) (hfuel : 2 * g.numNodes ≤ fuel) :
    ∃ r, depthFirst fuel g name = .ok r := by
  rcases findNode_cases g name with hs | ⟨s, hs⟩
  · exact ⟨("", g), by simp [depthFirst, hs]⟩
  · obtain ⟨st, h1, -⟩ := depthFirstFrom_spec g hwf hun name s hs fuel hfuel
    have hne : ¬ ((s : Int) = -1) := by omega
    refine ⟨(st.buffer, st.graph), ?_⟩
    unfold depthFirst
    simp only [hs, hne, if_false, Int.toNat_ofNat, h1]

/-- C18: in every graph built from the empty graph by `addNode` and `addWEdge` calls,
every edge of node `i` leads to a node `j` with `j < numNodes` and `j ≠ i`, and the
list of `i` holds the edge `(j, w)` as often as the list of `j` holds `(i, w)`; hence
every node lookup by `endIndex` finds a node: `displayWEdges` returns, and so do
`depthFirst`, `breadthFirst` (any label) and `minCostTree` (a label that `findNode`
finds) once given enough iterations. -/
theorem adjacency_lists_mirror (SIZE : Nat) (ops : List Op) :
    (∀ i, ∀ e ∈ edgesOf (runOps SIZE init ops) i,
      e.endIndex < (runOps SIZE init ops).numNodes ∧ e.endIndex ≠ i ∧
      ∃ n, (runOps SIZE init ops).nodeList[e.endIndex]? = some n) ∧
    (∀ i j w, (edgesOf (runOps SIZE init ops) i).count ⟨j, w⟩
      = (edgesOf (runOps SIZE init ops) j).count ⟨i, w⟩) ∧
    (∃ str, displayWEdges (runOps SIZE init ops) = .ok str) ∧
    (∀ name fuel, 2 * (runOps SIZE init ops).numNodes ≤ fuel →
      (∃ r, depthFirst fuel (runOps SIZE init ops) name = .ok r) ∧
      (∃ r, breadthFirst fuel (runOps SIZE init ops) name = .ok r)) ∧
    (∀ name fuel, findNode (runOps SIZE init ops) name ≠ -1 →
      mstFuel (runOps SIZE init ops) name ≤ fuel →
      ∃ r, minCostTree fuel (runOps SIZE init ops) name = .ok r) := by
  have hwf := built_edgesInRange SIZE ops
  have hun := built_allUnvisited SIZE ops
  have hm := runOps_invariant SIZE
    (fun g => (∀ i, ∀ e ∈ edgesOf g i, e.endIndex ≠ i) ∧
      ∀ i j w, (edgesOf g i).count ⟨j, w⟩ = (edgesOf g j).count ⟨i, w⟩)
    (mirror_step SIZE) init
    (by constructor
        · intro i e he; simp [init, edgesOf] at he
        · intro i j w; simp [init, edgesOf]) ops
  refine ⟨fun i e he => ⟨hwf i e he, hm.1 i e he, lookup_of_lt _ _ (hwf i e he)⟩, hm.2,
    displayWEdges_ok _ hwf, fun name fuel hfuel => ⟨?_, ?_⟩, fun name fuel hfound hfuel => ?_⟩
  · exact depthFirst_returns _ hwf hun name fuel hfuel
  · obtain ⟨str, h⟩ := breadthFirst_stable _ hwf hun name
    exact ⟨_, h fuel (by omega)⟩
  · obtain ⟨str, h⟩ := minCostTree_stable _ hwf hun name hfound
    exact ⟨_, h fuel hfuel⟩

end WGraph

namespace WGraph

/-! ## Nodes with a repeated label -/

theorem shadowed_step (SIZE : Nat) (g : WGraph) (op : Op)
    (h : EdgesInRange g ∧
      (∀ p q, g.edgeMatrix p q ≠ 0 → p < g.numNodes ∧ q < g.numNodes) ∧
      ∀ k, Shadowed g k → Isolated g k) :
    EdgesInRange (applyOp SIZE g op) ∧
      (∀ p q, (applyOp SIZE g op).edgeMatrix p q ≠ 0 →
        p < (applyOp SIZE g op).numNodes ∧ q < (applyOp SIZE g op).numNodes) ∧
      ∀ k, Shadowed (applyOp SIZE g op) k → Isolated (applyOp SIZE g op) k := by
  obtain ⟨hwf, hsupp, hiso⟩ := h
  refine ⟨edgesInRange_step SIZE g op hwf, ?_⟩
  rcases applyOp_cases SIZE g op with h1 | ⟨name, -, h1⟩ | ⟨a, b, w0, i0, j0, -, hab, ha, hb, h1⟩
  · rw [h1]; exact ⟨hsupp, hiso⟩
  · rw [h1]
    constructor
    · intro p q hpq
      have := hsupp p q hpq
      simp only [numNodes, List.length_append, List.length_singleton] at this ⊢
      omega
    · rintro k ⟨k1, n, n1, hk1, hn, hn1, hname⟩
      simp only at hn hn1
      have hklt : k < g.nodeList.length + 1 := by
        have := (List.getElem?_eq_some.1 hn).1
        simpa using this
      by_cases hk : k < g.nodeList.length
      · rw [List.getElem?_append_left hk] at hn
        rw [List.getElem?_append_left (by omega)] at hn1
        obtain ⟨h2, h3, h4⟩ := hiso k ⟨k1, n, n1, hk1, hn, hn1, hname⟩
        refine ⟨by rw [edgesOf_append_fresh]; exact h2, ?_, h4⟩
        intro i e he
        rw [edgesOf_append_fresh] at he
        exact h3 i e he
      · have hkeq : k = g.nodeList.length := by omega
        refine ⟨?_, ?_, ?_⟩
        · rw [edgesOf_append_fresh]
          simp [edgesOf, List.getElem?_eq_none (Nat.le_of_eq hkeq.symm)]
        · intro i e he
          rw [edgesOf_append_fresh] at he
          have := hwf i e he
          simp only [numNodes] at this
          omega
        · intro q
          constructor
          · by_contra hne
            have := (hsupp k q hne).1
            simp only [numNodes] at this
            omega
          · by_contra hne
            have := (hsupp q k hne).2
            simp only [numNodes] at this
            omega
  · obtain ⟨g1, hg1, hij, hlen, hnodes, hmat⟩ := addWEdge_success g a b w0 i0 j0 hab ha hb
    have hg : applyOp SIZE g op = g1 := by
      rw [hg1] at h1; exact (Prod.mk.inj h1).2.symm
    rw [hg]
    obtain ⟨ni, hni, hnia, hmini⟩ := findNode_found g a i0 ha
    obtain ⟨nj, hnj, hnjb, hminj⟩ := findNode_found g b j0 hb
    have hi : i0 < g.nodeList.length := (List.getElem?_eq_some.1 hni).1
    have hj : j0 < g.nodeList.length := (List.getElem?_eq_some.1 hnj).1
    have hedges := edgesOf_addWEdge g g1 i0 j0 w0 hi hj hlen hnodes
    have hnum : g1.numNodes = g.numNodes := hlen
    constructor
    · intro p q hpq
      rw [hnum]
      rw [hmat] at hpq
      by_cases hc : (p = i0 ∧ q = j0) ∨ (p = j0 ∧ q = i0)
      · rcases hc with ⟨h2, h3⟩ | ⟨h2, h3⟩
        · rw [h2, h3]; exact ⟨hi, hj⟩
        · rw [h2, h3]; exact ⟨hj, hi⟩
      · rw [if_neg hc] at hpq
        exact hsupp p q hpq
    · rintro k ⟨k1, n, n1, hk1, hn, hn1, hname⟩
      have hklt : k < g.nodeList.length := by
        rw [← hlen]; exact (List.getElem?_eq_some.1 hn).1
      obtain ⟨m, hm⟩ : ∃ m, g.nodeList[k]? = some m := ⟨g.nodeList[k], List.getElem?_eq_getElem hklt⟩
      obtain ⟨m1, hm1⟩ : ∃ m1, g.nodeList[k1]? = some m1 :=
        ⟨g.nodeList[k1], List.getElem?_eq_getElem (by omega)⟩
      have e1 := hnodes k m hm
      have e2 := hnodes k1 m1 hm1
      rw [hn] at e1
      rw [hn1] at e2
      cases e1
      cases e2
      simp only at hname
      have hsh : Shadowed g k := ⟨k1, m, m1, hk1, hm, hm1, hname⟩
      have hki : k ≠ i0 := by
        intro hk
        subst hk
        rw [hni] at hm
        cases hm
        exact hmini k1 m1 hk1 hm1 (hname.trans hnia)
      have hkj : k ≠ j0 := by
        intro hk
        subst hk
        rw [hnj] at hm
        cases hm
        exact hminj k1 m1 hk1 hm1 (hname.trans hnjb)
      obtain ⟨h2, h3, h4⟩ := hiso k hsh
      refine ⟨?_, ?_, ?_⟩
      · rw [hedges k]
        simp only [hki, hkj, if_false]
        exact h2
      · intro i e he
        rw [hedges i] at he
        by_cases hii : i = i0
        · simp only [hii, if_true, List.mem_cons] at he
          rcases he with he | he
          · subst he; exact fun h5 => hkj h5.symm
          · exact h3 i0 e he
        · by_cases hij2 : i = j0
          · simp only [hij2, hij.symm, if_true, if_false, List.mem_cons] at he
            rcases he with he | he
            · subst he; exact fun h5 => hki h5.symm
            · exact h3 j0 e he
          · simp only [hii, hij2, if_false] at he
            exact h3 i e he
      · intro q
        rw [hmat, hmat]
        have c1 : ¬ ((k = i0 ∧ q = j0) ∨ (k = j0 ∧ q = i0)) := by
          rintro (⟨h5, -⟩ | ⟨h5, -⟩)
          · exact hki h5
          · exact hkj h5
        have c2 : ¬ ((q = i0 ∧ k = j0) ∨ (q = j0 ∧ k = i0)) := by
          rintro (⟨-, h5⟩ | ⟨-, h5⟩)
          · exact hkj h5
          · exact hki h5
        rw [if_neg c1, if_neg c2]
        exact h4 q

/-- C20: `addNode` below capacity succeeds also for a label that is already present;
and in every graph built from the empty graph by `addNode` and `addWEdge` calls, a
node whose label is also carried by a node at a smaller index is isolated: its list
is empty, no edge leads to it, and its matrix row and column are zero. -/
theorem duplicate_label_isolated (SIZE : Nat) (ops : List Op) (k : Nat)
    (h : Shadowed (runOps SIZE init ops) k) :
    Isolated (runOps SIZE init ops) k ∧
    ∀ (g : WGraph) (name : Char), (∃ n ∈ g.nodeList, n.name = name) → g.numNodes < SIZE →
      addNode SIZE g name = .ok
        { g with nodeList := g.nodeList ++ [{ name := name, visited := false, connects := [] }] } := by
  have hinv := runOps_invariant SIZE
    (fun g => EdgesInRange g ∧
      (∀ p q, g.edgeMatrix p q ≠ 0 → p < g.numNodes ∧ q < g.numNodes) ∧
      ∀ k, Shadowed g k → Isolated g k)
    (shadowed_step SIZE) init
    (by refine ⟨?_, ?_, ?_⟩
        · intro i e he; simp [init, edgesOf] at he
        · intro p q hpq; simp [init] at hpq
        · rintro k ⟨k1, n, n1, -, hn, -⟩
          simp [init] at hn) ops
  refine ⟨hinv.2.2 k h, ?_⟩
  intro g name _ hlt
  have : ¬ (g.numNodes ≥ SIZE) := by omega
  simp only [addNode, this, if_false]

theorem duplicate_label_isolated_witness :
    Isolated (runOps 20 init
      [.addNode 'A', .addNode 'A', .addNode 'B', .addWEdge 'A' 'B' 3, .addWEdge 'B' 'A' 5]) 1 ∧
    ∀ (g : WGraph) (name : Char), (∃ n ∈ g.nodeList, n.name = name) → g.numNodes < 20 →
      addNode 20 g name = .ok
        { g with nodeList := g.nodeList ++ [{ name := name, visited := false, connects := [] }] } :=
  duplicate_label_isolated 20
    [.addNode 'A', .addNode 'A', .addNode 'B', .addWEdge 'A' 'B' 3, .addWEdge 'B' 'A' 5] 1
    ⟨0, ⟨'A', false, []⟩, ⟨'A', false, [⟨2, 5⟩, ⟨2, 3⟩]⟩, by decide, by decide, by decide, rfl⟩

end WGraph

namespace WGraph

/-! ## Which nodes `minCostTree` reaches -/

theorem removeEdge_mem (pq pq1 : PQueue) (m : Edge × List Edge)
    (h : pq.removeEdge = some (m, pq1)) :
    m ∈ pq.items ∧ ∀ it ∈ pq1.items, it ∈ pq.items := by
  unfold PQueue.removeEdge at h
  cases hrm : PQueue.removeMin pq.items with
  | none => rw [hrm] at h; cases h
  | some p =>
    obtain ⟨m1, rest⟩ := p
    rw [hrm] at h
    simp only [Option.some.injEq, Prod.mk.injEq] at h
    obtain ⟨rfl, rfl⟩ := h
    have hperm := removeMin_perm _ _ _ hrm
    exact ⟨hperm.mem_iff.2 (List.mem_cons_self _ _),
      fun it hit => hperm.mem_iff.2 (List.mem_cons_of_mem _ hit)⟩

/-- One iteration of the loop of `minCostTree` keeps both invariants. -/
theorem mstStep_inv (g0 : WGraph) (hwf : EdgesInRange g0) (s : Nat) (b0 : String)
    (st : MstState) (hinv : MstInv g0 s b0 st) (hnear : MstNear g0 s st)
    (m : Edge × List Edge) (pq1 pq2 : PQueue) (lastNode currentNode : Node)
    (hrm : st.pq.removeEdge = some (m, pq1))
    (hl : st.graph.nodeList[st.current]? = some lastNode)
    (hc : st.graph.nodeList[m.1.endIndex]? = some currentNode)
    (hscan : mstScan (markVisited st.graph m.1.endIndex) pq1 m.2 = .ok pq2) :
    MstInv g0 s b0
        { graph := markVisited st.graph m.1.endIndex
          pq := pq2
          minCost := (((st.minCost.push lastNode.name) ++ "-").push currentNode.name) ++ " "
          current := m.1.endIndex
          pairs := st.pairs ++ [(st.current, m.1.endIndex)] } ∧
      MstNear g0 s
        { graph := markVisited st.graph m.1.endIndex
          pq := pq2
          minCost := (((st.minCost.push lastNode.name) ++ "-").push currentNode.name) ++ " "
          current := m.1.endIndex
          pairs := st.pairs ++ [(st.current, m.1.endIndex)] } := by
  obtain ⟨hm1, hm2⟩ := removeEdge_mem _ _ _ hrm
  have hm : (m.1 :: m.2) <:+ edgesOf g0 s := hinv.entries m hm1
  have hmem : m.1 ∈ edgesOf g0 s := hm.subset (List.mem_cons_self _ _)
  have hnum : st.graph.numNodes = g0.numNodes := numNodes_of_skeleton _ _ hinv.shape
  have hmlt : m.1.endIndex < st.graph.numNodes := by
    rw [hnum]; exact hwf s m.1 hmem
  obtain ⟨pq3, h1, -, h3⟩ := mstScan_spec (markVisited st.graph m.1.endIndex) (edgesOf g0 s)
    (fun e he => by rw [numNodes_markVisited, hnum]; exact hwf s e he)
    m.2 ((List.suffix_cons m.1 m.2).trans hm) pq1
    (fun it hit => hinv.entries it (hm2 it hit))
  rw [hscan] at h1
  cases h1
  constructor
  · exact
      { shape := by rw [skeleton_markVisited]; exact hinv.shape
        matrix := hinv.matrix
        current := by rw [← hnum]; exact hmlt
        entries := h3
        text := by
          rw [appendPairs_snoc, ← hinv.text, ← nameOf_of_skeleton _ _ hinv.shape,
            ← nameOf_of_skeleton _ _ hinv.shape, nameOf_of_getElem? _ _ _ hl,
            nameOf_of_getElem? _ _ _ hc] }
  · exact
      { marked := fun k hk => by
          rw [isVisited_markVisited _ _ _ hmlt] at hk
          rcases hk with hk | hk
          · exact Or.inr ⟨m.1, hmem, hk.symm⟩
          · exact hnear.marked k hk
        second := fun p hp => by
          rcases List.mem_append.1 hp with h4 | h4
          · exact hnear.second p h4
          · rw [List.mem_singleton] at h4
            subst h4
            exact ⟨m.1, hmem, rfl⟩ }

theorem mstLoop_near (g0 : WGraph) (hwf : EdgesInRange g0) (s : Nat) (b0 : String)
    (fuel : Nat) (st st1 : MstState) (hinv : MstInv g0 s b0 st) (hnear : MstNear g0 s st)
    (h : mstLoop fuel st = .ok st1) : MstNear g0 s st1 := by
  induction fuel generalizing st with
  | zero =>
    rw [mstLoop.eq_def] at h
    by_cases he : st.pq.isEmpty = true
    · simp only [he, if_true, Run.ok.injEq] at h
      rw [← h]; exact hnear
    · simp [he] at h
  | succ fuel ih =>
    rw [mstLoop] at h
    by_cases he : st.pq.isEmpty = true
    · simp only [he, if_true, Run.ok.injEq] at h
      rw [← h]; exact hnear
    · simp only [he] at h
      cases hrm : st.pq.removeEdge with
      | none => rw [hrm] at h; simp at h
      | some p =>
        obtain ⟨shortest, pq1⟩ := p
        rw [hrm] at h
        simp only at h
        cases hl : st.graph.nodeList[st.current]? with
        | none => rw [hl] at h; simp at h
        | some lastNode =>
          cases hc : st.graph.nodeList[shortest.1.endIndex]? with
          | none => rw [hl, hc] at h; simp at h
          | some currentNode =>
            rw [hl, hc] at h
            simp only at h
            cases hs : mstScan (markVisited st.graph shortest.1.endIndex) pq1 shortest.2 with
            | ok pq2 =>
              rw [hs] at h
              obtain ⟨h1, h2⟩ := mstStep_inv g0 hwf s b0 st hinv hnear shortest pq1 pq2
                lastNode currentNode hrm hl hc hs
              exact ih _ h1 h2 h
            | outOfRange => rw [hs] at h; cases h
            | outOfFuel => rw [hs] at h; cases h

theorem minCostTreeFrom_near (g : WGraph) (hwf : EdgesInRange g) (hun : AllUnvisited g)
    (name : Char) (s : Nat) (hs : findNode g name = (s : Int)) (fuel : Nat) (st : MstState)
    (h : minCostTreeFrom fuel g name = .ok st) : MstNear g s st := by
  obtain ⟨n, hn, hname, -⟩ := findNode_found g name s hs
  have hlt : s < g.numNodes := (List.getElem?_eq_some.1 hn).1
  have hnode1 : nodeAt g (s : Int) = some n := by simp [nodeAt, hn]
  have hedges : n.connects = edgesOf g s := (edgesOf_of_getElem? g s n hn).symm
  unfold minCostTreeFrom at h
  simp only [hs, hnode1, Int.toNat_ofNat] at h
  refine mstLoop_near g hwf s (("".push n.name) ++ " : ") fuel _ st ?_ ?_ h
  · exact
      { shape := skeleton_markVisited g s
        matrix := rfl
        current := hlt
        entries := by
          rw [mstSeed_eq_addQueue, hedges]
          exact entries_addQueue _ _ _ (List.suffix_refl _)
            (fun it hit => by simp [PQueue.empty] at hit)
        text := rfl }
  · exact
      { marked := fun k hk => by
          rw [isVisited_markVisited _ _ _ hlt, isVisited_of_allUnvisited g hun] at hk
          rcases hk with hk | hk
          · exact Or.inl hk
          · cases hk
        second := fun p hp => by cases hp }

theorem hopDist_near (g : WGraph) (s k d : Nat) (h : HopDist g s k d) (hn : NearStart g s k) :
    d ≤ 1 := by
  rcases hn with hn | hn
  · subst hn
    have := h.2 0 Walk.zero
    omega
  · exact h.2 1 (Walk.step Walk.zero hn)

/-- C19: for every graph built by `addNode` and `addWEdge` calls and every label that
`findNode` finds, the run of `minCostTree(start)` marks only the start node and far
nodes of edges of the start node's own list, and the second element of every pair it
writes is such a far node; a node at hop distance two or more from the start is not
marked. -/
theorem minCostTree_stays_near (SIZE : Nat) (ops : List Op) (name : Char) (s : Nat)
    (hs : findNode (runOps SIZE init ops) name = (s : Int)) (fuel : Nat)
    (hfuel : mstFuel (runOps SIZE init ops) name ≤ fuel) :
    ∃ st, minCostTreeFrom fuel (runOps SIZE init ops) name = .ok st ∧
      st.minCost = appendPairs (runOps SIZE init ops) (("".push name) ++ " : ") st.pairs ∧
      (∀ k, isVisited st.graph k = true → NearStart (runOps SIZE init ops) s k) ∧
      (∀ p ∈ st.pairs, ∃ e ∈ edgesOf (runOps SIZE init ops) s, e.endIndex = p.2) ∧
      (∀ k d, HopDist (runOps SIZE init ops) s k d → 2 ≤ d → isVisited st.graph k = false) := by
  have hwf := built_edgesInRange SIZE ops
  have hun := built_allUnvisited SIZE ops
  obtain ⟨st, h1, -, -, h4, -⟩ := minCostTreeFrom_spec _ hwf name s hs fuel
    (by simpa [mstFuel, hs] using hfuel)
  have hnear := minCostTreeFrom_near _ hwf hun name s hs fuel st h1
  refine ⟨st, h1, h4, hnear.marked, hnear.second, ?_⟩
  intro k d hd h2
  by_contra hv
  have hv1 : isVisited st.graph k = true := by simpa using hv
  have := hopDist_near _ s k d hd (hnear.marked k hv1)
  omega

theorem minCostTree_stays_near_witness :
    ∃ st, minCostTreeFrom 40 (runOps 20 init
        [.addNode 'A', .addNode 'B', .addNode 'C', .addNode 'D', .addWEdge 'A' 'B' 1,
          .addWEdge 'B' 'C' 2, .addWEdge 'A' 'C' 4, .addWEdge 'C' 'D' 1]) 'A' = .ok st ∧
      st.minCost = appendPairs (runOps 20 init
        [.addNode 'A', .addNode 'B', .addNode 'C', .addNode 'D', .addWEdge 'A' 'B' 1,
          .addWEdge 'B' 'C' 2, .addWEdge 'A' 'C' 4, .addWEdge 'C' 'D' 1])
          (("".push 'A') ++ " : ") st.pairs ∧
      (∀ k, isVisited st.graph k = true → NearStart (runOps 20 init
        [.addNode 'A', .addNode 'B', .addNode 'C', .addNode 'D', .addWEdge 'A' 'B' 1,
          .addWEdge 'B' 'C' 2, .addWEdge 'A' 'C' 4, .addWEdge 'C' 'D' 1]) 0 k) ∧
      (∀ p ∈ st.pairs, ∃ e ∈ edgesOf (runOps 20 init
        [.addNode 'A', .addNode 'B', .addNode 'C', .addNode 'D', .addWEdge 'A' 'B' 1,
          .addWEdge 'B' 'C' 2, .addWEdge 'A' 'C' 4, .addWEdge 'C' 'D' 1]) 0, e.endIndex = p.2) ∧
      (∀ k d, HopDist (runOps 20 init
        [.addNode 'A', .addNode 'B', .addNode 'C', .addNode 'D', .addWEdge 'A' 'B' 1,
          .addWEdge 'B' 'C' 2, .addWEdge 'A' 'C' 4, .addWEdge 'C' 'D' 1]) 0 k d → 2 ≤ d →
        isVisited st.graph k = false) :=
  minCostTree_stays_near 20 _ 'A' 0 (by decide) 40 (by decide)

/-! ## Pairs written by `minCostTree` -/

/-- C15: on the graph with nodes A, B, C and the edges A-B (1) and A-C (2),
`minCostTree('A')` returns "A : A-B B-C " whatever the fuel from 2 on: its second pair
names B and C, while the edge removed at that step is A's edge to C and the graph
holds no edge between B and C. -/
theorem minCostTree_pair_not_edge (k : Nat) :
    ∃ st, minCostTreeFrom (k + 2) fork 'A' = .ok st ∧
      st.pairs = [(0, 1), (1, 2)] ∧
      minCostTree (k + 2) fork 'A' = .ok ("A : A-B B-C ", fork) ∧
      (∀ e ∈ edgesOf fork 1, e.endIndex ≠ 2) ∧ (∀ e ∈ edgesOf fork 2, e.endIndex ≠ 1) ∧
      edgesOf fork 0 = [⟨2, 2⟩, ⟨1, 1⟩] := by
  have h2 : minCostTreeFrom 2 fork 'A' = .ok
      { graph := markVisited (markVisited (markVisited fork 0) 1) 2
        pq := ⟨[]⟩
        minCost := "A : A-B B-C "
        current := 2
        pairs := [(0, 1), (1, 2)] } := rfl
  have hk : minCostTreeFrom (k + 2) fork 'A' = .ok
      { graph := markVisited (markVisited (markVisited fork 0) 1) 2
        pq := ⟨[]⟩
        minCost := "A : A-B B-C "
        current := 2
        pairs := [(0, 1), (1, 2)] } :=
    mstLoop_mono 2 (k + 2) (by omega) _ _ h2
  refine ⟨_, hk, rfl, ?_, by decide, by decide, rfl⟩
  unfold minCostTree
  rw [hk]
  rfl

/-- C16: on the graph with nodes A, B, C and the edges A-B (2) and A-C (1), which has
no repeated edge and no flag set, `minCostTree('A')` returns "A : A-C C-B B-B " whatever
the fuel from 3 on: node B is the second element of two pairs, so it is marked twice,
the second time when it is already visited. -/
theorem minCostTree_marks_twice (k : Nat) :
    ∃ st, minCostTreeFrom (k + 3) forkHeavy 'A' = .ok st ∧
      st.pairs = [(0, 2), (2, 1), (1, 1)] ∧
      minCostTree (k + 3) forkHeavy 'A' = .ok ("A : A-C C-B B-B ", forkHeavy) ∧
      edgesOf forkHeavy 0 = [⟨2, 1⟩, ⟨1, 2⟩] ∧ edgesOf forkHeavy 1 = [⟨0, 2⟩] ∧
      edgesOf forkHeavy 2 = [⟨0, 1⟩] ∧ AllUnvisited forkHeavy := by
  have h2 : minCostTreeFrom 3 forkHeavy 'A' = .ok
      { graph := markVisited (markVisited (markVisited (markVisited forkHeavy 0) 2) 1) 1
        pq := ⟨[]⟩
        minCost := "A : A-C C-B B-B "
        current := 1
        pairs := [(0, 2), (2, 1), (1, 1)] } := rfl
  have hk : minCostTreeFrom (k + 3) forkHeavy 'A' = .ok
      { graph := markVisited (markVisited (markVisited (markVisited forkHeavy 0) 2) 1) 1
        pq := ⟨[]⟩
        minCost := "A : A-C C-B B-B "
        current := 1
        pairs := [(0, 2), (2, 1), (1, 1)] } :=
    mstLoop_mono 3 (k + 3) (by omega) _ _ h2
  refine ⟨_, hk, rfl, ?_, rfl, rfl, rfl, built_allUnvisited 20 _⟩
  unfold minCostTree
  rw [hk]
  rfl

end WGraph

namespace WGraph

/-! ## Hop distance -/

theorem reach_of_walk (g : WGraph) (s n j : Nat) (h : Walk g s n j) : Reach g s j := by
  induction h with
  | zero => exact Relation.ReflTransGen.refl
  | step _ he ih => exact Relation.ReflTransGen.tail ih he

theorem walk_of_reach (g : WGraph) (s j : Nat) (h : Reach g s j) : ∃ n, Walk g s n j := by
  induction h with
  | refl => exact ⟨0, Walk.zero⟩
  | tail _ he ih =>
    obtain ⟨n, hn⟩ := ih
    exact ⟨n + 1, Walk.step hn he⟩

theorem hopDist_le_of_walk (g : WGraph) (s n j : Nat) (h : Walk g s n j) :
    ∃ d, d ≤ n ∧ HopDist g s j d := by
  classical
  have hex : ∃ m, Walk g s m j := ⟨n, h⟩
  exact ⟨Nat.find hex, Nat.find_min' hex h, Nat.find_spec hex, fun m hm => Nat.find_min' hex hm⟩

theorem hopDist_of_reach (g : WGraph) (s j : Nat) (h : Reach g s j) : ∃ d, HopDist g s j d := by
  obtain ⟨n, hn⟩ := walk_of_reach g s j h
  obtain ⟨d, -, hd⟩ := hopDist_le_of_walk g s n j hn
  exact ⟨d, hd⟩

theorem hopDist_unique (g : WGraph) (s j d1 d2 : Nat) (h1 : HopDist g s j d1)
    (h2 : HopDist g s j d2) : d1 = d2 :=
  Nat.le_antisymm (h1.2 d2 h2.1) (h2.2 d1 h1.1)

theorem hopDist_start (g : WGraph) (s : Nat) : HopDist g s s 0 :=
  ⟨Walk.zero, fun _ _ => Nat.zero_le _⟩

theorem exists_level (g : WGraph) (s : Nat) :
    ∃ lev : Nat → Nat, ∀ v, Reach g s v → HopDist g s v (lev v) := by
  classical
  refine ⟨fun v => if h : Reach g s v then Classical.choose (hopDist_of_reach g s v h) else 0, ?_⟩
  intro v hv
  simp only [hv, dif_pos]
  exact Classical.choose_spec (hopDist_of_reach g s v hv)

/-- A node first met from a node at distance `du`, when everything nearer than `du`
has all its neighbours in the set `P` and the node is outside `P`, is at distance
`du + 1`. -/
theorem hopDist_succ (g : WGraph) (s u w du : Nat) (hu : HopDist g s u du)
    (he : ∃ e ∈ edgesOf g u, e.endIndex = w) (P : Nat → Prop) (hs : P s) (hw : ¬ P w)
    (hbelow : ∀ x dx, HopDist g s x dx → dx < du → ∀ e ∈ edgesOf g x, P e.endIndex) :
    HopDist g s w (du + 1) := by
  refine ⟨Walk.step hu.1 he, ?_⟩
  intro m hm
  by_contra hlt
  have hm1 : m ≤ du := by omega
  cases hm with
  | zero => exact hw hs
  | step hp hpe =>
    rename_i n p
    obtain ⟨dp, hdp, hp1⟩ := hopDist_le_of_walk g s n p hp
    obtain ⟨e, he1, he2⟩ := hpe
    have := hbelow p dp hp1 (by omega) e he1
    rw [he2] at this
    exact hw this

end WGraph

namespace WGraph

/-! ## The order of a breadth-first traversal -/

theorem bfsInv_skip (g0 : WGraph) (s : Nat) (b0 : String) (c : Nat) (e : Edge)
    (rest : List Edge) (st : BfsState) (hinv : BfsInv g0 s b0 c (e :: rest) st)
    (hin : e.endIndex = s ∨ e.endIndex ∈ st.listed) : BfsInv g0 s b0 c rest st :=
  { hinv with
    closed := fun k hk e1 he1 => by
      rcases hinv.closed k hk e1 he1 with h1 | h1 | ⟨h1, h2⟩
      · exact Or.inl h1
      · exact Or.inr (Or.inl h1)
      · rcases List.mem_cons.1 h2 with h3 | h3
        · subst h3; exact Or.inr (Or.inl hin)
        · exact Or.inr (Or.inr ⟨h1, h3⟩) }

theorem bfsInv_push (g0 : WGraph) (s : Nat) (b0 : String) (c : Nat) (e : Edge)
    (rest : List Edge) (st : BfsState) (hinv : BfsInv g0 s b0 c (e :: rest) st)
    (hc : c = s ∨ c ∈ st.listed) (he : e ∈ edgesOf g0 c) (n : Node)
    (hn : st.graph.nodeList[e.endIndex]? = some n) (hv1 : n.visited = false) :
    BfsInv g0 s b0 c rest
      { graph := markVisited st.graph e.endIndex
        FIFO := st.FIFO ++ [e.endIndex]
        buffer := (st.buffer.push n.name) ++ " "
        listed := st.listed ++ [e.endIndex] } := by
  have hlt : e.endIndex < st.graph.numNodes := (List.getElem?_eq_some.1 hn).1
  have hvis := isVisited_of_getElem? st.graph e.endIndex n hn
  have hnotin : ¬ (e.endIndex = s ∨ e.endIndex ∈ st.listed) := by
    rw [← hinv.visited, hvis, hv1]; simp
  exact
    { shape := by rw [skeleton_markVisited]; exact hinv.shape
      matrix := hinv.matrix
      visited := fun k => by
        rw [isVisited_markVisited _ _ _ hlt, hinv.visited, List.mem_append,
          List.mem_singleton]
        tauto
      nodup := by
        have h1 := hinv.nodup
        rw [List.nodup_cons] at h1 ⊢
        refine ⟨?_, ?_⟩
        · rw [List.mem_append, List.mem_singleton]
          rintro (h2 | h2)
          · exact h1.1 h2
          · exact hnotin (Or.inl h2.symm)
        · rw [List.nodup_append]
          refine ⟨h1.2, List.nodup_singleton _, ?_⟩
          intro x hx hx1
          rw [List.mem_singleton] at hx1
          subst hx1
          exact hnotin (Or.inr hx)
      reach := fun k hk => by
        rcases List.mem_append.1 hk with h1 | h1
        · exact hinv.reach k h1
        · rw [List.mem_singleton] at h1
          subst h1
          exact Relation.ReflTransGen.tail (hinv.bfs_reach_of_listed c hc) ⟨e, he, rfl⟩
      queued := fun k hk => by
        rcases List.mem_append.1 hk with h1 | h1
        · rcases hinv.queued k h1 with h2 | h2
          · exact Or.inl h2
          · exact Or.inr (List.mem_append_left _ h2)
        · exact Or.inr (List.mem_append_right _ h1)
      closed := fun k hk e1 he1 => by
        have hk1 : (k = s ∨ k ∈ st.listed) ∨ k = e.endIndex := by
          rcases hk with h1 | h1
          · exact Or.inl (Or.inl h1)
          · rcases List.mem_append.1 h1 with h2 | h2
            · exact Or.inl (Or.inr h2)
            · exact Or.inr (List.mem_singleton.1 h2)
        rcases hk1 with hk1 | hk1
        · rcases hinv.closed k hk1 e1 he1 with h1 | h1 | ⟨h1, h2⟩
          · exact Or.inl (List.mem_append_left _ h1)
          · rcases h1 with h1 | h1
            · exact Or.inr (Or.inl (Or.inl h1))
            · exact Or.inr (Or.inl (Or.inr (List.mem_append_left _ h1)))
          · rcases List.mem_cons.1 h2 with h3 | h3
            · subst h3
              exact Or.inr (Or.inl (Or.inr (List.mem_append_right _
                (List.mem_singleton_self _))))
            · exact Or.inr (Or.inr ⟨h1, h3⟩)
        · subst hk1
          exact Or.inl (List.mem_append_right _ (List.mem_singleton_self _))
      buffer := by
        rw [appendNames_snoc, ← hinv.buffer, ← nameOf_of_skeleton _ _ hinv.shape,
          nameOf_of_getElem? _ _ _ hn] }

theorem bfsInv_pop (g0 : WGraph) (s : Nat) (b0 : String) (g : WGraph) (c : Nat)
    (rest : List Nat) (buf : String) (listed : List Nat)
    (hinv : BfsInv g0 s b0 s [] { graph := g, FIFO := c :: rest, buffer := buf, listed := listed }) :
    BfsInv g0 s b0 c (edgesOf g0 c)
      { graph := g, FIFO := rest, buffer := buf, listed := listed } :=
  { shape := hinv.shape
    matrix := hinv.matrix
    visited := hinv.visited
    nodup := hinv.nodup
    reach := hinv.reach
    queued := fun k hk => hinv.queued k (List.mem_cons_of_mem _ hk)
    closed := fun k hk e he => by
      rcases hinv.closed k hk e he with h1 | h1 | ⟨-, h1⟩
      · rcases List.mem_cons.1 h1 with h2 | h2
        · subst h2; exact Or.inr (Or.inr ⟨rfl, he⟩)
        · exact Or.inl h2
      · exact Or.inr (Or.inl h1)
      · cases h1
    buffer := hinv.buffer }

theorem bfsScan_ord (g0 : WGraph) (s : Nat) (b0 : String) (lev : Nat → Nat)
    (hlev : ∀ v, Reach g0 s v → HopDist g0 s v (lev v)) (u : Nat)
    (l : List Edge) (st st1 : BfsState) (hl : ∀ e ∈ l, e ∈ edgesOf g0 u)
    (hu : u = s ∨ u ∈ st.listed) (hinv : BfsInv g0 s b0 u l st)
    (hord : BfsOrd g0 s lev u st) (hrun : bfsScan st l = .ok st1) :
    BfsOrd g0 s lev u st1 ∧
      st1.listed = st.listed ++ freshNeighbours (s :: st.listed) l := by
  induction l generalizing st with
  | nil =>
    simp only [bfsScan, Run.ok.injEq] at hrun
    subst hrun
    exact ⟨hord, by simp [freshNeighbours]⟩
  | cons e rest ih =>
    have hrest : ∀ e1 ∈ rest, e1 ∈ edgesOf g0 u := fun e1 h1 => hl e1 (List.mem_cons_of_mem _ h1)
    have hemem : e ∈ edgesOf g0 u := hl e (List.mem_cons_self _ _)
    cases hn : st.graph.nodeList[e.endIndex]? with
    | none => simp [bfsScan, hn] at hrun
    | some n =>
      have hvis := isVisited_of_getElem? st.graph e.endIndex n hn
      by_cases hv : n.visited = true
      · have hin : e.endIndex = s ∨ e.endIndex ∈ st.listed := by
          rw [← hinv.visited, hvis]; exact hv
        have hrun1 : bfsScan st rest = .ok st1 := by
          simp only [bfsScan, hn, hv] at hrun
          simpa using hrun
        obtain ⟨h1, h2⟩ := ih st hrest hu (bfsInv_skip g0 s b0 u e rest st hinv hin) hord hrun1
        refine ⟨h1, ?_⟩
        have hin1 : e.endIndex ∈ s :: st.listed := List.mem_cons.2 hin
        rw [h2]
        simp only [freshNeighbours, hin1, if_true]
      · have hv1 : n.visited = false := by simpa using hv
        have hnotin : ¬ (e.endIndex = s ∨ e.endIndex ∈ st.listed) := by
          rw [← hinv.visited, hvis, hv1]; simp
        have hrun1 : bfsScan
            { graph := markVisited st.graph e.endIndex
              FIFO := st.FIFO ++ [e.endIndex]
              buffer := (st.buffer.push n.name) ++ " "
              listed := st.listed ++ [e.endIndex] } rest = .ok st1 := by
          simp only [bfsScan, hn, hv1] at hrun
          simpa using hrun
        have hureach : Reach g0 s u := hinv.bfs_reach_of_listed u hu
        have hwreach : Reach g0 s e.endIndex :=
          Relation.ReflTransGen.tail hureach ⟨e, hemem, rfl⟩
        have hdist : HopDist g0 s e.endIndex (lev u + 1) := by
          apply hopDist_succ g0 s u e.endIndex (lev u) (hlev u hureach) ⟨e, hemem, rfl⟩
            (fun x => x = s ∨ x ∈ st.listed) (Or.inl rfl) hnotin
          intro x dx hx hdx e1 he1
          have hxr : Reach g0 s x := reach_of_walk g0 s dx x hx.1
          have hxl : lev x = dx := hopDist_unique g0 s x _ _ (hlev x hxr) hx
          exact (hord.below x hxr (by omega)).2 e1 he1
        have hlevw : lev e.endIndex = lev u + 1 :=
          hopDist_unique g0 s _ _ _ (hlev _ hwreach) hdist
        have hord1 : BfsOrd g0 s lev u
            { graph := markVisited st.graph e.endIndex
              FIFO := st.FIFO ++ [e.endIndex]
              buffer := (st.buffer.push n.name) ++ " "
              listed := st.listed ++ [e.endIndex] } :=
          { sorted := by
              have h1 := hord.sorted
              rw [← List.cons_append, List.pairwise_append]
              refine ⟨h1, List.pairwise_singleton _ _, ?_⟩
              intro a ha b hb
              rw [List.mem_singleton] at hb
              subst hb
              rw [hlevw]
              exact hord.span a (List.mem_cons.1 ha)
            qsorted := by
              rw [List.pairwise_append]
              refine ⟨hord.qsorted, List.pairwise_singleton _ _, ?_⟩
              intro a ha b hb
              rw [List.mem_singleton] at hb
              subst hb
              rw [hlevw]
              exact hord.span a (hinv.queued a ha)
            cur_le := fun q hq => by
              rcases List.mem_append.1 hq with h1 | h1
              · exact hord.cur_le q h1
              · rw [List.mem_singleton] at h1
                subst h1
                omega
            span := fun v hv2 => by
              rcases hv2 with h1 | h1
              · exact hord.span v (Or.inl h1)
              · rcases List.mem_append.1 h1 with h2 | h2
                · exact hord.span v (Or.inr h2)
                · rw [List.mem_singleton] at h2
                  subst h2
                  omega
            below := fun x hx hlt => by
              obtain ⟨h1, h2⟩ := hord.below x hx hlt
              refine ⟨?_, fun e1 he1 => ?_⟩
              · rcases h1 with h1 | h1
                · exact Or.inl h1
                · exact Or.inr (List.mem_append_left _ h1)
              · rcases h2 e1 he1 with h3 | h3
                · exact Or.inl h3
                · exact Or.inr (List.mem_append_left _ h3) }
        obtain ⟨h1, h2⟩ := ih _ hrest
          (by rcases hu with h | h
              · exact Or.inl h
              · exact Or.inr (List.mem_append_left _ h))
          (bfsInv_push g0 s b0 u e rest st hinv hu hemem n hn hv1) hord1 hrun1
        refine ⟨h1, ?_⟩
        have hnotin1 : ¬ (e.endIndex ∈ s :: st.listed) := fun h => hnotin (List.mem_cons.1 h)
        rw [h2]
        simp only [freshNeighbours, hnotin1, if_false, List.append_assoc, List.singleton_append,
          List.cons_append, List.nil_append]

end WGraph

namespace WGraph

theorem bfsOrd_next (g0 : WGraph) (s : Nat) (b0 : String) (lev : Nat → Nat)
    (hlev : ∀ v, Reach g0 s v → HopDist g0 s v (lev v)) (u u1 : Nat) (g : WGraph)
    (rest1 : List Nat) (buf : String) (listed : List Nat)
    (hinv : BfsInv g0 s b0 u []
      { graph := g, FIFO := u1 :: rest1, buffer := buf, listed := listed })
    (hord : BfsOrd g0 s lev u
      { graph := g, FIFO := u1 :: rest1, buffer := buf, listed := listed }) :
    BfsOrd g0 s lev u1 { graph := g, FIFO := rest1, buffer := buf, listed := listed } := by
  have hq := List.pairwise_cons.1 hord.qsorted
  have hu1 : lev u ≤ lev u1 := hord.cur_le u1 (List.mem_cons_self _ _)
  have hu1V : u1 = s ∨ u1 ∈ listed := hinv.queued u1 (List.mem_cons_self _ _)
  have hspan1 : lev u1 ≤ lev u + 1 := hord.span u1 hu1V
  exact
    { sorted := hord.sorted
      qsorted := hq.2
      cur_le := fun q hq1 => hq.1 q hq1
      span := fun v hv => by
        have := hord.span v hv
        omega
      below := fun x hx hlt => by
        by_cases h : lev x < lev u
        · exact hord.below x hx h
        · have hxV : x = s ∨ x ∈ listed := by
            have hw := (hlev x hx).1
            generalize hd : lev x = d at hw
            cases hw with
            | zero => exact Or.inl rfl
            | step hp hpe =>
              rename_i n p
              obtain ⟨dp, hdp, hp1⟩ := hopDist_le_of_walk g0 s n p hp
              have hpr : Reach g0 s p := reach_of_walk g0 s n p hp
              have hpl : lev p = dp := hopDist_unique g0 s p _ _ (hlev p hpr) hp1
              obtain ⟨e, he1, he2⟩ := hpe
              have := (hord.below p hpr (by omega)).2 e he1
              rw [he2] at this
              exact this
          refine ⟨hxV, fun e he => ?_⟩
          rcases hinv.closed x hxV e he with h1 | h1 | ⟨-, h1⟩
          · exfalso
            rcases List.mem_cons.1 h1 with h2 | h2
            · subst h2; omega
            · have := hq.1 x h2
              omega
          · exact h1
          · cases h1 }

theorem bfsLoop_ord (g0 : WGraph) (hwf : EdgesInRange g0) (s : Nat) (b0 : String)
    (lev : Nat → Nat) (hlev : ∀ v, Reach g0 s v → HopDist g0 s v (lev v))
    (fuel : Nat) (st st1 : BfsState) (hinv : BfsInv g0 s b0 s [] st)
    (hsorted : (s :: st.listed).Pairwise (fun a b => lev a ≤ lev b))
    (hord : ∀ u rest, st.FIFO = u :: rest →
      BfsOrd g0 s lev u { st with FIFO := rest })
    (hrun : bfsLoop fuel st = .ok st1) :
    (s :: st1.listed).Pairwise (fun a b => lev a ≤ lev b) ∧
      ((st.FIFO = [] ∧ st1.listed = st.listed) ∨
        ∃ u rest more, st.FIFO = u :: rest ∧
          st1.listed = st.listed ++ freshNeighbours (s :: st.listed) (edgesOf g0 u) ++ more) := by
  induction fuel generalizing st with
  | zero =>
    obtain ⟨g, fifo, buf, listed⟩ := st
    cases fifo with
    | nil =>
      rw [bfsLoop] at hrun
      simp only [Run.ok.injEq] at hrun
      subst hrun
      exact ⟨hsorted, Or.inl ⟨rfl, rfl⟩⟩
    | cons c rest => simp [bfsLoop] at hrun
  | succ fuel ih =>
    obtain ⟨g, fifo, buf, listed⟩ := st
    cases fifo with
    | nil =>
      rw [bfsLoop] at hrun
      simp only [Run.ok.injEq] at hrun
      subst hrun
      exact ⟨hsorted, Or.inl ⟨rfl, rfl⟩⟩
    | cons u rest =>
      have hu : u = s ∨ u ∈ listed := hinv.queued u (List.mem_cons_self _ _)
      rw [bfsLoop] at hrun
      simp only at hrun
      cases hn : g.nodeList[u]? with
      | none => rw [hn] at hrun; cases hrun
      | some n =>
        rw [hn] at hrun
        simp only at hrun
        have hedges : n.connects = edgesOf g0 u := by
          rw [← edgesOf_of_skeleton _ _ hinv.shape, edgesOf_of_getElem? _ _ _ hn]
        rw [hedges] at hrun
        have hinvpop := bfsInv_pop g0 s b0 g u rest buf listed hinv
        obtain ⟨st2, hs1, hinv2, hu2, -⟩ := bfsScan_inv g0 hwf s b0 u (edgesOf g0 u) _
          (fun e he => he) hu hinvpop
        rw [hs1] at hrun
        simp only at hrun
        obtain ⟨hord2, hlisted⟩ := bfsScan_ord g0 s b0 lev hlev u (edgesOf g0 u) _ st2
          (fun e he => he) hu hinvpop (hord u rest rfl) hs1
        have hnext : ∀ u1 rest1, st2.FIFO = u1 :: rest1 →
            BfsOrd g0 s lev u1 { st2 with FIFO := rest1 } := by
          obtain ⟨g2, fifo2, buf2, listed2⟩ := st2
          intro u1 rest1 hf
          simp only at hf
          subst hf
          exact bfsOrd_next g0 s b0 lev hlev u u1 g2 rest1 buf2 listed2 hinv2 hord2
        obtain ⟨h1, h2⟩ := ih st2 (hinv2.change_current s) hord2.sorted hnext hrun
        refine ⟨h1, Or.inr ⟨u, rest, ?_⟩⟩
        simp only at hlisted
        rcases h2 with ⟨-, h3⟩ | ⟨u1, rest1, more, -, h3⟩
        · exact ⟨[], rfl, by rw [h3, hlisted]; simp⟩
        · exact ⟨_, rfl, by rw [h3, hlisted]; simp only [List.append_assoc]; rfl⟩

end WGraph

namespace WGraph

/-- C11: on a graph whose edges lead to existing nodes and whose visited flags are
all false, `breadthFirst(start)` for a present label lists the start node and then
nodes in non-decreasing order of hop distance from the start (each listed node has a
hop distance); the list begins with the far nodes of the start node's adjacency list
in list order (the edge inserted last first), the start itself and repetitions left
out. On the scenario graph `breadthFirst('A')` returns
"Breadth first traversal starting at A\nA : C B D \n" whatever the fuel from 4 on. -/
theorem breadthFirst_order (g : WGraph) (hwf : EdgesInRange g) (hun : AllUnvisited g)
    (name : Char) (s : Nat) (hs : findNode g name = (s : Int))
    (fuel : Nat) (hfuel : g.numNodes ≤ fuel) :
    (∃ listed more,
      breadthFirst fuel g name = .ok
        (appendNames g (traversalHeader "Breadth first traversal starting at " name name)
          listed ++ "\n", g) ∧
      (∀ a ∈ s :: listed, ∃ d, HopDist g s a d) ∧
      (s :: listed).Pairwise
        (fun a b => ∀ da db, HopDist g s a da → HopDist g s b db → da ≤ db) ∧
      listed = freshNeighbours [s] (edgesOf g s) ++ more) ∧
    ∀ k, breadthFirst (k + 4) scenario 'A' =
      .ok ("Breadth first traversal starting at A\nA : C B D \n", scenario) := by
  constructor
  · obtain ⟨st, h1, h2, h3, h4, h5, h6⟩ := breadthFirstFrom_spec g hwf hun name s hs fuel hfuel
    obtain ⟨n, hn, hname, -⟩ := findNode_found g name s hs
    have hlt : s < g.numNodes := (List.getElem?_eq_some.1 hn).1
    obtain ⟨lev, hlev⟩ := exists_level g s
    have hlev0 : lev s = 0 :=
      hopDist_unique g s s _ _ (hlev s Relation.ReflTransGen.refl) (hopDist_start g s)
    have hrun := h1
    unfold breadthFirstFrom at hrun
    rw [hn] at hrun
    simp only at hrun
    obtain ⟨hsorted, hpre⟩ := bfsLoop_ord g hwf s _ lev hlev fuel _ st
      (bfs_start_inv g hun s _ hlt) (List.pairwise_singleton _ _)
      (by
        intro u rest hf
        simp only [List.cons.injEq] at hf
        obtain ⟨rfl, rfl⟩ := hf
        exact
          { sorted := List.pairwise_singleton _ _
            qsorted := List.Pairwise.nil
            cur_le := fun q hq => by cases hq
            span := fun v hv => by
              rcases hv with hv | hv
              · subst hv; omega
              · cases hv
            below := fun x _ hlt => by omega })
      hrun
    have hne : ¬ ((s : Int) = -1) := by omega
    have hreset : resetVisited st.graph = g := by
      rw [resetVisited_of_skeleton _ _ h2 h3, resetVisited_of_allUnvisited g hun]
    have hmore : ∃ more, st.listed = freshNeighbours [s] (edgesOf g s) ++ more := by
      rcases hpre with ⟨hf, -⟩ | ⟨u, rest, more, hf, hl⟩
      · simp at hf
      · simp only [List.cons.injEq] at hf
        obtain ⟨rfl, -⟩ := hf
        exact ⟨more, by simpa using hl⟩
    obtain ⟨more, hmore⟩ := hmore
    refine ⟨st.listed, more, ?_, ?_, ?_, hmore⟩
    · unfold breadthFirst
      simp only [hs, hne, if_false, Int.toNat_ofNat, h1, hreset, h4]
    · intro a ha
      exact hopDist_of_reach g s a ((h6 a).1 (List.mem_cons.1 ha))
    · apply List.Pairwise.imp _ hsorted
      intro a b hab da db hda hdb
      have ha : lev a = da :=
        hopDist_unique g s a _ _ (hlev a (reach_of_walk g s da a hda.1)) hda
      have hb : lev b = db :=
        hopDist_unique g s b _ _ (hlev b (reach_of_walk g s db b hdb.1)) hdb
      omega
  · intro k
    obtain ⟨str, h⟩ := breadthFirst_stable scenario scenario_edgesInRange scenario_allUnvisited 'A'
    have h4 : breadthFirst 4 scenario 'A' =
        .ok ("Breadth first traversal starting at A\nA : C B D \n", scenario) := rfl
    have h5 := h 4 (by decide)
    rw [h4] at h5
    simp only [Run.ok.injEq, Prod.mk.injEq, and_true] at h5
    have hnum : scenario.numNodes = 4 := rfl
    rw [h (k + 4) (by omega), ← h5]

theorem breadthFirst_order_witness :
    (∃ listed more,
      breadthFirst 6 scenario 'A' = .ok
        (appendNames scenario (traversalHeader "Breadth first traversal starting at " 'A' 'A')
          listed ++ "\n", scenario) ∧
      (∀ a ∈ 0 :: listed, ∃ d, HopDist scenario 0 a d) ∧
      (0 :: listed).Pairwise
        (fun a b => ∀ da db, HopDist scenario 0 a da → HopDist scenario 0 b db → da ≤ db) ∧
      listed = freshNeighbours [0] (edgesOf scenario 0) ++ more) ∧
    ∀ k, breadthFirst (k + 4) scenario 'A' =
      .ok ("Breadth first traversal starting at A\nA : C B D \n", scenario) :=
  breadthFirst_order scenario scenario_edgesInRange scenario_allUnvisited 'A' 0
    (by decide) 6 (by decide)

end WGraph


namespace WGraph

/-! ## Traversals on graphs with flags left set -/

theorem skeleton_resetVisited (g : WGraph) : skeleton (resetVisited g) = skeleton g := by
  simp [skeleton, resetVisited, List.map_map, Function.comp_def]

theorem edgesInRange_of_skeleton (g1 g2 : WGraph) (h : skeleton g1 = skeleton g2)
    (hwf : EdgesInRange g2) : EdgesInRange g1 := by
  intro i e he
  rw [edgesOf_of_skeleton _ _ h] at he
  rw [numNodes_of_skeleton _ _ h]
  exact hwf i e he

theorem mstFuel_of_skeleton (g1 g2 : WGraph) (h : skeleton g1 = skeleton g2) (name : Char) :
    mstFuel g1 name = mstFuel g2 name := by
  simp only [mstFuel, findNode_of_skeleton _ _ h, edgesOf_of_skeleton _ _ h]

theorem dfsLoop_same (fuel : Nat) (st st1 : DfsState) (h : dfsLoop fuel st = .ok st1) :
    skeleton st1.graph = skeleton st.graph ∧ st1.graph.edgeMatrix = st.graph.edgeMatrix := by
  induction fuel generalizing st with
  | zero =>
    obtain ⟨g, lifo, buf, listed⟩ := st
    cases lifo with
    | nil =>
      rw [dfsLoop] at h
      simp only [Run.ok.injEq] at h
      subst h
      exact ⟨rfl, rfl⟩
    | cons c rest => simp [dfsLoop] at h
  | succ fuel ih =>
    obtain ⟨g, lifo, buf, listed⟩ := st
    cases lifo with
    | nil =>
      rw [dfsLoop] at h
      simp only [Run.ok.injEq] at h
      subst h
      exact ⟨rfl, rfl⟩
    | cons c rest =>
      rw [dfsLoop] at h
      simp only at h
      cases hn : g.nodeList[c]? with
      | none => rw [hn] at h; cases h
      | some n =>
        rw [hn] at h
        simp only at h
        cases hs : dfsScan g n.connects with
        | outOfRange => rw [hs] at h; cases h
        | outOfFuel => rw [hs] at h; cases h
        | ok r =>
          rw [hs] at h
          cases r with
          | none =>
            simp only at h
            exact ih { graph := g, LIFO := rest, buffer := buf, listed := listed } h
          | some p =>
            obtain ⟨j, m⟩ := p
            simp only at h
            have := ih
              { graph := markVisited g j
                LIFO := j :: c :: rest
                buffer := (buf.push m.name) ++ " "
                listed := listed ++ [j] } h
            simp only at this
            rw [skeleton_markVisited] at this
            exact this

theorem depthFirst_same (fuel : Nat) (g g1 : WGraph) (name : Char) (str : String)
    (h : depthFirst fuel g name = .ok (str, g1)) :
    skeleton g1 = skeleton g ∧ g1.edgeMatrix = g.edgeMatrix := by
  unfold depthFirst at h
  by_cases hf : findNode g name = -1
  · simp only [hf, if_true, Run.ok.injEq, Prod.mk.injEq] at h
    rw [← h.2]
    exact ⟨rfl, rfl⟩
  · simp only [hf, if_false] at h
    cases hr : depthFirstFrom fuel g name (findNode g name).toNat with
    | outOfRange => rw [hr] at h; cases h
    | outOfFuel => rw [hr] at h; cases h
    | ok st =>
      rw [hr] at h
      simp only [Run.ok.injEq, Prod.mk.injEq] at h
      rw [← h.2]
      unfold depthFirstFrom at hr
      cases hn : g.nodeList[(findNode g name).toNat]? with
      | none => rw [hn] at hr; cases hr
      | some n =>
        rw [hn] at hr
        have := dfsLoop_same fuel _ st hr
        simp only at this
        rw [skeleton_markVisited] at this
        exact this

theorem bfsScan_returns (g0 : WGraph) (l : List Edge) (st : BfsState)
    (hl : ∀ e ∈ l, e.endIndex < g0.numNodes) (hshape : skeleton st.graph = skeleton g0)
    (hq : ∀ k ∈ st.FIFO, k < g0.numNodes) :
    ∃ st1, bfsScan st l = .ok st1 ∧ skeleton st1.graph = skeleton g0 ∧
      st1.graph.edgeMatrix = st.graph.edgeMatrix ∧ (∀ k ∈ st1.FIFO, k < g0.numNodes) ∧
      st1.FIFO.length + unvisitedCount st1.graph = st.FIFO.length + unvisitedCount st.graph := by
  induction l generalizing st with
  | nil => exact ⟨st, rfl, hshape, rfl, hq, rfl⟩
  | cons e rest ih =>
    have hnum : st.graph.numNodes = g0.numNodes := numNodes_of_skeleton _ _ hshape
    have hlt : e.endIndex < g0.numNodes := hl e (List.mem_cons_self _ _)
    obtain ⟨n, hn⟩ := lookup_of_lt st.graph e.endIndex (by rw [hnum]; exact hlt)
    have hrest : ∀ e1 ∈ rest, e1.endIndex < g0.numNodes :=
      fun e1 h1 => hl e1 (List.mem_cons_of_mem _ h1)
    by_cases hv : n.visited = true
    · obtain ⟨st1, h1, h2, h3, h4, h5⟩ := ih st hrest hshape hq
      exact ⟨st1, by simp only [bfsScan, hn, hv]; simpa using h1, h2, h3, h4, h5⟩
    · have hv1 : n.visited = false := by simpa using hv
      obtain ⟨st1, h1, h2, h3, h4, h5⟩ := ih
        { graph := markVisited st.graph e.endIndex
          FIFO := st.FIFO ++ [e.endIndex]
          buffer := (st.buffer.push n.name) ++ " "
          listed := st.listed ++ [e.endIndex] } hrest
        (by rw [skeleton_markVisited]; exact hshape)
        (by
          intro k hk
          rcases List.mem_append.1 hk with h | h
          · exact hq k h
          · rw [List.mem_singleton] at h; rw [h]; exact hlt)
      refine ⟨st1, by simp only [bfsScan, hn, hv1]; simpa using h1, h2, h3, h4, ?_⟩
      rw [h5]
      have := unvisitedCount_markVisited st.graph e.endIndex n hn hv1
      simp only [List.length_append, List.length_singleton]
      omega

theorem bfsLoop_returns (g0 : WGraph) (hwf : EdgesInRange g0) (fuel : Nat) (st : BfsState)
    (hshape : skeleton st.graph = skeleton g0) (hq : ∀ k ∈ st.FIFO, k < g0.numNodes)
    (hfuel : st.FIFO.length + unvisitedCount st.graph ≤ fuel) :
    ∃ st1, bfsLoop fuel st = .ok st1 ∧ skeleton st1.graph = skeleton g0 ∧
      st1.graph.edgeMatrix = st.graph.edgeMatrix := by
  induction fuel generalizing st with
  | zero =>
    obtain ⟨g, fifo, buf, listed⟩ := st
    cases fifo with
    | nil => exact ⟨_, by simp [bfsLoop], hshape, rfl⟩
    | cons c rest => simp at hfuel
  | succ fuel ih =>
    obtain ⟨g, fifo, buf, listed⟩ := st
    cases fifo with
    | nil => exact ⟨_, by simp [bfsLoop], hshape, rfl⟩
    | cons c rest =>
      have hnum : g.numNodes = g0.numNodes := numNodes_of_skeleton _ _ hshape
      obtain ⟨n, hn⟩ := lookup_of_lt g c (by rw [hnum]; exact hq c (List.mem_cons_self _ _))
      have hedges : n.connects = edgesOf g0 c := by
        rw [← edgesOf_of_skeleton _ _ hshape, edgesOf_of_getElem? _ _ _ hn]
      obtain ⟨st1, h1, h2, h3, h4, h5⟩ := bfsScan_returns g0 (edgesOf g0 c)
        { graph := g, FIFO := rest, buffer := buf, listed := listed }
        (fun e he => hwf c e he) hshape (fun k hk => hq k (List.mem_cons_of_mem _ hk))
      obtain ⟨st2, h6, h7, h8⟩ := ih st1 h2 h4 (by
        simp only [List.length_cons] at hfuel h5
        omega)
      refine ⟨st2, ?_, h7, h8.trans h3⟩
      rw [bfsLoop]
      simp only [hn, hedges, h1]
      exact h6

theorem breadthFirstFrom_returns (g : WGraph) (hwf : EdgesInRange g) (name : Char) (s : Nat)
    (hs : findNode g name = (s : Int)) (fuel : Nat) (hfuel : g.numNodes + 1 ≤ fuel) :
    ∃ st, breadthFirstFrom fuel g name s = .ok st ∧ skeleton st.graph = skeleton g ∧
      st.graph.edgeMatrix = g.edgeMatrix := by
  obtain ⟨n, hn, -⟩ := findNode_found g name s hs
  have hlt : s < g.numNodes := (List.getElem?_eq_some.1 hn).1
  have hle := unvisitedCount_markVisited_le g s
  have hle2 := unvisitedCount_le g
  obtain ⟨st, h1, h2, h3⟩ := bfsLoop_returns g hwf fuel
    { graph := markVisited g s
      FIFO := [s]
      buffer := ((("Breadth first traversal starting at ".push name) ++ "\n").push n.name) ++ " : "
      listed := [] }
    (skeleton_markVisited g s)
    (fun k hk => by rw [List.mem_singleton] at hk; rw [hk]; exact hlt)
    (by simp only [List.length_singleton]; omega)
  refine ⟨st, ?_, h2, h3⟩
  unfold breadthFirstFrom
  rw [hn]
  exact h1

theorem breadthFirst_resets (g : WGraph) (hwf : EdgesInRange g) (name : Char)
    (hfound : findNode g name ≠ -1) (fuel : Nat) (hfuel : g.numNodes + 1 ≤ fuel) :
    ∃ str, breadthFirst fuel g name = .ok (str, resetVisited g) := by
  rcases findNode_cases g name with hs | ⟨s, hs⟩
  · exact absurd hs hfound
  · obtain ⟨st, h1, h2, h3⟩ := breadthFirstFrom_returns g hwf name s hs fuel hfuel
    have hne : ¬ ((s : Int) = -1) := by omega
    refine ⟨st.buffer ++ "\n", ?_⟩
    unfold breadthFirst
    simp only [hs, hne, if_false, Int.toNat_ofNat, h1, resetVisited_of_skeleton _ _ h2 h3]

theorem minCostTree_resets (g : WGraph) (hwf : EdgesInRange g) (name : Char)
    (hfound : findNode g name ≠ -1) (fuel : Nat) (hfuel : mstFuel g name ≤ fuel) :
    ∃ str, minCostTree fuel g name = .ok (str, resetVisited g) := by
  rcases findNode_cases g name with hs | ⟨s, hs⟩
  · exact absurd hs hfound
  · obtain ⟨st, h1, h2, h3, -, -⟩ := minCostTreeFrom_spec g hwf name s hs fuel
      (by simpa [mstFuel, hs] using hfuel)
    refine ⟨st.minCost, ?_⟩
    unfold minCostTree
    simp only [h1, resetVisited_of_skeleton _ _ h2 h3]

theorem minCostTree_absent_label_run (fuel : Nat) (g : WGraph) (start : Char)
    (h : findNode g start = -1) : minCostTree fuel g start = .outOfRange := by
  simp [minCostTree, minCostTreeFrom, nodeAt, h]

theorem breadthFirst_same (g : WGraph) (hwf : EdgesInRange g) (fuel : Nat) (g1 : WGraph)
    (name : Char) (str : String) (h : breadthFirst fuel g name = .ok (str, g1)) :
    skeleton g1 = skeleton g := by
  rcases findNode_cases g name with hs | ⟨s, hs⟩
  · simp only [breadthFirst, hs, if_true, Run.ok.injEq, Prod.mk.injEq] at h
    rw [← h.2]
  · have hne : ¬ ((s : Int) = -1) := by omega
    unfold breadthFirst at h
    simp only [hs, hne, if_false, Int.toNat_ofNat] at h
    cases hr : breadthFirstFrom fuel g name s with
    | outOfRange => rw [hr] at h; cases h
    | outOfFuel => rw [hr] at h; cases h
    | ok st =>
      rw [hr] at h
      simp only [Run.ok.injEq, Prod.mk.injEq] at h
      obtain ⟨st2, h1, h2, -⟩ := breadthFirstFrom_returns g hwf name s hs
        (max fuel (g.numNodes + 1)) (Nat.le_max_right _ _)
      have h3 := breadthFirstFrom_mono g name s fuel (max fuel (g.numNodes + 1))
        (Nat.le_max_left _ _) st hr
      rw [h1] at h3
      cases h3
      rw [← h.2, skeleton_resetVisited]
      exact h2

theorem minCostTree_same (g : WGraph) (hwf : EdgesInRange g) (fuel : Nat) (g1 : WGraph)
    (name : Char) (str : String) (h : minCostTree fuel g name = .ok (str, g1)) :
    skeleton g1 = skeleton g := by
  rcases findNode_cases g name with hs | ⟨s, hs⟩
  · rw [minCostTree_absent_label_run fuel g name hs] at h
    cases h
  · unfold minCostTree at h
    cases hr : minCostTreeFrom fuel g name with
    | outOfRange => rw [hr] at h; cases h
    | outOfFuel => rw [hr] at h; cases h
    | ok st =>
      rw [hr] at h
      simp only [Run.ok.injEq, Prod.mk.injEq] at h
      obtain ⟨st2, h1, h2, -, -, h5⟩ := minCostTreeFrom_spec g hwf name s hs
        (2 * 4 ^ (edgesOf g s).length) (Nat.le_refl _)
      have h6 := h5 (max fuel (2 * 4 ^ (edgesOf g s).length)) (Nat.le_max_right _ _)
      have h7 : minCostTreeFrom (max fuel (2 * 4 ^ (edgesOf g s).length)) g name = .ok st := by
        obtain ⟨n, hn, -⟩ := findNode_found g name s hs
        have hnode1 : nodeAt g (s : Int) = some n := by simp [nodeAt, hn]
        unfold minCostTreeFrom at hr ⊢
        simp only [hs, hnode1, Int.toNat_ofNat] at hr ⊢
        exact mstLoop_mono fuel (max fuel (2 * 4 ^ (edgesOf g s).length))
          (Nat.le_max_left _ _) _ _ hr
      rw [h6] at h7
      cases h7
      rw [← h.2, skeleton_resetVisited]
      exact h2

theorem public_edgesInRange (SIZE : Nat) (g : WGraph) (h : Public SIZE g) : EdgesInRange g := by
  induction h with
  | init => intro i e he; simp [init, edgesOf] at he
  | build g op _ ih => exact edgesInRange_step SIZE g op ih
  | depthFirst g g1 fuel name str _ hrun ih =>
    exact edgesInRange_of_skeleton _ _ (depthFirst_same fuel g g1 name str hrun).1 ih
  | breadthFirst g g1 fuel name str _ hrun ih =>
    exact edgesInRange_of_skeleton _ _ (breadthFirst_same g ih fuel g1 name str hrun) ih
  | minCostTree g g1 fuel name str _ hrun ih =>
    exact edgesInRange_of_skeleton _ _ (minCostTree_same g ih fuel g1 name str hrun) ih

theorem public_runOps (SIZE : Nat) (ops : List Op) (g : WGraph) (h : Public SIZE g) :
    Public SIZE (runOps SIZE g ops) := by
  induction ops generalizing g with
  | nil => exact h
  | cons op ops ih => exact ih _ (Public.build g op h)

end WGraph

namespace WGraph

/-! ## Repeating a traversal -/

theorem public_staleAB : Public 20 staleAB :=
  Public.depthFirst (runOps 20 init [.addNode 'A', .addNode 'B', .addWEdge 'A' 'B' 1]) staleAB
    10 'A' "Depth first traversal starting at A\nA : B "
    (public_runOps 20 _ init Public.init) rfl

/-- C4 (as stated) fails in both halves on the graph that `depthFirst('A')` leaves
(a state reached through a public operation, both flags set): two calls of
`breadthFirst('A')` in a row return different strings, and `breadthFirst('Z')` for an
absent label returns with the flag of node A still set. -/
theorem breadthFirst_after_depthFirst_differs :
    depthFirst 10 (runOps 20 init [.addNode 'A', .addNode 'B', .addWEdge 'A' 'B' 1]) 'A'
        = .ok ("Depth first traversal starting at A\nA : B ", staleAB) ∧
      breadthFirst 10 staleAB 'A'
        = .ok ("Breadth first traversal starting at A\nA : \n", resetVisited staleAB) ∧
      breadthFirst 10 (resetVisited staleAB) 'A'
        = .ok ("Breadth first traversal starting at A\nA : B \n", resetVisited staleAB) ∧
      "Breadth first traversal starting at A\nA : \n"
        ≠ "Breadth first traversal starting at A\nA : B \n" ∧
      breadthFirst 10 staleAB 'Z' = .ok ("", staleAB) ∧
      isVisited staleAB 0 = true :=
  ⟨rfl, rfl, rfl, by decide, rfl, by decide⟩

/-- C4 (amended): for every graph state reachable through the public operations and
every start label. If `findNode` does not find the label, `breadthFirst` returns the
empty string on every call and leaves the graph, flags included, as it was. If
`findNode` finds the label, `breadthFirst(label)` and `minCostTree(label)` return and
leave the graph with every visited flag false and names, lists and matrix as before
(`resetVisited` of the old graph), whatever the flags were; every further call with the
same label returns one and the same string and the same graph; and when all flags
were false before the first call, the graph is exactly as before and the first call
returns that same string too. -/
theorem traversals_repeatable (SIZE : Nat) (g : WGraph) (hp : Public SIZE g) (name : Char)
    (f1 : Nat) (hf1 : g.numNodes + 1 ≤ f1 ∧ mstFuel g name ≤ f1) :
    (findNode g name = -1 ∧ ∀ f, breadthFirst f g name = .ok ("", g)) ∨
    (findNode g name ≠ -1 ∧
      AllUnvisited (resetVisited g) ∧ skeleton (resetVisited g) = skeleton g ∧
      (resetVisited g).edgeMatrix = g.edgeMatrix ∧ (AllUnvisited g → resetVisited g = g) ∧
      (∃ str1 str2, breadthFirst f1 g name = .ok (str1, resetVisited g) ∧
        (∀ f2, g.numNodes + 1 ≤ f2 →
          breadthFirst f2 (resetVisited g) name = .ok (str2, resetVisited g)) ∧
        (AllUnvisited g → str1 = str2)) ∧
      (∃ str1 str2, minCostTree f1 g name = .ok (str1, resetVisited g) ∧
        (∀ f2, mstFuel g name ≤ f2 →
          minCostTree f2 (resetVisited g) name = .ok (str2, resetVisited g)) ∧
        (AllUnvisited g → str1 = str2))) := by
  have hwf := public_edgesInRange SIZE g hp
  by_cases hfound : findNode g name = -1
  · left
    exact ⟨hfound, fun f => by simp [breadthFirst, hfound]⟩
  · right
    have hsk := skeleton_resetVisited g
    have hwf1 : EdgesInRange (resetVisited g) := edgesInRange_of_skeleton _ _ hsk hwf
    have hun1 := allUnvisited_resetVisited g
    have hfound1 : findNode (resetVisited g) name ≠ -1 := by
      rw [findNode_of_skeleton _ _ hsk]; exact hfound
    have hnum : (resetVisited g).numNodes = g.numNodes := numNodes_of_skeleton _ _ hsk
    refine ⟨hfound, hun1, hsk, rfl, resetVisited_of_allUnvisited g, ?_, ?_⟩
    · obtain ⟨str1, h1⟩ := breadthFirst_resets g hwf name hfound f1 hf1.1
      obtain ⟨str2, h2⟩ := breadthFirst_stable (resetVisited g) hwf1 hun1 name
      refine ⟨str1, str2, h1, fun f2 hf2 => h2 f2 (by omega), fun hun => ?_⟩
      have h3 := h2 f1 (by omega)
      rw [resetVisited_of_allUnvisited g hun] at h3 h1
      rw [h1] at h3
      simp only [Run.ok.injEq, Prod.mk.injEq, and_true] at h3
      exact h3
    · obtain ⟨str1, h1⟩ := minCostTree_resets g hwf name hfound f1 hf1.2
      obtain ⟨str2, h2⟩ := minCostTree_stable (resetVisited g) hwf1 hun1 name hfound1
      have hfuel := mstFuel_of_skeleton _ _ hsk name
      refine ⟨str1, str2, h1, fun f2 hf2 => h2 f2 (by omega), fun hun => ?_⟩
      have h3 := h2 f1 (by omega)
      rw [resetVisited_of_allUnvisited g hun] at h3 h1
      rw [h1] at h3
      simp only [Run.ok.injEq, Prod.mk.injEq, and_true] at h3
      exact h3

theorem public_scenario : Public 20 scenario := by
  rw [scenario_eq_runOps]
  exact public_runOps 20 _ init Public.init

theorem traversals_repeatable_witness :
    ((findNode staleAB 'A' = -1 ∧ ∀ f, breadthFirst f staleAB 'A' = .ok ("", staleAB)) ∨
    (findNode staleAB 'A' ≠ -1 ∧
      AllUnvisited (resetVisited staleAB) ∧ skeleton (resetVisited staleAB) = skeleton staleAB ∧
      (resetVisited staleAB).edgeMatrix = staleAB.edgeMatrix ∧
      (AllUnvisited staleAB → resetVisited staleAB = staleAB) ∧
      (∃ str1 str2, breadthFirst 10 staleAB 'A' = .ok (str1, resetVisited staleAB) ∧
        (∀ f2, staleAB.numNodes + 1 ≤ f2 →
          breadthFirst f2 (resetVisited staleAB) 'A' = .ok (str2, resetVisited staleAB)) ∧
        (AllUnvisited staleAB → str1 = str2)) ∧
      (∃ str1 str2, minCostTree 10 staleAB 'A' = .ok (str1, resetVisited staleAB) ∧
        (∀ f2, mstFuel staleAB 'A' ≤ f2 →
          minCostTree f2 (resetVisited staleAB) 'A' = .ok (str2, resetVisited staleAB)) ∧
        (AllUnvisited staleAB → str1 = str2)))) ∧
    (∃ str, breadthFirst 40 scenario 'A' = .ok (str, scenario) ∧
      ∀ f2, scenario.numNodes + 1 ≤ f2 → breadthFirst f2 scenario 'A' = .ok (str, scenario)) ∧
    (∃ str, minCostTree 40 scenario 'A' = .ok (str, scenario) ∧
      ∀ f2, mstFuel scenario 'A' ≤ f2 → minCostTree f2 scenario 'A' = .ok (str, scenario)) := by
  refine ⟨traversals_repeatable 20 staleAB public_staleAB 'A' 10 (by decide), ?_⟩
  rcases traversals_repeatable 20 scenario public_scenario 'A' 40 (by decide) with
    ⟨h, -⟩ | ⟨-, -, -, -, hreset, ⟨s1, s2, h1, h2, h3⟩, ⟨t1, t2, k1, k2, k3⟩⟩
  · exact absurd h (by decide)
  · have hr := hreset scenario_allUnvisited
    rw [hr] at h1 h2 k1 k2
    rw [h3 scenario_allUnvisited] at h1
    rw [k3 scenario_allUnvisited] at k1
    exact ⟨⟨s2, h1, h2⟩, ⟨t2, k1, k2⟩⟩

end WGraph
